import Mathlib

/-!
Verification of the deep-wallwars game engine core.

This file gives a shallow embedding of the C++ sources (gamestate.cpp,
simple_policy.cpp, engine_adapter.cpp, bgs_session.cpp) and proves the
specification claims about them.  C++ `int` is modelled as `Int`,
`float`/`double` as `ℚ`, `std::vector` as `List`, exceptions as `Option`
results or an explicit error component, and `while` loops as fuelled
recursion (with fuel chosen large enough that it is never exhausted on the
executions the source can perform).
-/

namespace DW

/-- Movement directions, from gamestate.hpp `enum class Direction`. -/
inductive Direction where
  | Right
  | Down
  | Left
  | Up
deriving DecidableEq, Repr, Inhabited

/-- `kDirections` from gamestate.hpp: the four directions in source order. -/
def kDirections : List Direction :=
  [Direction.Right, Direction.Down, Direction.Left, Direction.Up]

/-- `enum class Player` from gamestate.hpp. -/
inductive Player where
  | Red
  | Blue
deriving DecidableEq, Repr, Inhabited

/-- `enum class Variant` from gamestate.hpp. -/
inductive Variant where
  | Classic
  | Standard
deriving DecidableEq, Repr, Inhabited

/-- `enum class Winner` from gamestate.hpp. -/
inductive Winner where
  | Red
  | Blue
  | Draw
  | Undecided
deriving DecidableEq, Repr, Inhabited

/-- `other_player` from gamestate.cpp. -/
def other_player : Player → Player
  | Player.Red => Player.Blue
  | Player.Blue => Player.Red

/-- `struct Cell` from gamestate.hpp: integer column/row coordinates. -/
structure Cell where
  column : Int
  row : Int
deriving DecidableEq, Repr, Inhabited

/-- `Cell::step` from gamestate.cpp. -/
def Cell.step (c : Cell) : Direction → Cell
  | Direction.Right => ⟨c.column + 1, c.row⟩
  | Direction.Down => ⟨c.column, c.row + 1⟩
  | Direction.Left => ⟨c.column - 1, c.row⟩
  | Direction.Up => ⟨c.column, c.row - 1⟩

/-- The two stored wall orientations, `Wall::Type` from gamestate.hpp. -/
inductive WallType where
  | Right
  | Down
deriving DecidableEq, Repr, Inhabited

/-- `struct Wall` from gamestate.hpp. -/
structure Wall where
  cell : Cell
  type : WallType
deriving DecidableEq, Repr, Inhabited

/-- The `Wall(Cell, Direction)` constructor from gamestate.cpp: `Left` and
`Up` walls are normalised to the `Right`/`Down` wall of the neighbouring
cell. -/
def Wall.fromDir (c : Cell) : Direction → Wall
  | Direction.Right => ⟨c, WallType.Right⟩
  | Direction.Down => ⟨c, WallType.Down⟩
  | Direction.Left => ⟨⟨c.column - 1, c.row⟩, WallType.Right⟩
  | Direction.Up => ⟨⟨c.column, c.row - 1⟩, WallType.Down⟩

/-- `Wall::direction` from gamestate.cpp. -/
def Wall.direction (w : Wall) : Direction :=
  match w.type with
  | WallType.Down => Direction.Down
  | WallType.Right => Direction.Right

/-- `enum class Pawn` from gamestate.hpp. -/
inductive Pawn where
  | Cat
  | Mouse
deriving DecidableEq, Repr, Inhabited

/-- `struct PawnMove` from gamestate.hpp (a pawn plus a direction). -/
structure PawnMove where
  pawn : Pawn
  dir : Direction
deriving DecidableEq, Repr, Inhabited

/-- `struct PreviousPosition` from gamestate.hpp. -/
structure PreviousPosition where
  pawn : Pawn
  cell : Cell
deriving DecidableEq, Repr, Inhabited

/-- `using Action = std::variant<PawnMove, Wall>` from gamestate.hpp. -/
inductive Action where
  | pawnMove (m : PawnMove)
  | wall (w : Wall)
deriving DecidableEq, Repr, Inhabited

/-- `struct Move` from gamestate.hpp: an ordered pair of actions. -/
structure Move where
  first : Action
  second : Action
deriving DecidableEq, Repr, Inhabited

/-- The `Turn::action` discriminant from gamestate.hpp. -/
inductive TurnAction where
  | First
  | Second
deriving DecidableEq, Repr, Inhabited

/-- `struct Turn` from gamestate.hpp. -/
structure Turn where
  player : Player
  action : TurnAction
deriving DecidableEq, Repr, Inhabited

/-- Per-cell bitfield `Board::State` from gamestate.hpp (all bits default to
false). -/
structure CellState where
  has_red_cat : Bool := false
  has_blue_cat : Bool := false
  has_red_right_wall : Bool := false
  has_red_down_wall : Bool := false
  has_blue_right_wall : Bool := false
  has_blue_down_wall : Bool := false
  has_red_mouse : Bool := false
  has_blue_mouse : Bool := false
deriving DecidableEq, Repr, Inhabited

/-- `Board::PlayerState` from gamestate.hpp: cat and mouse cells. -/
structure PlayerState where
  cat : Cell
  mouse : Cell
deriving DecidableEq, Repr, Inhabited

/-- `class Board` from gamestate.hpp.  `m_board` is the row-major-by-column
cell vector (`index = column * rows + row`). -/
structure Board where
  m_red : PlayerState
  m_blue : PlayerState
  m_columns : Int
  m_rows : Int
  m_variant : Variant
  m_board : List CellState
deriving DecidableEq, Repr, Inhabited

namespace Board

/-- `Board::index_from_cell`. -/
def index_from_cell (b : Board) (cell : Cell) : Int :=
  cell.column * b.m_rows + cell.row

/-- `Board::state_at` (const overload): read a cell's bitfield. -/
def state_at (b : Board) (cell : Cell) : CellState :=
  b.m_board.getD (b.index_from_cell cell).toNat {}

/-- Write access counterpart of `Board::state_at`: apply `f` to the bitfield
stored at `cell`. -/
def modify_state (b : Board) (cell : Cell) (f : CellState → CellState) : Board :=
  { b with m_board := b.m_board.set (b.index_from_cell cell).toNat (f (b.state_at cell)) }

/-- The six-argument `Board` constructor from gamestate.cpp. -/
def init (columns rows : Int) (red_cat red_mouse blue_cat blue_mouse : Cell)
    (variant : Variant) : Board :=
  let b : Board :=
    { m_red := ⟨red_cat, red_mouse⟩
      m_blue := ⟨blue_cat, blue_mouse⟩
      m_columns := columns
      m_rows := rows
      m_variant := variant
      m_board := List.replicate (columns * rows).toNat {} }
  let b := b.modify_state red_cat (fun s => { s with has_red_cat := true })
  let b := b.modify_state blue_cat (fun s => { s with has_blue_cat := true })
  let b := b.modify_state red_mouse (fun s => { s with has_red_mouse := true })
  b.modify_state blue_mouse (fun s => { s with has_blue_mouse := true })

/-- The two-argument `Board` constructor from gamestate.cpp (default pawn
placement at the four corners). -/
def init2 (columns rows : Int) (variant : Variant) : Board :=
  init columns rows ⟨0, 0⟩ ⟨0, rows - 1⟩ ⟨columns - 1, 0⟩ ⟨columns - 1, rows - 1⟩ variant

/-- `Board::is_blocked` from gamestate.cpp. -/
def is_blocked (b : Board) (wall : Wall) : Bool :=
  if wall.cell.column < 0 || wall.cell.row < 0 || wall.cell.column ≥ b.m_columns ||
      wall.cell.row ≥ b.m_rows then
    true
  else
    match wall.type with
    | WallType.Down =>
      if wall.cell.row = b.m_rows - 1 then true
      else
        let state := b.state_at wall.cell
        state.has_red_down_wall || state.has_blue_down_wall
    | WallType.Right =>
      if wall.cell.column = b.m_columns - 1 then true
      else
        let state := b.state_at wall.cell
        state.has_red_right_wall || state.has_blue_right_wall

/-- `Board::position`. -/
def position (b : Board) : Player → Cell
  | Player.Red => b.m_red.cat
  | Player.Blue => b.m_blue.cat

/-- `Board::mouse`. -/
def mouse (b : Board) : Player → Cell
  | Player.Red => b.m_red.mouse
  | Player.Blue => b.m_blue.mouse

/-- `Board::goal`: the opponent's mouse cell. -/
def goal (b : Board) (player : Player) : Cell :=
  b.mouse (other_player player)

/-- `Board::pawn_position`. -/
def pawn_position (b : Board) (player : Player) (pawn : Pawn) : Cell :=
  match pawn with
  | Pawn.Cat => b.position player
  | Pawn.Mouse => b.mouse player

/-- `Board::variant`. -/
def variant (b : Board) : Variant := b.m_variant

/-- `Board::allows_mouse_moves`. -/
def allows_mouse_moves (b : Board) : Bool :=
  b.m_variant = Variant.Standard

/-- `Board::columns`. -/
def columns (b : Board) : Int := b.m_columns

/-- `Board::rows`. -/
def rows (b : Board) : Int := b.m_rows

/-- `Board::legal_directions(Player, Pawn)` from gamestate.cpp. -/
def legal_directions (b : Board) (player : Player) (pawn : Pawn) : List Direction :=
  if pawn = Pawn.Mouse && !b.allows_mouse_moves then []
  else
    let pos := b.pawn_position player pawn
    kDirections.filter (fun dir => !b.is_blocked (Wall.fromDir pos dir))

/-- `Board::take_step(Player, Pawn, Direction)` from gamestate.cpp.  The C++
throws on a blocked wall; we return the board as mutated so far (which is the
unchanged board, since the check precedes every mutation) together with the
error. -/
def take_step (b : Board) (player : Player) (pawn : Pawn) (dir : Direction) :
    Board × Option String :=
  let position := match player, pawn with
    | Player.Red, Pawn.Cat => b.m_red.cat
    | Player.Red, Pawn.Mouse => b.m_red.mouse
    | Player.Blue, Pawn.Cat => b.m_blue.cat
    | Player.Blue, Pawn.Mouse => b.m_blue.mouse
  if b.is_blocked (Wall.fromDir position dir) then
    (b, some "Trying to move through blocked wall!")
  else
    let cleared := b.modify_state position (fun s =>
      match player, pawn with
      | Player.Red, Pawn.Cat => { s with has_red_cat := false }
      | Player.Red, Pawn.Mouse => { s with has_red_mouse := false }
      | Player.Blue, Pawn.Cat => { s with has_blue_cat := false }
      | Player.Blue, Pawn.Mouse => { s with has_blue_mouse := false })
    let target := position.step dir
    let moved := match player, pawn with
      | Player.Red, Pawn.Cat => { cleared with m_red.cat := target }
      | Player.Red, Pawn.Mouse => { cleared with m_red.mouse := target }
      | Player.Blue, Pawn.Cat => { cleared with m_blue.cat := target }
      | Player.Blue, Pawn.Mouse => { cleared with m_blue.mouse := target }
    let final := moved.modify_state target (fun s =>
      match player, pawn with
      | Player.Red, Pawn.Cat => { s with has_red_cat := true }
      | Player.Red, Pawn.Mouse => { s with has_red_mouse := true }
      | Player.Blue, Pawn.Cat => { s with has_blue_cat := true }
      | Player.Blue, Pawn.Mouse => { s with has_blue_mouse := true })
    (final, none)

/-- `Board::place_wall` from gamestate.cpp; same error convention as
`take_step`. -/
def place_wall (b : Board) (player : Player) (wall : Wall) : Board × Option String :=
  if b.is_blocked wall then
    (b, some "Trying to place on top of existing wall!")
  else
    let placed := b.modify_state wall.cell (fun s =>
      match player, wall.type with
      | Player.Red, WallType.Right => { s with has_red_right_wall := true }
      | Player.Red, WallType.Down => { s with has_red_down_wall := true }
      | Player.Blue, WallType.Right => { s with has_blue_right_wall := true }
      | Player.Blue, WallType.Down => { s with has_blue_down_wall := true })
    (placed, none)

/-- `Board::do_action` from gamestate.cpp. -/
def do_action (b : Board) (player : Player) (action : Action) : Board × Option String :=
  match action with
  | Action.pawnMove move =>
    if move.pawn = Pawn.Mouse && !b.allows_mouse_moves then
      (b, some "Mouse cannot move in classic variant")
    else
      b.take_step player move.pawn move.dir
  | Action.wall wall => b.place_wall player wall

/-- The neighbour-enqueueing `for` loop of one `Board::distance` iteration:
unblocked, not-yet-visited neighbours of `top`, queued at `dist + 1`. -/
def bfsPushes (b : Board) (visited : List Bool) (top : Cell) (dist : Int) :
    List (Cell × Int) :=
  kDirections.filterMap (fun dir =>
    if b.is_blocked (Wall.fromDir top dir) then none
    else if visited.getD (b.index_from_cell (top.step dir)).toNat false then none
    else some (top.step dir, dist + 1))

/-- The `while` loop of `Board::distance` from gamestate.cpp, as fuelled
recursion.  The queue is the BFS deque (head = front); `visited` is the
`std::vector<bool>` (marked when an entry is popped, as in the source).
The fuel is large enough that the loop always ends by emptying the queue or
reaching the target first: at most `4^d` queue entries can carry distance
`d`, and every entry's distance is below the number of cells. -/
def distanceAux (b : Board) (target : Cell) :
    Nat → List Bool → List (Cell × Int) → Int
  | _, _, [] => -1
  | 0, _, _ => -1
  | fuel + 1, visited, (top, dist) :: rest =>
    if top = target then dist
    else
      let visited' := visited.set (b.index_from_cell top).toNat true
      distanceAux b target fuel visited' (rest ++ bfsPushes b visited' top dist)

/-- `Board::distance` from gamestate.cpp: BFS distance from `start` to
`target`, `-1` when unreachable. -/
def distance (b : Board) (start target : Cell) : Int :=
  distanceAux b target (4 ^ (b.m_columns * b.m_rows).toNat)
    (List.replicate (b.m_columns * b.m_rows).toNat false) [(start, 0)]

/-- `Board::winner` from gamestate.cpp. -/
def winner (b : Board) : Winner :=
  if b.m_red.cat = b.m_blue.mouse then
    let dist := b.distance b.m_blue.cat b.m_red.mouse
    if dist ≤ 2 && dist ≠ -1 then Winner.Draw else Winner.Red
  else if b.m_blue.cat = b.m_red.mouse then Winner.Blue
  else Winner.Undecided

/-- `Board::score_for` from gamestate.cpp (`double` modelled as `ℚ`). -/
def score_for (b : Board) (player : Player) : ℚ :=
  match b.winner with
  | Winner.Draw => 0
  | Winner.Red => if player = Player.Red then 1 else -1
  | Winner.Blue => if player = Player.Blue then 1 else -1
  | Winner.Undecided =>
    let dist : ℚ := (b.distance (b.position player) (b.goal player) : ℤ)
    let opponent := other_player player
    let opponent_dist : ℚ := (b.distance (b.position opponent) (b.goal opponent) : ℤ)
    if dist < opponent_dist then 1 - dist / opponent_dist else -1 + opponent_dist / dist

end Board

/-- `Board::StackFrame` from gamestate.hpp (the explicit DFS stack frame of
`find_bridges`). -/
structure StackFrame where
  cell : Cell
  level : Int
  dir_index : Nat
  target_found : Bool
  min_level : Int
deriving DecidableEq, Repr, Inhabited

namespace Board

/-- The inner `for (dir_idx …)` scan of `Board::find_bridges`: starting at
`dir_index`, fold `min_level` updates over already-visited neighbours and
stop at the first unprocessed neighbour (returning the advanced `dir_index`
and that neighbour), or return the final accumulated `min_level` when no
unprocessed neighbour remains.  The first `Nat` is structural fuel: 5 always
suffices because the `dir_idx < 4` guard ends the scan. -/
def bridgeScan (b : Board) (levels : List Int) (cell : Cell) (level : Int) :
    Nat → Nat → Int → Int × Option (Nat × Cell)
  | 0, _, minAcc => (minAcc, none)
  | fuel + 1, dir_idx, minAcc =>
    if dir_idx < 4 then
      let dir := kDirections.getD dir_idx Direction.Right
      let wall := Wall.fromDir cell dir
      if b.is_blocked wall then bridgeScan b levels cell level fuel (dir_idx + 1) minAcc
      else
        let neighbor := cell.step dir
        let neighbor_level := levels.getD (b.index_from_cell neighbor).toNat (-1)
        if neighbor_level = level - 1 then
          bridgeScan b levels cell level fuel (dir_idx + 1) minAcc
        else if neighbor_level = -1 then (minAcc, some (dir_idx + 1, neighbor))
        else bridgeScan b levels cell level fuel (dir_idx + 1) (min minAcc neighbor_level)
    else (minAcc, none)

/-- One `while (stack_size > 0)` iteration of `Board::find_bridges`, as
fuelled recursion over the frame stack (head = top of stack).  Each
iteration either pushes a newly discovered cell or pops the top frame, so
`2·cells + 2` fuel can never be exhausted. -/
def bridgeLoop (b : Board) (target : Cell) :
    Nat → List Int → List Wall → List StackFrame → List Int × List Wall
  | 0, levels, bridges, _ => (levels, bridges)
  | _ + 1, levels, bridges, [] => (levels, bridges)
  | fuel + 1, levels, bridges, frame :: rest =>
    match b.bridgeScan levels frame.cell frame.level 5 frame.dir_index frame.min_level with
    | (minAcc, some (next_dir, neighbor)) =>
      let levels' := levels.set (b.index_from_cell neighbor).toNat (frame.level + 1)
      let frame' := { frame with dir_index := next_dir, min_level := minAcc }
      let child : StackFrame :=
        ⟨neighbor, frame.level + 1, 0, neighbor = target, frame.level + 1⟩
      bridgeLoop b target fuel levels' bridges (child :: frame' :: rest)
    | (minAcc, none) =>
      let frame' := { frame with min_level := minAcc }
      match rest with
      | [] => bridgeLoop b target fuel levels bridges []
      | parent :: rest' =>
        let bridges' :=
          if frame'.target_found && decide (frame'.min_level > parent.level) then
            let dir := kDirections.getD (parent.dir_index - 1) Direction.Right
            let w := Wall.fromDir parent.cell dir
            if bridges.contains w then bridges else w :: bridges
          else bridges
        let parent' := { parent with
          target_found := parent.target_found || frame'.target_found
          min_level := min parent.min_level frame'.min_level }
        bridgeLoop b target fuel levels bridges' (parent' :: rest')

/-- `Board::find_bridges` from gamestate.cpp: iterative DFS from `start`
computing, into `bridges`, the walls that are bridges separating `start`
from `target`.  `levels` plays the role of the caller-provided levels
vector (all `-1` for unvisited). -/
def find_bridges (b : Board) (start target : Cell) (levels : List Int)
    (bridges : List Wall) : List Int × List Wall :=
  let levels' := levels.set (b.index_from_cell start).toNat 1
  b.bridgeLoop target (2 * (b.m_columns * b.m_rows).toNat + 2) levels' bridges
    [⟨start, 1, 0, start = target, 1⟩]

/-- `Board::legal_walls` from gamestate.cpp: two bridge passes (Blue then
Red), then all unblocked walls not in the union of the bridge sets, in
column-major order with `Down` before `Right`. -/
def legal_walls (b : Board) : List Wall :=
  let n := (b.m_columns * b.m_rows).toNat
  let levels : List Int := List.replicate n (-1)
  let r1 := b.find_bridges (b.position Player.Blue) (b.goal Player.Blue) levels []
  let levels2 : List Int := List.replicate n (-1)
  let r2 := b.find_bridges (b.position Player.Red) (b.goal Player.Red) levels2 r1.2
  let illegal_walls := r2.2
  (List.range b.m_columns.toNat).flatMap (fun column =>
    (List.range b.m_rows.toNat).flatMap (fun row =>
      [WallType.Down, WallType.Right].filterMap (fun type =>
        let wall : Wall := ⟨⟨(column : Int), (row : Int)⟩, type⟩
        if !b.is_blocked wall && !illegal_walls.contains wall then some wall
        else none)))

/-- `Board::legal_actions` from gamestate.cpp. -/
def legal_actions (b : Board) (player : Player) : List Action :=
  let cat_dirs := b.legal_directions player Pawn.Cat
  let mouse_dirs :=
    if b.allows_mouse_moves then b.legal_directions player Pawn.Mouse else []
  let walls := b.legal_walls
  cat_dirs.map (fun dir => Action.pawnMove ⟨Pawn.Cat, dir⟩) ++
    mouse_dirs.map (fun dir => Action.pawnMove ⟨Pawn.Mouse, dir⟩) ++
    walls.map Action.wall

end Board

/-! ### Official notation (gamestate.cpp) -/

/-- `kColumnLabels` from gamestate.cpp. -/
def kColumnLabels : List Char := ['a', 'b', 'c', 'd', 'e', 'f', 'g', 'h', 'i', 'j', 'k', 'l', 'm']

/-- `kRowLabels` from gamestate.cpp. -/
def kRowLabels : List Char := ['1', '2', '3', '4', '5', '6', '7', '8', '9', 'X']

/-- `cell_notation` from gamestate.cpp: format a cell in official coordinates
(rows counted from the bottom starting at 1).  The C++ throws when the cell
is out of notation range; we return `none` there. -/
def cellStr (cell : Cell) (rows : Int) : Option (List Char) :=
  let official_row := rows - cell.row
  if official_row < 1 || official_row > 10 || cell.column < 0 || cell.column ≥ 13 then
    none
  else
    some [kColumnLabels.getD cell.column.toNat 'a',
      kRowLabels.getD (official_row - 1).toNat '1']

/-- `wall_notation` from gamestate.cpp: a vertical wall renders as
a greater-than sign and the stored cell, a horizontal wall as a caret and
the cell below it. -/
def wallStr (wall : Wall) (rows : Int) : Option (List Char) :=
  match wall.type with
  | WallType.Right => (cellStr wall.cell rows).map (fun s => '>' :: s)
  | WallType.Down => (cellStr (wall.cell.step Direction.Down) rows).map (fun s => '^' :: s)

/-- The comparator passed to `std::sort` in `Move::standard_notation`:
vertical (`Right`) walls come first, then cells lexicographically by
column then row. -/
def wallSortLt (a b : Wall) : Bool :=
  if a.type ≠ b.type then a.type = WallType.Right
  else
    a.cell.column < b.cell.column ||
      (a.cell.column = b.cell.column && a.cell.row < b.cell.row)

/-- `std::sort` of the (at most two-element) wall list collected by
`Move::standard_notation` under `wallSortLt`. -/
def sortWalls : List Wall → List Wall
  | [w1, w2] => if wallSortLt w2 w1 then [w2, w1] else [w1, w2]
  | ws => ws

/-- `Move::standard_notation` from gamestate.cpp: cumulative pawn
destinations rendered as `C`/`M` components, then the sorted walls,
dot-separated.  `none` models the exception thrown by the C++
`cell_notation` on out-of-range cells. -/
def Move.standardStr (m : Move) (cat_start mouse_start : Cell) (rows : Int) :
    Option (List Char) :=
  let apply_pawn_move := fun (acc : Option Cell × Option Cell × List Wall) (a : Action) =>
    match a with
    | Action.pawnMove move =>
      match move.pawn with
      | Pawn.Cat =>
        let d := match acc.1 with
          | some d => d.step move.dir
          | none => cat_start.step move.dir
        (some d, acc.2.1, acc.2.2)
      | Pawn.Mouse =>
        let d := match acc.2.1 with
          | some d => d.step move.dir
          | none => mouse_start.step move.dir
        (acc.1, some d, acc.2.2)
    | Action.wall w => (acc.1, acc.2.1, acc.2.2 ++ [w])
  let acc := apply_pawn_move (apply_pawn_move (none, none, []) m.first) m.second
  let walls := sortWalls acc.2.2
  do
    let catParts : List (List Char) ← match acc.1 with
      | none => pure []
      | some d => do
        let s ← cellStr d rows
        pure ['C' :: s]
    let mouseParts : List (List Char) ← match acc.2.1 with
      | none => pure []
      | some d => do
        let s ← cellStr d rows
        pure ['M' :: s]
    let wallParts ← walls.mapM (fun w => wallStr w rows)
    pure (List.intercalate ['.'] (catParts ++ mouseParts ++ wallParts))

/-! ### Padding and notation transforms (engine_adapter.cpp) -/

/-- `engine_adapter::PaddingConfig` from engine_adapter.hpp. -/
structure PaddingConfig where
  model_rows : Int
  model_columns : Int
  game_rows : Int
  game_columns : Int
  variant : Variant
  row_offset : Int
  col_offset : Int
deriving DecidableEq, Repr, Inhabited

/-- `PaddingConfig::needs_padding`. -/
def PaddingConfig.needs_padding (c : PaddingConfig) : Bool :=
  c.game_rows ≠ c.model_rows || c.game_columns ≠ c.model_columns

/-- `engine_adapter::create_padding_config`: Standard embeds at the top
left, Classic at the bottom, horizontally centred with floor division. -/
def create_padding_config (model_rows model_columns game_rows game_columns : Int)
    (variant : Variant) : PaddingConfig :=
  if variant = Variant.Standard then
    ⟨model_rows, model_columns, game_rows, game_columns, variant, 0, 0⟩
  else
    ⟨model_rows, model_columns, game_rows, game_columns, variant,
      model_rows - game_rows, (model_columns - game_columns) / 2⟩

/-- `engine_adapter::transform_to_model` on cells. -/
def transform_to_model (game_cell : Cell) (config : PaddingConfig) : Cell :=
  ⟨game_cell.column + config.col_offset, game_cell.row + config.row_offset⟩

/-- `engine_adapter::transform_to_model` on walls. -/
def transform_to_model_wall (game_wall : Wall) (config : PaddingConfig) : Wall :=
  ⟨transform_to_model game_wall.cell config, game_wall.type⟩

/-- `engine_adapter::transform_to_game`: `none` outside the game area. -/
def transform_to_game (model_cell : Cell) (config : PaddingConfig) : Option Cell :=
  let game_col := model_cell.column - config.col_offset
  let game_row := model_cell.row - config.row_offset
  if game_col < 0 || game_col ≥ config.game_columns || game_row < 0 ||
      game_row ≥ config.game_rows then
    none
  else
    some ⟨game_col, game_row⟩

/-- The digit-run parser underlying `std::stoi`: value of the longest digit
prefix, `none` when there is none (`std::stoi` throws there). -/
def stoiNat (s : List Char) : Option Nat :=
  let digits := s.takeWhile Char.isDigit
  if digits.isEmpty then none
  else some (digits.foldl (fun acc c => 10 * acc + (c.toNat - '0'.toNat)) 0)

/-- `std::stoi` as used by the adapter: optional minus sign then digits. -/
def stoi (s : List Char) : Option Int :=
  match s with
  | '-' :: rest => (stoiNat rest).map (fun n => -(n : Int))
  | _ => (stoiNat s).map (fun n => (n : Int))

/-- `parse_notation_coords` from engine_adapter.cpp: column from the letter,
then `internal_row = model_rows - official_row`. -/
def parseCoords (s : List Char) (model_rows : Int) : Option (Int × Int) :=
  match s with
  | [] => none
  | c0 :: rest =>
    let col : Int := (c0.toNat : Int) - ('a'.toNat : Int)
    (stoi rest).map (fun official_row => (col, model_rows - official_row))

/-- `format_notation_coords` from engine_adapter.cpp: column letter then
`official_row = game_rows - row` rendered in decimal. -/
def formatCoords (col row game_rows : Int) : List Char :=
  Char.ofNat ('a'.toNat + col.toNat) :: (toString (game_rows - row)).data

/-- One component of the loop body of `transform_move_notation` from
engine_adapter.cpp. -/
def transformComponent (config : PaddingConfig) (component : List Char) :
    Option (List Char) :=
  match component with
  | [] => none
  | c0 :: coords =>
    if c0 = 'C' || c0 = 'M' then do
      let (model_col, model_row) ← parseCoords coords config.model_rows
      match transform_to_game ⟨model_col, model_row⟩ config with
      | some game_cell =>
        pure (c0 :: formatCoords game_cell.column game_cell.row config.game_rows)
      | none =>
        if config.variant = Variant.Classic then
          let game_col :=
            if model_col < config.col_offset then 0
            else if model_col ≥ config.col_offset + config.game_columns then
              config.game_columns - 1
            else model_col - config.col_offset
          let game_row := config.game_rows - 1
          pure (c0 :: formatCoords game_col game_row config.game_rows)
        else pure component
    else if c0 = '>' || c0 = '^' then do
      let (model_col, model_row) ← parseCoords coords config.model_rows
      match transform_to_game ⟨model_col, model_row⟩ config with
      | some game_cell =>
        pure (c0 :: formatCoords game_cell.column game_cell.row config.game_rows)
      | none => pure component
    else pure component

/-- `transform_move_notation` from engine_adapter.cpp: translate each
dot-separated component of a model-coordinate move string into game
coordinates.  `none` models a `std::stoi` exception escaping the loop. -/
def transformMoveStr (model_str : List Char) (_cat_pos _mouse_pos : Cell)
    (config : PaddingConfig) : Option (List Char) :=
  if !config.needs_padding then some model_str
  else if model_str.isEmpty then some []
  else do
    let comps ← (model_str.splitOn '.').mapM (transformComponent config)
    pure (List.intercalate ['.'] comps)

/-- The action representation constructed by `parse_single_action` in
engine_adapter.cpp.  For pawn components the source constructs
`PawnMove{pawn, model_cell}` from a destination `Cell`, which does not match
the `PawnMove` declaration of gamestate.hpp (whose second field is a
`Direction`); we embed what the parser actually builds. -/
inductive ParsedAction where
  | pawnTo (pawn : Pawn) (cell : Cell)
  | wall (w : Wall)
deriving DecidableEq, Repr, Inhabited

/-- The move representation produced by `parse_move_notation` in
engine_adapter.cpp (see `ParsedAction`). -/
structure ParsedMove where
  first : ParsedAction
  second : ParsedAction
deriving DecidableEq, Repr, Inhabited

/-- `parse_single_action` from engine_adapter.cpp: one component of a
game-coordinate move string.  Rows are converted by `official_row - 1`
("1-indexed to 0-indexed"). -/
def parse_single_action (action_str : List Char) (config : PaddingConfig) :
    Option ParsedAction :=
  match action_str with
  | [] => none
  | type_char :: coords =>
    if coords.length < 2 then none
    else
      match coords with
      | [] => none
      | col_char :: rest =>
        let game_col : Int := (col_char.toNat : Int) - ('a'.toNat : Int)
        match stoi rest with
        | none => none
        | some v =>
          let game_row := v - 1
          let model_cell := transform_to_model ⟨game_col, game_row⟩ config
          if type_char = 'C' then some (ParsedAction.pawnTo Pawn.Cat model_cell)
          else if type_char = 'M' then some (ParsedAction.pawnTo Pawn.Mouse model_cell)
          else if type_char = '>' then
            some (ParsedAction.wall ⟨model_cell, WallType.Right⟩)
          else if type_char = '^' then
            some (ParsedAction.wall ⟨⟨model_cell.column, model_cell.row - 1⟩, WallType.Down⟩)
          else none

/-- `parse_move_notation` from engine_adapter.cpp: split at the first dot
into exactly two actions (`none` when there is no dot), and parse each with
`parse_single_action`.  The board and turn parameters are accepted and
ignored, as in the source. -/
def parseMoveStr (s : List Char) (_board : Board) (_turn : Turn)
    (config : PaddingConfig) : Option ParsedMove := do
  let action1_str := s.takeWhile (fun c => c ≠ '.')
  let rest := s.dropWhile (fun c => c ≠ '.')
  match rest with
  | [] => none
  | _ :: action2_str => do
    let action1 ← parse_single_action action1_str config
    let action2 ← parse_single_action action2_str config
    pure ⟨action1, action2⟩

/-! ### Heuristic evaluator (simple_policy.cpp) -/

/-- Modelled from the spec: `TreeEdge` is declared in mcts.hpp, which is not
among the sources; §3 of the spec describes it as an `(action, prior)` pair
(the search-time counters are not used by the evaluator). -/
structure TreeEdge where
  action : Action
  prior : ℚ
deriving DecidableEq, Repr, Inhabited

/-- Modelled from the spec: `Evaluation` is declared in mcts.hpp, which is
not among the sources; §3 of the spec describes it as a value together with
the prior edges. -/
structure Evaluation where
  value : ℚ
  edges : List TreeEdge
deriving DecidableEq, Repr, Inhabited

/-- `class SimplePolicy` from simple_policy.hpp (the three `float`
parameters, modelled as `ℚ`). -/
structure SimplePolicy where
  m_move_prior : ℚ
  m_good_move_bias : ℚ
  m_bad_move_bias : ℚ
deriving DecidableEq, Repr, Inhabited

/-- The `is_backtrack` lambda of `SimplePolicy::operator()`: the move steps
the given pawn back onto its just-vacated cell. -/
def isBacktrack (previous_position : Option PreviousPosition) (pawn : Pawn)
    (next_cell : Cell) : Bool :=
  match previous_position with
  | some pp => pp.pawn = pawn && pp.cell = next_cell
  | none => false

/-- The raw cat-move prior of `SimplePolicy::operator()` (`float prior = 1`
then the two distance-comparison overrides): `good_move_bias` when the step
decreases the BFS distance to the goal, `bad_move_bias` when it increases
it, `1` otherwise. -/
def SimplePolicy.catPrior (p : SimplePolicy) (board : Board) (turn : Turn)
    (dir : Direction) : ℚ :=
  let pos := board.position turn.player
  let goal := board.goal turn.player
  let dist := board.distance pos goal
  let new_dist := board.distance (pos.step dir) goal
  if new_dist < dist then p.m_good_move_bias
  else if new_dist > dist then p.m_bad_move_bias
  else 1

/-- The raw mouse-move prior of `SimplePolicy::operator()` (Standard only):
biased away from the opponent cat. -/
def SimplePolicy.mousePrior (p : SimplePolicy) (board : Board) (turn : Turn)
    (dir : Direction) : ℚ :=
  let pos := board.mouse turn.player
  let target := board.position (other_player turn.player)
  let dist := board.distance pos target
  let new_dist := board.distance (pos.step dir) target
  if new_dist > dist then p.m_good_move_bias
  else if new_dist < dist then p.m_bad_move_bias
  else 1

/-- The `add_cat_moves` lambda of `SimplePolicy::operator()`: one edge per
legal, non-backtrack cat direction; non-positive priors are dropped. -/
def SimplePolicy.catEdges (p : SimplePolicy) (board : Board) (turn : Turn)
    (previous_position : Option PreviousPosition) : List TreeEdge :=
  (board.legal_directions turn.player Pawn.Cat).filterMap (fun dir =>
    if isBacktrack previous_position Pawn.Cat ((board.position turn.player).step dir) then none
    else if p.catPrior board turn dir > 0 then
      some (TreeEdge.mk (Action.pawnMove ⟨Pawn.Cat, dir⟩) (p.catPrior board turn dir))
    else none)

/-- The `add_mouse_moves` lambda of `SimplePolicy::operator()` (Standard
only). -/
def SimplePolicy.mouseEdges (p : SimplePolicy) (board : Board) (turn : Turn)
    (previous_position : Option PreviousPosition) : List TreeEdge :=
  (board.legal_directions turn.player Pawn.Mouse).filterMap (fun dir =>
    if isBacktrack previous_position Pawn.Mouse ((board.mouse turn.player).step dir) then none
    else if p.mousePrior board turn dir > 0 then
      some (TreeEdge.mk (Action.pawnMove ⟨Pawn.Mouse, dir⟩) (p.mousePrior board turn dir))
    else none)

/-- The pawn edges collected by `SimplePolicy::operator()` before
renormalisation (cat moves, then mouse moves in Standard). -/
def SimplePolicy.pawnEdges (p : SimplePolicy) (board : Board) (turn : Turn)
    (previous_position : Option PreviousPosition) : List TreeEdge :=
  p.catEdges board turn previous_position ++
    (if board.allows_mouse_moves then p.mouseEdges board turn previous_position else [])

/-- `SimplePolicy::operator()` from simple_policy.cpp: distance-biased pawn
priors (dropped when non-positive), rescaled by `move_prior / total`, then
uniform wall priors, with value `board.score_for(turn.player)`. -/
def SimplePolicy.run (p : SimplePolicy) (board : Board) (turn : Turn)
    (previous_position : Option PreviousPosition) : Evaluation :=
  let legal_walls := if p.m_move_prior < 1 then board.legal_walls else []
  let pawn_edges := p.pawnEdges board turn previous_position
  let total_prior : ℚ := (pawn_edges.map TreeEdge.prior).sum
  let pawn_edges :=
    if total_prior > 0 then
      pawn_edges.map (fun te => { te with prior := te.prior * (p.m_move_prior / total_prior) })
    else pawn_edges
  let wall_edges :=
    if !legal_walls.isEmpty then
      let wall_prior := (1 - p.m_move_prior) / (legal_walls.length : ℚ)
      legal_walls.map (fun w => TreeEdge.mk (Action.wall w) wall_prior)
    else []
  ⟨board.score_for turn.player, pawn_edges ++ wall_edges⟩

/-! ### BGS session layer (bgs_session.cpp)

mcts.hpp/mcts.cpp are not among the sources, so the MCTS is abstracted:
an `MctsOps` value supplies the operations the handlers invoke, and the
handlers additionally record which tree-mutating MCTS operations they
performed (the event trace), so that "no sampling happened" is expressible.
-/

/-- Modelled from the spec: the MCTS interface used by bgs_session.cpp
(`sample`, `root_value`, `peek_best_move`, `current_board`, `force_move`
of the missing mcts.hpp).  `force_move` returns `none` where the C++
throws, and `sample` returns the mutated tree state. -/
structure MctsOps (σ : Type) where
  sample : σ → Int → σ
  root_value : σ → ℚ
  peek_best_move : σ → Option Move
  current_board : σ → Board
  force_move : σ → ParsedMove → Option σ

/-- `struct BgsSession` from bgs_session.hpp (the mutex is a no-op in this
sequential model; the MCTS tree is the abstract state `σ`). -/
structure BgsSession (σ : Type) where
  bgs_id : List Char
  mcts : σ
  ply : Int
  padding_config : PaddingConfig
  game_rows : Int
  game_columns : Int
deriving DecidableEq

/-- `struct BgsEngineConfig` from bgs_session.hpp. -/
structure BgsEngineConfig where
  samples_per_move : Int := 1000
  max_parallel_samples : Int := 4
  base_seed : Int := 42
  model_rows : Int := 8
  model_columns : Int := 8
deriving DecidableEq, Repr, Inhabited

/-- The JSON produced by `create_evaluate_response` in bgs_session.cpp. -/
structure EvaluateResponse where
  bgsId : List Char
  ply : Int
  bestMove : List Char
  evaluation : ℚ
  success : Bool
  error : List Char
deriving DecidableEq, Repr, Inhabited

/-- The JSON produced by `create_move_applied_response` in bgs_session.cpp. -/
structure MoveAppliedResponse where
  bgsId : List Char
  ply : Int
  success : Bool
  error : List Char
deriving DecidableEq, Repr, Inhabited

/-- Trace entries for the tree-mutating MCTS calls a handler performs. -/
inductive MctsEvent where
  | sampleCall (n : Int)
  | forceMoveCall (m : ParsedMove)
deriving DecidableEq, Repr

/-- `std::clamp`. -/
def clamp (v lo hi : ℚ) : ℚ :=
  if v < lo then lo else if hi < v then hi else v

/-- `handle_evaluate_position` from bgs_session.cpp.  The result is the JSON
response, the session state after the call, and the trace of tree-mutating
MCTS calls; the outer `none` models the (uncaught) exception thrown by
`cell_notation` when a cell cannot be rendered. -/
def handle_evaluate_position {σ : Type} (ops : MctsOps σ) (config : BgsEngineConfig)
    (session : Option (BgsSession σ)) (bgs_id : List Char) (expected_ply : Int) :
    Option (EvaluateResponse × Option (BgsSession σ) × List MctsEvent) :=
  match session with
  | none =>
    some (⟨bgs_id, expected_ply, [], 0, false, ("Session not found").data⟩, none, [])
  | some s =>
    if s.ply ≠ expected_ply then
      some (⟨bgs_id, s.ply, [], 0, false,
        ("Ply mismatch: expected ").data ++ (toString expected_ply).data ++
          (", got ").data ++ (toString s.ply).data⟩, some s, [])
    else
      let mcts1 := ops.sample s.mcts config.samples_per_move
      let raw_eval := ops.root_value mcts1
      match ops.peek_best_move mcts1 with
      | none =>
        some (⟨bgs_id, s.ply, [], 0, false, ("No legal move available").data⟩,
          some { s with mcts := mcts1 }, [MctsEvent.sampleCall config.samples_per_move])
      | some move =>
        let current_player := if s.ply % 2 = 0 then Player.Red else Player.Blue
        let board := ops.current_board mcts1
        let cat_pos := board.position current_player
        let mouse_pos := board.mouse current_player
        (Move.standardStr move cat_pos mouse_pos board.rows).bind (fun model_str =>
          (transformMoveStr model_str cat_pos mouse_pos s.padding_config).bind (fun game_str =>
            let evaluation :=
              if current_player = Player.Red then raw_eval else -raw_eval
            let evaluation := clamp evaluation (-1) 1
            some (⟨bgs_id, s.ply, game_str, evaluation, true, []⟩,
              some { s with mcts := mcts1 },
              [MctsEvent.sampleCall config.samples_per_move])))

/-- `handle_apply_move` from bgs_session.cpp: validate ply, parse the
notation, `force_move`, and increment the ply; parse and move failures are
reported with `success = false` and leave the session at its old ply. -/
def handle_apply_move {σ : Type} (ops : MctsOps σ)
    (session : Option (BgsSession σ)) (bgs_id : List Char) (expected_ply : Int)
    (move_str : List Char) :
    MoveAppliedResponse × Option (BgsSession σ) × List MctsEvent :=
  match session with
  | none => (⟨bgs_id, expected_ply, false, ("Session not found").data⟩, none, [])
  | some s =>
    if s.ply ≠ expected_ply then
      (⟨bgs_id, s.ply, false,
        ("Ply mismatch: expected ").data ++ (toString expected_ply).data ++
          (", got ").data ++ (toString s.ply).data⟩, some s, [])
    else
      let current_player := if s.ply % 2 = 0 then Player.Red else Player.Blue
      let turn : Turn := ⟨current_player, TurnAction.First⟩
      match parseMoveStr move_str (ops.current_board s.mcts) turn s.padding_config with
      | none =>
        (⟨bgs_id, s.ply, false,
          ("Failed to parse move notation: ").data ++ move_str⟩, some s, [])
      | some pm =>
        match ops.force_move s.mcts pm with
        | none =>
          (⟨bgs_id, s.ply, false, ("Failed to apply move: ").data⟩, some s,
            [MctsEvent.forceMoveCall pm])
        | some mcts1 =>
          let s1 := { s with mcts := mcts1, ply := s.ply + 1 }
          (⟨bgs_id, s1.ply, true, []⟩, some s1, [MctsEvent.forceMoveCall pm])

/-- Substring test used to state "the error contains …". -/
def containsSub (hay needle : List Char) : Bool :=
  (List.range (hay.length + 1)).any (fun i => needle.isPrefixOf (hay.drop i))

/-! ### Specification-side graph notions for the legal-wall claim -/

/-- Two cells are adjacent when some direction leads from one to the other
through an unblocked wall (the movement graph of the board). -/
def cellAdj (b : Board) (c c' : Cell) : Prop :=
  ∃ d ∈ kDirections, b.is_blocked (Wall.fromDir c d) = false ∧ c' = c.step d

/-- A cell reaches another if a path of unblocked steps connects them. -/
def reaches (b : Board) (s t : Cell) : Prop :=
  Relation.ReflTransGen (cellAdj b) s t

/-- The board with wall `w` hypothetically placed (via the source's
`place_wall`; the placing player does not affect `is_blocked`). -/
def Board.hypPlace (b : Board) (w : Wall) : Board :=
  (b.place_wall Player.Red w).1

/-! ### Proof-side machinery for the `legal_walls` claim

The correctness proof of `find_bridges` tracks the iterative DFS with a
ghost decoration: for every stack frame, the set of cells whose subtrees
below that frame are already fully explored, and a ghost parent map
recording the DFS tree edge through which each cell was first discovered.
The definitions below are proof-side notions (not source translations). -/

/-- The direction pointing back across the same wall. -/
def oppositeDir : Direction → Direction
  | Direction.Right => Direction.Left
  | Direction.Left => Direction.Right
  | Direction.Up => Direction.Down
  | Direction.Down => Direction.Up

/-- A cell lies on the board (the class invariant for pawn positions). -/
def InBounds (b : Board) (c : Cell) : Prop :=
  0 ≤ c.column ∧ c.column < b.m_columns ∧ 0 ≤ c.row ∧ c.row < b.m_rows

instance (b : Board) (c : Cell) : Decidable (InBounds b c) :=
  inferInstanceAs (Decidable (0 ≤ c.column ∧ c.column < b.m_columns ∧
    0 ≤ c.row ∧ c.row < b.m_rows))

/-- The level recorded for a cell in the DFS levels vector (`-1` default). -/
def lvl (b : Board) (levels : List Int) (c : Cell) : Int :=
  levels.getD (b.index_from_cell c).toNat (-1)

/-- A cell already discovered by the DFS. -/
def discovered (b : Board) (levels : List Int) (c : Cell) : Prop :=
  InBounds b c ∧ lvl b levels c ≠ -1

/-- One step of the ghost parent map: `x`'s recorded parent is `y`. -/
def parRel (par : Cell → Option (Cell × Direction)) (x y : Cell) : Prop :=
  ∃ d, par x = some (y, d)

/-- `x` lies in the ghost subtree rooted at `u` (its parent chain hits `u`). -/
def inTree (par : Cell → Option (Cell × Direction)) (u x : Cell) : Prop :=
  Relation.ReflTransGen (parRel par) x u

/-- The cells held by the DFS stack frames. -/
def stackCells (stack : List StackFrame) : List Cell :=
  stack.map (fun fr => fr.cell)

/-- Outcome of one already-scanned direction `j` of a frame at `cell` /
`level` whose running minimum is `m`: the wall is blocked, or the
neighbour was skipped as the parent (level `level - 1`), or it was
already discovered and contributed to the minimum. -/
def scanStep (b : Board) (levels : List Int) (cell : Cell) (level m : Int)
    (j : Nat) : Prop :=
  b.is_blocked (Wall.fromDir cell (kDirections.getD j Direction.Right)) = true ∨
  (b.is_blocked (Wall.fromDir cell (kDirections.getD j Direction.Right)) = false ∧
    (lvl b levels (cell.step (kDirections.getD j Direction.Right)) = level - 1 ∨
     (lvl b levels (cell.step (kDirections.getD j Direction.Right)) ≠ -1 ∧
      m ≤ lvl b levels (cell.step (kDirections.getD j Direction.Right)))))

/-- Invariant of a single DFS stack frame `fr` with ghost finished-set `D`.
`aboveCell` is the cell of the frame stacked directly on top of `fr` (its
in-progress child), `belowCells` the cells of the frames below it (its
ancestor chain, root last). -/
def frameFacts (b : Board) (t : Cell) (levels : List Int)
    (par : Cell → Option (Cell × Direction)) (aboveCell : Option Cell)
    (fr : StackFrame) (D : Set Cell) (belowCells : List Cell) : Prop :=
  InBounds b fr.cell ∧
  lvl b levels fr.cell = fr.level ∧
  fr.level = (belowCells.length : Int) + 1 ∧
  fr.dir_index ≤ 4 ∧
  fr.min_level ≤ fr.level ∧
  (fr.target_found = true ↔ (fr.cell = t ∨ t ∈ D)) ∧
  (∀ x ∈ D, discovered b levels x ∧ fr.level < lvl b levels x) ∧
  (∀ x ∈ D, ∃ y d, par x = some (y, d) ∧ (y ∈ D ∨ y = fr.cell)) ∧
  (∀ x ∈ D, ∀ d ∈ kDirections, b.is_blocked (Wall.fromDir x d) = false →
    x.step d ∈ D ∨ x.step d = fr.cell ∨ x.step d ∈ belowCells) ∧
  (∀ x ∈ D, ∀ d ∈ kDirections, b.is_blocked (Wall.fromDir x d) = false →
    x.step d ∈ D ∨ fr.min_level ≤ lvl b levels (x.step d) ∨
      lvl b levels (x.step d) = lvl b levels x - 1) ∧
  (∀ j : Nat, j < fr.dir_index →
    b.is_blocked (Wall.fromDir fr.cell (kDirections.getD j Direction.Right)) = false →
    (fr.cell.step (kDirections.getD j Direction.Right) ∈ D ∨
     fr.cell.step (kDirections.getD j Direction.Right) ∈ belowCells ∨
     some (fr.cell.step (kDirections.getD j Direction.Right)) = aboveCell) ∧
    (fr.min_level ≤ lvl b levels (fr.cell.step (kDirections.getD j Direction.Right)) ∨
     lvl b levels (fr.cell.step (kDirections.getD j Direction.Right)) = fr.level - 1)) ∧
  (fr.min_level = fr.level ∨ ∃ y dd, (y ∈ D ∨ y = fr.cell) ∧ dd ∈ kDirections ∧
    b.is_blocked (Wall.fromDir y dd) = false ∧
    discovered b levels (y.step dd) ∧
    lvl b levels (y.step dd) = fr.min_level ∧
    lvl b levels (y.step dd) ≠ lvl b levels y - 1) ∧
  (∀ x, discovered b levels x → ∀ d, par x = some (fr.cell, d) →
    x ∈ D ∨ some x = aboveCell)

/-- Invariant of the whole DFS stack (head = top frame), with its list of
ghost finished-sets.  `aboveCell` is the cell stacked on top of the head
(none for the true top). -/
def StacksOK (b : Board) (s t : Cell) (levels : List Int)
    (par : Cell → Option (Cell × Direction)) :
    Option Cell → List StackFrame → List (Set Cell) → Prop
  | _, [], [] => True
  | aboveCell, fr :: rest, D :: Ds =>
    frameFacts b t levels par aboveCell fr D (stackCells rest) ∧
    (match rest with
     | [] => fr.cell = s
     | p :: _ =>
       1 ≤ p.dir_index ∧
       b.is_blocked (Wall.fromDir p.cell
         (kDirections.getD (p.dir_index - 1) Direction.Right)) = false ∧
       p.cell.step (kDirections.getD (p.dir_index - 1) Direction.Right) = fr.cell ∧
       par fr.cell =
         some (p.cell, kDirections.getD (p.dir_index - 1) Direction.Right)) ∧
    StacksOK b s t levels par (some fr.cell) rest Ds
  | _, _, _ => False

/-- Global invariant of the `find_bridges` loop state, with ghost data
`Ds` (per-frame finished sets) and `par` (DFS tree parent map). -/
structure LoopInv (b : Board) (s t : Cell) (levels : List Int)
    (bridges : List Wall) (stack : List StackFrame) (Ds : List (Set Cell))
    (par : Cell → Option (Cell × Direction)) : Prop where
  hrows : 0 < b.m_rows
  hcols : 0 < b.m_columns
  hlevlen : levels.length = (b.m_columns * b.m_rows).toNat
  hlenDs : Ds.length = stack.length
  hne : stack ≠ []
  hstacks : StacksOK b s t levels par none stack Ds
  hdisc : ∀ x, discovered b levels x ↔ (x ∈ stackCells stack ∨ ∃ D ∈ Ds, x ∈ D)
  hdisjoint : ∀ fr ∈ stack, ∀ D ∈ Ds, fr.cell ∉ D
  hlvlpos : ∀ x, discovered b levels x →
    1 ≤ lvl b levels x ∧ (lvl b levels x = 1 ↔ x = s)
  hpar : ∀ x, discovered b levels x → x ≠ s →
    ∃ y d, par x = some (y, d) ∧ discovered b levels y ∧ d ∈ kDirections ∧
      b.is_blocked (Wall.fromDir y d) = false ∧ y.step d = x ∧
      lvl b levels y = lvl b levels x - 1
  hparnone : ∀ x, ¬ discovered b levels x → par x = none
  hpars : par s = none
  hparfin : ∀ x, discovered b levels x → ∀ y d, par x = some (y, d) →
    ∀ D ∈ Ds, y ∈ D → x ∈ D
  hcomp : ∀ D ∈ Ds, ∀ u ∈ D, ∃ y d, par u = some (y, d) ∧
    (Wall.fromDir y d ∈ bridges ∨
     ¬ inTree par u t ∨
     (inTree par u t ∧ ∃ z dd, inTree par u z ∧ dd ∈ kDirections ∧
       b.is_blocked (Wall.fromDir z dd) = false ∧
       discovered b levels (z.step dd) ∧ ¬ inTree par u (z.step dd) ∧
       lvl b levels (z.step dd) ≠ lvl b levels z - 1))

/-- What the rest of the loop guarantees about its final state
`(levelsE, bridgesE)` with ghost parent map `parE`, relative to the
current state. -/
structure LoopPost (b : Board) (s t : Cell) (levels levelsE : List Int)
    (bridges bridgesE : List Wall) (stack : List StackFrame)
    (par parE : Cell → Option (Cell × Direction)) : Prop where
  hsub : ∀ w ∈ bridges, w ∈ bridgesE
  hlenE : levelsE.length = levels.length
  hstable : ∀ x, discovered b levels x → lvl b levelsE x = lvl b levels x
  hparstable : ∀ x, discovered b levels x → parE x = par x
  hparnoneE : ∀ x, ¬ discovered b levelsE x → parE x = none
  hfresh : ∀ x, discovered b levelsE x → ¬ discovered b levels x →
    ∃ y d, parE x = some (y, d) ∧
      (y ∈ stackCells stack ∨ (discovered b levelsE y ∧ ¬ discovered b levels y))
  hclosure : ∀ x, discovered b levelsE x → ∀ d ∈ kDirections,
    b.is_blocked (Wall.fromDir x d) = false → discovered b levelsE (x.step d)
  hparE : ∀ x, discovered b levelsE x → x ≠ s →
    ∃ y d, parE x = some (y, d) ∧ discovered b levelsE y ∧ d ∈ kDirections ∧
      b.is_blocked (Wall.fromDir y d) = false ∧ y.step d = x ∧
      lvl b levelsE y = lvl b levelsE x - 1
  hlvlposE : ∀ x, discovered b levelsE x →
    1 ≤ lvl b levelsE x ∧ (lvl b levelsE x = 1 ↔ x = s)
  hsound : ∀ w ∈ bridgesE, w ∈ bridges ∨
    (b.is_blocked w = false ∧ ¬ reaches (b.hypPlace w) s t)
  hcompE : ∀ u, discovered b levelsE u → u ≠ s →
    ∃ y d, parE u = some (y, d) ∧
      (Wall.fromDir y d ∈ bridgesE ∨ reaches (b.hypPlace (Wall.fromDir y d)) s t)

/-! ### Concrete objects used by witnesses and counterexamples -/

/-- Default 4×4 Classic board. -/
def board44 : Board := Board.init2 4 4 Variant.Classic

/-- Default 8×8 Classic board. -/
def board88 : Board := Board.init2 8 8 Variant.Classic

/-- Identity padding for a 4×4 game on a 4×4 model. -/
def pad44 : PaddingConfig := create_padding_config 4 4 4 4 Variant.Classic

/-- Identity padding for an 8×8 game on an 8×8 model. -/
def pad88 : PaddingConfig := create_padding_config 8 8 8 8 Variant.Classic

/-- Default 2×2 Classic board (used by the `legal_walls` witness). -/
def board22 : Board := Board.init2 2 2 Variant.Classic

/-- 2×2 Classic board with the single wall `(a, Right)` placed: the three
remaining wall slots are all bridges, so `legal_walls` is empty. -/
def noWallBoard : Board :=
  ((Board.init2 2 2 Variant.Classic).place_wall Player.Red ⟨⟨0, 0⟩, WallType.Right⟩).1

/-- 2×2 Classic board on which the red cat is walled in (distance to its
goal is the `-1` sentinel) while the game is still undecided. -/
def trappedBoard : Board :=
  (noWallBoard.place_wall Player.Red ⟨⟨0, 0⟩, WallType.Down⟩).1

/-- A concrete trivial MCTS used to exercise the session handlers: the tree
state is `Unit`, the root value 2 (so clamping is visible), the peeked best
move a double cat step, and the current board the default 4×4. -/
def unitOps : MctsOps Unit :=
  { sample := fun _ _ => ()
    root_value := fun _ => 2
    peek_best_move := fun _ => some
      ⟨Action.pawnMove ⟨Pawn.Cat, Direction.Right⟩, Action.pawnMove ⟨Pawn.Cat, Direction.Right⟩⟩
    current_board := fun _ => board44
    force_move := fun _ _ => some () }

/-- A concrete session at ply 0 over `unitOps`, without padding. -/
def unitSession : BgsSession Unit := ⟨("sid").data, (), 0, pad44, 4, 4⟩

/-! ## Theorems -/

/-- `clamp` keeps its value inside the interval. -/
theorem clamp_mem (v lo hi : ℚ) (h : lo ≤ hi) : lo ≤ clamp v lo hi ∧ clamp v lo hi ≤ hi := by
  unfold clamp
  split_ifs <;> constructor <;> linarith

/-- A prefix of the haystack is a contained substring. -/
theorem containsSub_of_isPrefixOf (hay n : List Char) (h : n.isPrefixOf hay = true) :
    containsSub hay n = true := by
  unfold containsSub
  rw [List.any_eq_true]
  refine ⟨0, ?_, ?_⟩
  · simp
  · simpa using h

/-- Every entry queued by `bfsPushes` carries distance `dist + 1`. -/
theorem bfsPushes_snd (b : Board) (visited : List Bool) (top : Cell) (dist : Int) :
    ∀ e ∈ Board.bfsPushes b visited top dist, e.2 = dist + 1 := by
  intro e he
  rcases List.mem_filterMap.mp he with ⟨dir, -, hdir⟩
  by_cases h1 : b.is_blocked (Wall.fromDir top dir) = true
  · rw [if_pos h1] at hdir
    cases hdir
  · rw [if_neg h1] at hdir
    by_cases h2 : visited.getD (b.index_from_cell (top.step dir)).toNat false = true
    · rw [if_pos h2] at hdir
      cases hdir
    · rw [if_neg h2] at hdir
      injection hdir with h
      subst h
      rfl

/-- Each BFS result is `-1` or at least the smallest distance in the queue. -/
theorem distanceAux_lower (b : Board) (target : Cell) (m : Int) :
    ∀ (fuel : Nat) (visited : List Bool) (queue : List (Cell × Int)),
      (∀ e ∈ queue, m ≤ e.2) →
      Board.distanceAux b target fuel visited queue = -1 ∨
        m ≤ Board.distanceAux b target fuel visited queue := by
  intro fuel
  induction fuel with
  | zero =>
    intro visited queue _
    cases queue with
    | nil => left; rfl
    | cons e rest => left; rfl
  | succ n ih =>
    intro visited queue hq
    cases queue with
    | nil => left; rfl
    | cons e rest =>
      obtain ⟨top, dist⟩ := e
      rw [Board.distanceAux]
      split_ifs with htop
      · right
        exact hq (top, dist) (List.mem_cons_self _ _)
      · apply ih
        intro e' he'
        rcases List.mem_append.mp he' with h' | h'
        · exact hq e' (List.mem_cons_of_mem _ h')
        · have h2 := bfsPushes_snd b _ top dist e' h'
          have := hq (top, dist) (List.mem_cons_self _ _)
          simp only at this
          omega

/-- The BFS distance is `-1` or non-negative. -/
theorem distance_neg_one_or_nonneg (b : Board) (s t : Cell) :
    b.distance s t = -1 ∨ 0 ≤ b.distance s t := by
  unfold Board.distance
  refine distanceAux_lower b t 0 _ _ _ ?_
  intro e he
  simp only [List.mem_singleton] at he
  subst he
  exact le_refl 0

/-- Between distinct cells the BFS distance is `-1` or at least 1. -/
theorem distance_pos_of_ne (b : Board) (s t : Cell) (h : s ≠ t) :
    b.distance s t = -1 ∨ 1 ≤ b.distance s t := by
  unfold Board.distance
  have hpos : 0 < 4 ^ (b.m_columns * b.m_rows).toNat := Nat.pos_pow_of_pos _ (by omega)
  have hfuel : 4 ^ (b.m_columns * b.m_rows).toNat =
      (4 ^ (b.m_columns * b.m_rows).toNat - 1) + 1 := by omega
  rw [hfuel, Board.distanceAux]
  split_ifs with htop
  · exact absurd htop h
  · apply distanceAux_lower
    intro e he
    rcases List.mem_append.mp he with h' | h'
    · cases h'
    · have := bfsPushes_snd b _ s 0 e h'
      omega

/-- C3: `winner()` returns `Draw` exactly when the red cat and blue mouse
coincide and the BFS distance from the blue cat to the red mouse is at most
2 and not the `-1` sentinel; `Red` when they coincide otherwise; `Blue`
when (the first case not applying) the blue cat and red mouse coincide; and
`Undecided` in all other cases. -/
theorem winner_characterisation (b : Board) :
    (b.winner = Winner.Draw ↔
      b.m_red.cat = b.m_blue.mouse ∧ b.distance b.m_blue.cat b.m_red.mouse ≤ 2 ∧
        b.distance b.m_blue.cat b.m_red.mouse ≠ -1) ∧
    (b.winner = Winner.Red ↔
      b.m_red.cat = b.m_blue.mouse ∧
        ¬(b.distance b.m_blue.cat b.m_red.mouse ≤ 2 ∧
          b.distance b.m_blue.cat b.m_red.mouse ≠ -1)) ∧
    (b.winner = Winner.Blue ↔
      b.m_red.cat ≠ b.m_blue.mouse ∧ b.m_blue.cat = b.m_red.mouse) ∧
    (b.winner = Winner.Undecided ↔
      b.m_red.cat ≠ b.m_blue.mouse ∧ b.m_blue.cat ≠ b.m_red.mouse) := by
  simp only [Board.winner]
  split_ifs with h1 h2 h3 <;> simp_all

/-- C9: in the Classic variant the mouse has no legal directions and
`do_action` on a mouse move errors without changing the board; in Standard
the mouse's legal directions are exactly the unblocked ones. -/
theorem classic_mouse_spec (b : Board) (p : Player) :
    (b.m_variant = Variant.Classic →
      b.legal_directions p Pawn.Mouse = [] ∧
      ∀ d : Direction,
        b.do_action p (Action.pawnMove ⟨Pawn.Mouse, d⟩) =
          (b, some "Mouse cannot move in classic variant")) ∧
    (b.m_variant = Variant.Standard →
      b.legal_directions p Pawn.Mouse =
        kDirections.filter (fun d => !b.is_blocked (Wall.fromDir (b.mouse p) d))) := by
  constructor
  · intro hv
    have hm : b.allows_mouse_moves = false := by
      unfold Board.allows_mouse_moves
      rw [hv]; rfl
    constructor
    · unfold Board.legal_directions
      rw [hm]; rfl
    · intro d
      unfold Board.do_action
      rw [hm]; rfl
  · intro hv
    have hm : b.allows_mouse_moves = true := by
      unfold Board.allows_mouse_moves
      rw [hv]; rfl
    unfold Board.legal_directions
    rw [hm]
    simp [Board.pawn_position]

/-- Witness for C9 at a concrete Classic and a concrete Standard board. -/
theorem classic_mouse_spec_witness :
    (board44.legal_directions Player.Red Pawn.Mouse = [] ∧
      board44.do_action Player.Red (Action.pawnMove ⟨Pawn.Mouse, Direction.Up⟩) =
        (board44, some "Mouse cannot move in classic variant")) ∧
    (Board.init2 4 4 Variant.Standard).legal_directions Player.Red Pawn.Mouse =
      kDirections.filter
        (fun d => !(Board.init2 4 4 Variant.Standard).is_blocked
          (Wall.fromDir ((Board.init2 4 4 Variant.Standard).mouse Player.Red) d)) := by
  have h1 := (classic_mouse_spec board44 Player.Red).1 (by decide)
  have h2 := (classic_mouse_spec (Board.init2 4 4 Variant.Standard) Player.Red).2 (by decide)
  exact ⟨⟨h1.1, h1.2 Direction.Up⟩, h2⟩

/-- C10: `take_step` and `place_wall` error exactly on a blocked wall, and
in the error case the board is returned unchanged (the blocked check
precedes every mutation). -/
theorem mutation_atomicity (b : Board) (player : Player) (pawn : Pawn)
    (dir : Direction) (wall : Wall) :
    ((b.take_step player pawn dir).2.isSome = true ↔
      b.is_blocked (Wall.fromDir (b.pawn_position player pawn) dir) = true) ∧
    ((b.take_step player pawn dir).2.isSome = true → (b.take_step player pawn dir).1 = b) ∧
    ((b.place_wall player wall).2.isSome = true ↔ b.is_blocked wall = true) ∧
    ((b.place_wall player wall).2.isSome = true → (b.place_wall player wall).1 = b) := by
  have hpos : (match player, pawn with
      | Player.Red, Pawn.Cat => b.m_red.cat
      | Player.Red, Pawn.Mouse => b.m_red.mouse
      | Player.Blue, Pawn.Cat => b.m_blue.cat
      | Player.Blue, Pawn.Mouse => b.m_blue.mouse) = b.pawn_position player pawn := by
    cases player <;> cases pawn <;> rfl
  refine ⟨?_, ?_, ?_, ?_⟩
  · simp only [Board.take_step, hpos]
    split_ifs with h <;> simp [h]
  · simp only [Board.take_step, hpos]
    split_ifs with h <;> simp [h]
  · simp only [Board.place_wall]
    split_ifs with h <;> simp [h]
  · simp only [Board.place_wall]
    split_ifs with h <;> simp [h]

/-- Witness for C10: blocked step (off the board edge) and a doubly placed
wall both error and leave a concrete board unchanged. -/
theorem mutation_atomicity_witness :
    ((board44.take_step Player.Red Pawn.Cat Direction.Left).2.isSome = true ∧
      (board44.take_step Player.Red Pawn.Cat Direction.Left).1 = board44) ∧
    ((noWallBoard.place_wall Player.Blue ⟨⟨0, 0⟩, WallType.Right⟩).2.isSome = true ∧
      (noWallBoard.place_wall Player.Blue ⟨⟨0, 0⟩, WallType.Right⟩).1 = noWallBoard) := by
  have h1 := mutation_atomicity board44 Player.Red Pawn.Cat Direction.Left ⟨⟨0, 0⟩, WallType.Right⟩
  have h2 := mutation_atomicity noWallBoard Player.Blue Pawn.Cat Direction.Left
    ⟨⟨0, 0⟩, WallType.Right⟩
  refine ⟨⟨?_, h1.2.1 ?_⟩, ⟨?_, h2.2.2.2 ?_⟩⟩ <;> decide

/-- On an `Undecided` board neither cat sits on its goal cell. -/
theorem winner_undecided_ne (b : Board) (hw : b.winner = Winner.Undecided) :
    b.m_red.cat ≠ b.m_blue.mouse ∧ b.m_blue.cat ≠ b.m_red.mouse := by
  simp only [Board.winner] at hw
  split_ifs at hw with h1 h2 h3 <;> simp_all

/-- Counterexample to C8 as stated: on `trappedBoard` the game is
`Undecided` (so the claim asserts a score strictly inside `(-1, 1)`), yet
the red cat is sealed off from its goal, its BFS distance is the `-1`
sentinel, and the heuristic evaluates to `3/2 ≥ 1`. -/
theorem score_for_out_of_range :
    trappedBoard.winner = Winner.Undecided ∧
    trappedBoard.distance (trappedBoard.position Player.Red) (trappedBoard.goal Player.Red) = -1 ∧
    trappedBoard.score_for Player.Red = 3 / 2 ∧
    ¬trappedBoard.score_for Player.Red < 1 := by
  have h : trappedBoard.score_for Player.Red = 3 / 2 := by with_unfolding_all rfl
  refine ⟨by decide, by decide, h, ?_⟩
  rw [h]
  norm_num

/-- C8 (amended): `score_for` is `±1` on decided boards and `0` on draws;
on an `Undecided` board, provided neither BFS distance is the `-1`
unreachable sentinel, it equals `1 - d/od` when `d < od` and `-1 + od/d`
otherwise, and this value lies strictly in `(-1, 1)`. -/
theorem score_for_characterisation (b : Board) (p : Player) :
    (b.winner = Winner.Red →
      b.score_for Player.Red = 1 ∧ b.score_for Player.Blue = -1) ∧
    (b.winner = Winner.Blue →
      b.score_for Player.Blue = 1 ∧ b.score_for Player.Red = -1) ∧
    (b.winner = Winner.Draw → b.score_for p = 0) ∧
    (b.winner = Winner.Undecided →
      b.distance (b.position p) (b.goal p) ≠ -1 →
      b.distance (b.position (other_player p)) (b.goal (other_player p)) ≠ -1 →
      (b.score_for p =
        if ((b.distance (b.position p) (b.goal p) : ℤ) : ℚ) <
            ((b.distance (b.position (other_player p)) (b.goal (other_player p)) : ℤ) : ℚ) then
          1 - ((b.distance (b.position p) (b.goal p) : ℤ) : ℚ) /
            ((b.distance (b.position (other_player p)) (b.goal (other_player p)) : ℤ) : ℚ)
        else
          -1 + ((b.distance (b.position (other_player p)) (b.goal (other_player p)) : ℤ) : ℚ) /
            ((b.distance (b.position p) (b.goal p) : ℤ) : ℚ)) ∧
      -1 < b.score_for p ∧ b.score_for p < 1) := by
  refine ⟨?_, ?_, ?_, ?_⟩
  · intro hw
    constructor <;> simp [Board.score_for, hw]
  · intro hw
    constructor <;> simp [Board.score_for, hw]
  · intro hw
    simp [Board.score_for, hw]
  · intro hw hd hod
    have hne := winner_undecided_ne b hw
    have hnep : b.position p ≠ b.goal p := by
      cases p
      · exact hne.1
      · exact hne.2
    have hneo : b.position (other_player p) ≠ b.goal (other_player p) := by
      cases p
      · exact hne.2
      · exact hne.1
    have hd1 : 1 ≤ b.distance (b.position p) (b.goal p) := by
      rcases distance_pos_of_ne b _ _ hnep with h | h
      · exact absurd h hd
      · exact h
    have hod1 : 1 ≤ b.distance (b.position (other_player p)) (b.goal (other_player p)) := by
      rcases distance_pos_of_ne b _ _ hneo with h | h
      · exact absurd h hod
      · exact h
    have hdq : (1 : ℚ) ≤ ((b.distance (b.position p) (b.goal p) : ℤ) : ℚ) := by
      exact_mod_cast hd1
    have hodq : (1 : ℚ) ≤
        ((b.distance (b.position (other_player p)) (b.goal (other_player p)) : ℤ) : ℚ) := by
      exact_mod_cast hod1
    have hscore : b.score_for p =
        if ((b.distance (b.position p) (b.goal p) : ℤ) : ℚ) <
            ((b.distance (b.position (other_player p)) (b.goal (other_player p)) : ℤ) : ℚ) then
          1 - ((b.distance (b.position p) (b.goal p) : ℤ) : ℚ) /
            ((b.distance (b.position (other_player p)) (b.goal (other_player p)) : ℤ) : ℚ)
        else
          -1 + ((b.distance (b.position (other_player p)) (b.goal (other_player p)) : ℤ) : ℚ) /
            ((b.distance (b.position p) (b.goal p) : ℤ) : ℚ) := by
      simp only [Board.score_for, hw]
    refine ⟨hscore, ?_, ?_⟩ <;> rw [hscore] <;>
      set dq : ℚ := ((b.distance (b.position p) (b.goal p) : ℤ) : ℚ) with hdq_def <;>
      set odq : ℚ :=
        ((b.distance (b.position (other_player p)) (b.goal (other_player p)) : ℤ) : ℚ)
        with hodq_def <;>
      split_ifs with hlt
    · have h2 : dq / odq < 1 := (div_lt_one (by linarith)).mpr hlt
      linarith
    · have h1 : 0 < odq / dq := div_pos (by linarith) (by linarith)
      linarith
    · have h1 : 0 < dq / odq := div_pos (by linarith) (by linarith)
      linarith
    · have h2 : odq / dq ≤ 1 := (div_le_one (by linarith)).mpr (by linarith)
      linarith

/-- Witness for C8 on the default 4×4 board (both distances are 6, so the
heuristic gives `-1 + 6/6 = 0`). -/
theorem score_for_characterisation_witness :
    (board44.score_for Player.Red =
      if ((board44.distance (board44.position Player.Red) (board44.goal Player.Red) : ℤ) : ℚ) <
          ((board44.distance (board44.position (other_player Player.Red))
            (board44.goal (other_player Player.Red)) : ℤ) : ℚ) then
        1 - ((board44.distance (board44.position Player.Red) (board44.goal Player.Red) : ℤ) : ℚ) /
          ((board44.distance (board44.position (other_player Player.Red))
            (board44.goal (other_player Player.Red)) : ℤ) : ℚ)
      else
        -1 + ((board44.distance (board44.position (other_player Player.Red))
            (board44.goal (other_player Player.Red)) : ℤ) : ℚ) /
          ((board44.distance (board44.position Player.Red) (board44.goal Player.Red) : ℤ) : ℚ)) ∧
    -1 < board44.score_for Player.Red ∧ board44.score_for Player.Red < 1 :=
  (score_for_characterisation board44 Player.Red).2.2.2 (by decide) (by decide) (by decide)

/-- C2 (evaluating the code at the failing inputs): formatting the legal
double cat step produces the single component `Cc8`, which
`parse_move_notation` rejects (it requires a dot); and for the two-component
move `Ca7.>a8` (cat down from a8 plus the wall `(a8, Right)`), the parsed
result is the vertically mirrored cell `(0,6)` for the cat (the true
destination is `(0,1)`) and the wall `((0,7), Right)` instead of
`((0,0), Right)`: translate-then-parse does not invert formatting. -/
theorem move_roundtrip_failure :
    (Move.standardStr
      ⟨Action.pawnMove ⟨Pawn.Cat, Direction.Right⟩, Action.pawnMove ⟨Pawn.Cat, Direction.Right⟩⟩
      ⟨0, 0⟩ ⟨0, 7⟩ 8 = some ("Cc8").data) ∧
    transformMoveStr ("Cc8").data ⟨0, 0⟩ ⟨0, 7⟩ pad88 = some ("Cc8").data ∧
    parseMoveStr ("Cc8").data board88 ⟨Player.Red, TurnAction.First⟩ pad88 = none ∧
    (Move.standardStr
      ⟨Action.pawnMove ⟨Pawn.Cat, Direction.Down⟩, Action.wall ⟨⟨0, 0⟩, WallType.Right⟩⟩
      ⟨0, 0⟩ ⟨0, 7⟩ 8 = some ("Ca7.>a8").data) ∧
    transformMoveStr ("Ca7.>a8").data ⟨0, 0⟩ ⟨0, 7⟩ pad88 = some ("Ca7.>a8").data ∧
    parseMoveStr ("Ca7.>a8").data board88 ⟨Player.Red, TurnAction.First⟩ pad88 =
      some ⟨ParsedAction.pawnTo Pawn.Cat ⟨0, 6⟩, ParsedAction.wall ⟨⟨0, 7⟩, WallType.Right⟩⟩ ∧
    (⟨0, 6⟩ : Cell) ≠ Cell.step ⟨0, 0⟩ Direction.Down ∧
    (⟨⟨0, 7⟩, WallType.Right⟩ : Wall) ≠ ⟨⟨0, 0⟩, WallType.Right⟩ := by
  decide

/-- Every edge `catEdges` emits carries the positive raw cat prior of its
direction. -/
theorem catEdges_mem_elim (p : SimplePolicy) (board : Board) (turn : Turn)
    (pp : Option PreviousPosition) (e : TreeEdge)
    (he : e ∈ p.catEdges board turn pp) :
    ∃ dir ∈ board.legal_directions turn.player Pawn.Cat,
      e = TreeEdge.mk (Action.pawnMove ⟨Pawn.Cat, dir⟩) (p.catPrior board turn dir) ∧
      0 < p.catPrior board turn dir := by
  rcases List.mem_filterMap.mp he with ⟨dir, hdir, heq⟩
  split_ifs at heq with h1 h2 <;> cases heq
  exact ⟨dir, hdir, rfl, h2⟩

/-- Every edge `mouseEdges` emits carries the positive raw mouse prior of
its direction. -/
theorem mouseEdges_mem_elim (p : SimplePolicy) (board : Board) (turn : Turn)
    (pp : Option PreviousPosition) (e : TreeEdge)
    (he : e ∈ p.mouseEdges board turn pp) :
    ∃ dir ∈ board.legal_directions turn.player Pawn.Mouse,
      e = TreeEdge.mk (Action.pawnMove ⟨Pawn.Mouse, dir⟩) (p.mousePrior board turn dir) ∧
      0 < p.mousePrior board turn dir := by
  rcases List.mem_filterMap.mp he with ⟨dir, hdir, heq⟩
  split_ifs at heq with h1 h2 <;> cases heq
  exact ⟨dir, hdir, rfl, h2⟩

/-- All collected pawn edges have positive priors. -/
theorem pawnEdges_pos (p : SimplePolicy) (board : Board) (turn : Turn)
    (pp : Option PreviousPosition) :
    ∀ e ∈ p.pawnEdges board turn pp, 0 < e.prior := by
  intro e he
  rcases List.mem_append.mp he with h | h
  · rcases catEdges_mem_elim p board turn pp e h with ⟨dir, -, heq, hpos⟩
    rw [heq]
    exact hpos
  · split_ifs at h
    · rcases mouseEdges_mem_elim p board turn pp e h with ⟨dir, -, heq, hpos⟩
      rw [heq]
      exact hpos
    · cases h

/-- A legal non-backtrack cat direction with positive raw prior yields an
edge in `catEdges`. -/
theorem catEdges_mem_intro (p : SimplePolicy) (board : Board) (turn : Turn)
    (pp : Option PreviousPosition) (dir : Direction)
    (hdir : dir ∈ board.legal_directions turn.player Pawn.Cat)
    (hbt : isBacktrack pp Pawn.Cat ((board.position turn.player).step dir) = false)
    (hpos : 0 < p.catPrior board turn dir) :
    TreeEdge.mk (Action.pawnMove ⟨Pawn.Cat, dir⟩) (p.catPrior board turn dir) ∈
      p.catEdges board turn pp := by
  refine List.mem_filterMap.mpr ⟨dir, hdir, ?_⟩
  rw [if_neg (by simp [hbt]), if_pos hpos]

/-- A legal non-backtrack mouse direction with positive raw prior yields an
edge in `mouseEdges`. -/
theorem mouseEdges_mem_intro (p : SimplePolicy) (board : Board) (turn : Turn)
    (pp : Option PreviousPosition) (dir : Direction)
    (hdir : dir ∈ board.legal_directions turn.player Pawn.Mouse)
    (hbt : isBacktrack pp Pawn.Mouse ((board.mouse turn.player).step dir) = false)
    (hpos : 0 < p.mousePrior board turn dir) :
    TreeEdge.mk (Action.pawnMove ⟨Pawn.Mouse, dir⟩) (p.mousePrior board turn dir) ∈
      p.mouseEdges board turn pp := by
  refine List.mem_filterMap.mpr ⟨dir, hdir, ?_⟩
  rw [if_neg (by simp [hbt]), if_pos hpos]

/-- Sum of a constant-valued map. -/
theorem sum_map_constant {α : Type} (l : List α) (c : ℚ) :
    (l.map (fun _ => c)).sum = (l.length : ℚ) * c := by
  induction l with
  | nil => simp
  | cons a l ih =>
    simp only [List.map_cons, List.sum_cons, ih, List.length_cons]
    push_cast
    ring

/-- Counterexample to C4 as stated: on `noWallBoard` (a board with legal
pawn moves but an empty `legal_walls`), the default-parameter SimplePolicy
returns priors summing to `move_prior = 3/10`, not 1 within 1e-6. -/
theorem simple_policy_sum_not_one :
    noWallBoard.legal_walls = [] ∧
    (((SimplePolicy.mk (3/10) (3/2) (3/4)).run noWallBoard ⟨Player.Red, TurnAction.First⟩
        none).edges.map TreeEdge.prior).sum = 3 / 10 ∧
    ¬|(((SimplePolicy.mk (3/10) (3/2) (3/4)).run noWallBoard ⟨Player.Red, TurnAction.First⟩
        none).edges.map TreeEdge.prior).sum - 1| ≤ 1 / 1000000 := by
  have h : (((SimplePolicy.mk (3/10) (3/2) (3/4)).run noWallBoard ⟨Player.Red, TurnAction.First⟩
      none).edges.map TreeEdge.prior).sum = 3 / 10 := by
    with_unfolding_all rfl
  refine ⟨by decide, h, ?_⟩
  rw [h]
  rw [abs_of_nonpos (by norm_num)]
  norm_num

/-- C4 (amended): with `move_prior ∈ (0,1)`, positive biases, at least one
legal non-backtrack cat move and a non-empty `legal_walls`, the evaluator
returns value `score_for(turn.player)`, priors summing to exactly 1, each
legal wall with prior `(1-move_prior)/|legal_walls|`, and each legal
non-backtrack pawn move with its raw bias prior rescaled by
`move_prior / total`. -/
theorem simple_policy_characterisation (p : SimplePolicy) (board : Board) (turn : Turn)
    (pp : Option PreviousPosition)
    (hmp0 : 0 < p.m_move_prior) (hmp1 : p.m_move_prior < 1)
    (hg : 0 < p.m_good_move_bias) (hb : 0 < p.m_bad_move_bias)
    (hcat : ∃ dir ∈ board.legal_directions turn.player Pawn.Cat,
      isBacktrack pp Pawn.Cat ((board.position turn.player).step dir) = false)
    (hwalls : board.legal_walls ≠ []) :
    (p.run board turn pp).value = board.score_for turn.player ∧
    (((p.run board turn pp).edges.map TreeEdge.prior).sum = 1) ∧
    (∀ w ∈ board.legal_walls,
      TreeEdge.mk (Action.wall w)
        ((1 - p.m_move_prior) / (board.legal_walls.length : ℚ)) ∈
        (p.run board turn pp).edges) ∧
    (∀ dir ∈ board.legal_directions turn.player Pawn.Cat,
      isBacktrack pp Pawn.Cat ((board.position turn.player).step dir) = false →
      TreeEdge.mk (Action.pawnMove ⟨Pawn.Cat, dir⟩)
        (p.catPrior board turn dir *
          (p.m_move_prior / ((p.pawnEdges board turn pp).map TreeEdge.prior).sum)) ∈
        (p.run board turn pp).edges) ∧
    (board.allows_mouse_moves = true →
      ∀ dir ∈ board.legal_directions turn.player Pawn.Mouse,
      isBacktrack pp Pawn.Mouse ((board.mouse turn.player).step dir) = false →
      TreeEdge.mk (Action.pawnMove ⟨Pawn.Mouse, dir⟩)
        (p.mousePrior board turn dir *
          (p.m_move_prior / ((p.pawnEdges board turn pp).map TreeEdge.prior).sum)) ∈
        (p.run board turn pp).edges) := by
  have hcatpos : ∀ dir, 0 < p.catPrior board turn dir := by
    intro dir
    simp only [SimplePolicy.catPrior]
    split_ifs <;> first | exact hg | exact hb | norm_num
  have hmousepos : ∀ dir, 0 < p.mousePrior board turn dir := by
    intro dir
    simp only [SimplePolicy.mousePrior]
    split_ifs <;> first | exact hg | exact hb | norm_num
  obtain ⟨dir0, hdir0, hbt0⟩ := hcat
  have hmem0 := catEdges_mem_intro p board turn pp dir0 hdir0 hbt0 (hcatpos dir0)
  have hpe : p.pawnEdges board turn pp ≠ [] := by
    intro hnil
    have : TreeEdge.mk (Action.pawnMove ⟨Pawn.Cat, dir0⟩) (p.catPrior board turn dir0) ∈
        p.pawnEdges board turn pp :=
      List.mem_append.mpr (Or.inl hmem0)
    rw [hnil] at this
    cases this
  have htotal : 0 < ((p.pawnEdges board turn pp).map TreeEdge.prior).sum := by
    apply List.sum_pos
    · intro x hx
      rcases List.mem_map.mp hx with ⟨e, he, rfl⟩
      exact pawnEdges_pos p board turn pp e he
    · intro hnil
      exact hpe (List.map_eq_nil.mp hnil)
  have hlen : ((board.legal_walls.length : ℚ)) ≠ 0 := by
    have : board.legal_walls.length ≠ 0 := by
      intro h0
      exact hwalls (List.length_eq_zero.mp h0)
    exact_mod_cast this
  have hedges : (p.run board turn pp).edges =
      (p.pawnEdges board turn pp).map (fun te =>
        { te with prior := te.prior *
          (p.m_move_prior / ((p.pawnEdges board turn pp).map TreeEdge.prior).sum) }) ++
      board.legal_walls.map (fun w =>
        TreeEdge.mk (Action.wall w)
          ((1 - p.m_move_prior) / (board.legal_walls.length : ℚ))) := by
    have hni : board.legal_walls.isEmpty = false := by
      cases hlw : board.legal_walls with
      | nil => exact absurd hlw hwalls
      | cons a l => rfl
    simp only [SimplePolicy.run, if_pos hmp1, if_pos htotal, hni]
    rfl
  refine ⟨rfl, ?_, ?_, ?_, ?_⟩
  · rw [hedges, List.map_append, List.sum_append]
    have h1 : ((p.pawnEdges board turn pp).map (fun te =>
        { te with prior := te.prior *
          (p.m_move_prior / ((p.pawnEdges board turn pp).map TreeEdge.prior).sum) }) |>.map
        TreeEdge.prior).sum = p.m_move_prior := by
      rw [List.map_map]
      have : (TreeEdge.prior ∘ fun te : TreeEdge =>
          { te with prior := te.prior *
            (p.m_move_prior / ((p.pawnEdges board turn pp).map TreeEdge.prior).sum) }) =
          fun te : TreeEdge => te.prior *
            (p.m_move_prior / ((p.pawnEdges board turn pp).map TreeEdge.prior).sum) := rfl
      rw [this, List.sum_map_mul_right]
      field_simp
    have h2 : ((board.legal_walls.map (fun w =>
        TreeEdge.mk (Action.wall w)
          ((1 - p.m_move_prior) / (board.legal_walls.length : ℚ)))).map
        TreeEdge.prior).sum = 1 - p.m_move_prior := by
      rw [List.map_map]
      have : (TreeEdge.prior ∘ fun w : Wall =>
          TreeEdge.mk (Action.wall w) ((1 - p.m_move_prior) / (board.legal_walls.length : ℚ))) =
          fun _ : Wall => (1 - p.m_move_prior) / (board.legal_walls.length : ℚ) := rfl
      rw [this, sum_map_constant]
      field_simp
    rw [h1, h2]
    ring
  · intro w hw
    rw [hedges]
    refine List.mem_append.mpr (Or.inr ?_)
    exact List.mem_map.mpr ⟨w, hw, rfl⟩
  · intro dir hdir hbt
    rw [hedges]
    refine List.mem_append.mpr (Or.inl ?_)
    refine List.mem_map.mpr ⟨TreeEdge.mk (Action.pawnMove ⟨Pawn.Cat, dir⟩)
      (p.catPrior board turn dir), ?_, rfl⟩
    exact List.mem_append.mpr (Or.inl (catEdges_mem_intro p board turn pp dir hdir hbt
      (hcatpos dir)))
  · intro hmouse dir hdir hbt
    rw [hedges]
    refine List.mem_append.mpr (Or.inl ?_)
    refine List.mem_map.mpr ⟨TreeEdge.mk (Action.pawnMove ⟨Pawn.Mouse, dir⟩)
      (p.mousePrior board turn dir), ?_, rfl⟩
    refine List.mem_append.mpr (Or.inr ?_)
    rw [if_pos hmouse]
    exact mouseEdges_mem_intro p board turn pp dir hdir hbt (hmousepos dir)

set_option maxRecDepth 8000 in
/-- Witness for C4 at the default parameters on the 4×4 board. -/
theorem simple_policy_characterisation_witness :
    (((SimplePolicy.mk (3/10) (3/2) (3/4)).run board44 ⟨Player.Red, TurnAction.First⟩
      none).edges.map TreeEdge.prior).sum = 1 ∧
    ((SimplePolicy.mk (3/10) (3/2) (3/4)).run board44 ⟨Player.Red, TurnAction.First⟩
      none).value = board44.score_for Player.Red := by
  have h := simple_policy_characterisation (SimplePolicy.mk (3/10) (3/2) (3/4)) board44
    ⟨Player.Red, TurnAction.First⟩ none (by norm_num) (by norm_num) (by norm_num) (by norm_num)
    ⟨Direction.Right, by decide, by decide⟩ (by decide)
  exact ⟨h.2.1, h.1⟩

/-- C5: on an existing session whose ply differs from `expected_ply`,
`evaluate_position` answers `success = false` with an error containing
"Ply mismatch" and the session's current ply, leaves the session unchanged,
and performs no MCTS call. -/
theorem evaluate_ply_mismatch {σ : Type} (ops : MctsOps σ) (config : BgsEngineConfig)
    (s : BgsSession σ) (bgs_id : List Char) (expected_ply : Int)
    (h : s.ply ≠ expected_ply) :
    handle_evaluate_position ops config (some s) bgs_id expected_ply =
      some (⟨bgs_id, s.ply, [], 0, false,
        ("Ply mismatch: expected ").data ++ (toString expected_ply).data ++
          (", got ").data ++ (toString s.ply).data⟩, some s, []) ∧
    containsSub
      (("Ply mismatch: expected ").data ++ (toString expected_ply).data ++
        (", got ").data ++ (toString s.ply).data) (("Ply mismatch").data) = true := by
  constructor
  · simp only [handle_evaluate_position]
    rw [if_pos h]
  · apply containsSub_of_isPrefixOf
    rw [List.isPrefixOf_iff_prefix]
    have h1 : ("Ply mismatch").data <+: ("Ply mismatch: expected ").data := by decide
    refine h1.trans ?_
    rw [List.append_assoc, List.append_assoc]
    exact List.prefix_append _ _

/-- Witness for C5: evaluating at expected ply 5 a fresh session at ply 0. -/
theorem evaluate_ply_mismatch_witness :
    (handle_evaluate_position unitOps {} (some unitSession) (("sid").data) 5 =
      some (⟨("sid").data, unitSession.ply, [], 0, false,
        ("Ply mismatch: expected ").data ++ (toString (5 : Int)).data ++
          (", got ").data ++ (toString unitSession.ply).data⟩, some unitSession, [])) ∧
    containsSub
      (("Ply mismatch: expected ").data ++ (toString (5 : Int)).data ++
        (", got ").data ++ (toString unitSession.ply).data) (("Ply mismatch").data) = true :=
  evaluate_ply_mismatch unitOps {} unitSession (("sid").data) 5 (by decide)

/-- C6: every successful `evaluate_position` response reports the
root value taken after sampling, from Player 1's perspective (negated on
odd plies) and clamped to `[-1, 1]`; hence the evaluation lies in
`[-1, 1]`. -/
theorem evaluate_response_range {σ : Type} (ops : MctsOps σ) (config : BgsEngineConfig)
    (s : BgsSession σ) (bgs_id : List Char) (expected_ply : Int)
    (r : EvaluateResponse) (s' : Option (BgsSession σ)) (ev : List MctsEvent)
    (h : handle_evaluate_position ops config (some s) bgs_id expected_ply =
      some (r, s', ev))
    (hs : r.success = true) :
    r.evaluation = clamp
      (if s.ply % 2 = 0 then ops.root_value (ops.sample s.mcts config.samples_per_move)
        else -(ops.root_value (ops.sample s.mcts config.samples_per_move))) (-1) 1 ∧
    -1 ≤ r.evaluation ∧ r.evaluation ≤ 1 := by
  simp only [handle_evaluate_position] at h
  split_ifs at h with hply hpar hred hblue
  · injection h with hval
    injection hval with h1 h23
    rw [← h1] at hs
    simp at hs
  · split at h
    · injection h with hval
      injection hval with h1 h23
      rw [← h1] at hs
      simp at hs
    · repeat' (rw [Option.bind_eq_some] at h; obtain ⟨_, -, h⟩ := h)
      injection h with hval
      injection hval with h1 h23
      rw [← h1]
      rw [if_pos hpar]
      exact ⟨rfl, (clamp_mem _ (-1) 1 (by norm_num)).1, (clamp_mem _ (-1) 1 (by norm_num)).2⟩
  · exact absurd rfl hred
  · cases hblue
  · split at h
    · injection h with hval
      injection hval with h1 h23
      rw [← h1] at hs
      simp at hs
    · repeat' (rw [Option.bind_eq_some] at h; obtain ⟨_, -, h⟩ := h)
      injection h with hval
      injection hval with h1 h23
      rw [← h1]
      rw [if_neg hpar]
      exact ⟨rfl, (clamp_mem _ (-1) 1 (by norm_num)).1, (clamp_mem _ (-1) 1 (by norm_num)).2⟩

/-- Witness for C6: a successful concrete evaluation whose raw root value 2
is clamped to 1. -/
theorem evaluate_response_range_witness :
    ((⟨("sid").data, 0, ("Cc4").data, 1, true, []⟩ : EvaluateResponse).evaluation = clamp
      (if unitSession.ply % 2 = 0 then
        unitOps.root_value (unitOps.sample unitSession.mcts
          ({} : BgsEngineConfig).samples_per_move)
        else -(unitOps.root_value (unitOps.sample unitSession.mcts
          ({} : BgsEngineConfig).samples_per_move))) (-1) 1) ∧
    -1 ≤ (⟨("sid").data, 0, ("Cc4").data, 1, true, []⟩ : EvaluateResponse).evaluation ∧
    (⟨("sid").data, 0, ("Cc4").data, 1, true, []⟩ : EvaluateResponse).evaluation ≤ 1 := by
  have h : handle_evaluate_position unitOps {} (some unitSession) (("sid").data) 0 =
      some (⟨("sid").data, 0, ("Cc4").data, 1, true, []⟩, some unitSession,
        [MctsEvent.sampleCall 1000]) := by
    with_unfolding_all rfl
  exact evaluate_response_range unitOps {} unitSession (("sid").data) 0 _ _ _ h rfl

/-- C7: with matching expected ply, `apply_move` parses the notation,
forwards it to `force_move` and advances the session to ply `p+1`,
reporting `success = true` with the new ply; unparseable notation or a
rejected move yields `success = false` with the session left at ply `p`. -/
theorem apply_move_spec {σ : Type} (ops : MctsOps σ) (s : BgsSession σ)
    (bgs_id move_str : List Char) :
    (∀ pm m',
      parseMoveStr move_str (ops.current_board s.mcts)
        ⟨if s.ply % 2 = 0 then Player.Red else Player.Blue, TurnAction.First⟩
        s.padding_config = some pm →
      ops.force_move s.mcts pm = some m' →
      handle_apply_move ops (some s) bgs_id s.ply move_str =
        (⟨bgs_id, s.ply + 1, true, []⟩,
          some { s with mcts := m', ply := s.ply + 1 }, [MctsEvent.forceMoveCall pm])) ∧
    (parseMoveStr move_str (ops.current_board s.mcts)
        ⟨if s.ply % 2 = 0 then Player.Red else Player.Blue, TurnAction.First⟩
        s.padding_config = none →
      handle_apply_move ops (some s) bgs_id s.ply move_str =
        (⟨bgs_id, s.ply, false, ("Failed to parse move notation: ").data ++ move_str⟩,
          some s, [])) ∧
    (∀ pm,
      parseMoveStr move_str (ops.current_board s.mcts)
        ⟨if s.ply % 2 = 0 then Player.Red else Player.Blue, TurnAction.First⟩
        s.padding_config = some pm →
      ops.force_move s.mcts pm = none →
      handle_apply_move ops (some s) bgs_id s.ply move_str =
        (⟨bgs_id, s.ply, false, ("Failed to apply move: ").data⟩, some s,
          [MctsEvent.forceMoveCall pm])) := by
  refine ⟨?_, ?_, ?_⟩
  · intro pm m' hparse hforce
    simp only [handle_apply_move]
    rw [if_neg (by simp), hparse]
    simp only [hforce]
  · intro hparse
    simp only [handle_apply_move]
    rw [if_neg (by simp), hparse]
  · intro pm hparse hforce
    simp only [handle_apply_move]
    rw [if_neg (by simp), hparse]
    simp only [hforce]

/-- Witness for C7: a successful concrete `apply_move` (ply 0 → 1) and a
concrete parse failure that leaves the session at ply 0. -/
theorem apply_move_spec_witness :
    (handle_apply_move unitOps (some unitSession) (("sid").data) unitSession.ply
        (("Ca1.>a2").data) =
      (⟨("sid").data, unitSession.ply + 1, true, []⟩,
        some { unitSession with mcts := (), ply := unitSession.ply + 1 },
        [MctsEvent.forceMoveCall
          ⟨ParsedAction.pawnTo Pawn.Cat ⟨0, 0⟩, ParsedAction.wall ⟨⟨0, 1⟩, WallType.Right⟩⟩])) ∧
    (handle_apply_move unitOps (some unitSession) (("sid").data) unitSession.ply
        (("garbage").data) =
      (⟨("sid").data, unitSession.ply, false,
        ("Failed to parse move notation: ").data ++ ("garbage").data⟩,
        some unitSession, [])) := by
  constructor
  · exact (apply_move_spec unitOps unitSession (("sid").data) (("Ca1.>a2").data)).1
      ⟨ParsedAction.pawnTo Pawn.Cat ⟨0, 0⟩, ParsedAction.wall ⟨⟨0, 1⟩, WallType.Right⟩⟩ ()
      (by decide) rfl
  · exact (apply_move_spec unitOps unitSession (("sid").data) (("garbage").data)).2.1
      (by decide)

/-! ### Basic geometry, index and graph lemmas for the legal-wall claim -/

theorem mem_kDirections (d : Direction) : d ∈ kDirections := by
  cases d <;> decide

theorem kDirections_getD_mem {j : Nat} (h : j < 4) :
    kDirections.getD j Direction.Right ∈ kDirections := by
  interval_cases j <;> decide

theorem kDirections_index_of (d : Direction) :
    ∃ j, j < 4 ∧ kDirections.getD j Direction.Right = d := by
  cases d
  · exact ⟨0, by decide, rfl⟩
  · exact ⟨1, by decide, rfl⟩
  · exact ⟨2, by decide, rfl⟩
  · exact ⟨3, by decide, rfl⟩

theorem Cell.step_ne (c : Cell) (d : Direction) : c.step d ≠ c := by
  cases c with | mk col row =>
  cases d <;> simp [Cell.step] <;> omega

theorem Cell.step_opp (c : Cell) (d : Direction) :
    (c.step d).step (oppositeDir d) = c := by
  cases c with | mk col row =>
  cases d <;> simp [Cell.step, oppositeDir]

theorem Cell.step_inj (c : Cell) {d d' : Direction} (h : c.step d = c.step d') :
    d = d' := by
  cases c with | mk col row =>
  cases d <;> cases d' <;> first
    | rfl
    | ((simp [Cell.step] at h) <;> omega)

theorem Wall.fromDir_step_opp (c : Cell) (d : Direction) :
    Wall.fromDir (c.step d) (oppositeDir d) = Wall.fromDir c d := by
  cases c with | mk col row =>
  cases d <;> simp [Cell.step, oppositeDir, Wall.fromDir]

theorem Wall.fromDir_eq_cases {c c' : Cell} {d d' : Direction}
    (h : Wall.fromDir c d = Wall.fromDir c' d') :
    (c = c' ∧ d = d') ∨ (c' = c.step d ∧ d' = oppositeDir d) := by
  cases c with | mk col row =>
  cases c' with | mk col' row' =>
  cases d <;> cases d' <;>
    simp [Wall.fromDir, Cell.step, oppositeDir] at h ⊢ <;> omega

theorem is_blocked_false_elim {b : Board} {w : Wall} (h : b.is_blocked w = false) :
    InBounds b w.cell ∧
    (w.type = WallType.Down → w.cell.row ≠ b.m_rows - 1) ∧
    (w.type = WallType.Right → w.cell.column ≠ b.m_columns - 1) := by
  cases w with | mk wc wt =>
  unfold Board.is_blocked at h
  split at h
  · cases h
  · rename_i hguard
    simp only [Bool.or_eq_true, decide_eq_true_eq, not_or] at hguard
    dsimp only at hguard ⊢
    refine ⟨⟨by omega, by omega, by omega, by omega⟩, ?_, ?_⟩
    · intro hty heq
      have hty2 : wt = WallType.Down := hty
      subst hty2
      have h2 : (if wc.row = b.m_rows - 1 then true
          else ((b.state_at wc).has_red_down_wall ||
            (b.state_at wc).has_blue_down_wall)) = false := h
      rw [if_pos heq] at h2
      cases h2
    · intro hty heq
      have hty2 : wt = WallType.Right := hty
      subst hty2
      have h2 : (if wc.column = b.m_columns - 1 then true
          else ((b.state_at wc).has_red_right_wall ||
            (b.state_at wc).has_blue_right_wall)) = false := h
      rw [if_pos heq] at h2
      cases h2

theorem unblocked_inBounds {b : Board} {c : Cell} {d : Direction}
    (h : b.is_blocked (Wall.fromDir c d) = false) :
    InBounds b c ∧ InBounds b (c.step d) := by
  obtain ⟨hin, hD, hR⟩ := is_blocked_false_elim h
  cases c with | mk col row =>
  cases d <;>
    (simp [Wall.fromDir, InBounds, Cell.step] at hin hD hR ⊢ <;> omega)

theorem index_nonneg {b : Board} {c : Cell} (h : InBounds b c) :
    0 ≤ b.index_from_cell c := by
  obtain ⟨h1, h2, h3, h4⟩ := h
  unfold Board.index_from_cell
  nlinarith

theorem index_lt {b : Board} {c : Cell} (h : InBounds b c) :
    (b.index_from_cell c).toNat < (b.m_columns * b.m_rows).toNat := by
  obtain ⟨h1, h2, h3, h4⟩ := h
  have hidx : b.index_from_cell c < b.m_columns * b.m_rows := by
    unfold Board.index_from_cell
    nlinarith
  have hpos : (0 : Int) < b.m_columns * b.m_rows := by nlinarith
  exact (Int.toNat_lt_toNat hpos).mpr hidx

theorem index_inj {b : Board} {c c' : Cell} (h : InBounds b c) (h' : InBounds b c')
    (he : (b.index_from_cell c).toNat = (b.index_from_cell c').toNat) : c = c' := by
  obtain ⟨h1, h2, h3, h4⟩ := h
  obtain ⟨h5, h6, h7, h8⟩ := h'
  have he2 : b.index_from_cell c = b.index_from_cell c' := by
    have n1 := index_nonneg ⟨h1, h2, h3, h4⟩
    have n2 := index_nonneg ⟨h5, h6, h7, h8⟩
    omega
  unfold Board.index_from_cell at he2
  have hcc : c.column = c'.column := by
    rcases lt_trichotomy c.column c'.column with hlt | heq | hgt
    · nlinarith
    · exact heq
    · nlinarith
  cases c with | mk col row =>
  cases c' with | mk col' row' =>
  simp only at hcc he2 ⊢
  subst hcc
  have hrr : row = row' := by omega
  rw [hrr]

theorem lvl_set_self {b : Board} {levels : List Int} {c : Cell} (hc : InBounds b c)
    (hlen : levels.length = (b.m_columns * b.m_rows).toNat) (v : Int) :
    lvl b (levels.set (b.index_from_cell c).toNat v) c = v := by
  have hlt : (b.index_from_cell c).toNat < levels.length := by
    rw [hlen]; exact index_lt hc
  simp [lvl, List.getD, List.getElem?_set_self hlt]

theorem lvl_set_other {b : Board} {levels : List Int} {c x : Cell}
    (hc : InBounds b c) (hx : InBounds b x) (hne : x ≠ c) (v : Int) :
    lvl b (levels.set (b.index_from_cell c).toNat v) x = lvl b levels x := by
  have hidx : (b.index_from_cell c).toNat ≠ (b.index_from_cell x).toNat := by
    intro he
    exact hne (index_inj hx hc he.symm)
  simp [lvl, List.getD, List.getElem?_set_ne hidx]

theorem index_modify {b : Board} (c : Cell) (f : CellState → CellState) (x : Cell) :
    (b.modify_state c f).index_from_cell x = b.index_from_cell x := rfl

theorem getD_set_self {α : Type} (l : List α) (i : Nat) (v dflt : α)
    (h : i < l.length) : (l.set i v).getD i dflt = v := by
  simp [List.getD, List.getElem?_set_self h]

theorem getD_set_ne {α : Type} (l : List α) {i j : Nat} (v dflt : α)
    (h : i ≠ j) : (l.set i v).getD j dflt = l.getD j dflt := by
  simp [List.getD, List.getElem?_set_ne h]

theorem state_at_modify_self {b : Board} {c : Cell} (hc : InBounds b c)
    (hlen : b.m_board.length = (b.m_columns * b.m_rows).toNat)
    (f : CellState → CellState) :
    (b.modify_state c f).state_at c = f (b.state_at c) := by
  have hlt : (b.index_from_cell c).toNat < b.m_board.length := by
    rw [hlen]; exact index_lt hc
  have hlt2 : (c.column * b.m_rows + c.row).toNat < b.m_board.length := hlt
  unfold Board.state_at Board.modify_state Board.index_from_cell
  dsimp only
  rw [getD_set_self _ _ _ _ hlt2]
  rfl

theorem state_at_modify_other {b : Board} {c x : Cell} (hc : InBounds b c)
    (hx : InBounds b x) (hne : x ≠ c) (f : CellState → CellState) :
    (b.modify_state c f).state_at x = b.state_at x := by
  have hidx : (b.index_from_cell c).toNat ≠ (b.index_from_cell x).toNat := by
    intro he
    exact hne (index_inj hx hc he.symm)
  have hidx2 : (c.column * b.m_rows + c.row).toNat ≠ (x.column * b.m_rows + x.row).toNat :=
    hidx
  unfold Board.state_at Board.modify_state Board.index_from_cell
  dsimp only
  rw [getD_set_ne _ _ _ hidx2]

theorem is_blocked_guard {b : Board} {w' : Wall}
    (h : w'.cell.column < 0 ∨ w'.cell.row < 0 ∨ w'.cell.column ≥ b.m_columns ∨
      w'.cell.row ≥ b.m_rows) :
    b.is_blocked w' = true := by
  have hcond : (decide (w'.cell.column < 0) || decide (w'.cell.row < 0) ||
      decide (w'.cell.column ≥ b.m_columns) || decide (w'.cell.row ≥ b.m_rows)) = true := by
    rcases h with h | h | h | h <;> simp [h]
  unfold Board.is_blocked
  rw [hcond]
  rfl

theorem is_blocked_unfold_down {b : Board} {w' : Wall} (hty : w'.type = WallType.Down)
    (hg : ¬(w'.cell.column < 0 ∨ w'.cell.row < 0 ∨ w'.cell.column ≥ b.m_columns ∨
      w'.cell.row ≥ b.m_rows))
    (hrow : w'.cell.row ≠ b.m_rows - 1) :
    b.is_blocked w' = ((b.state_at w'.cell).has_red_down_wall ||
      (b.state_at w'.cell).has_blue_down_wall) := by
  cases w' with | mk wc wt =>
  have h2 : wt = WallType.Down := hty
  subst h2
  have hcond : (decide (wc.column < 0) || decide (wc.row < 0) ||
      decide (wc.column ≥ b.m_columns) || decide (wc.row ≥ b.m_rows)) = false := by
    simp only [not_or] at hg
    simp [hg.1, hg.2.1, hg.2.2.1, hg.2.2.2]
  unfold Board.is_blocked
  rw [hcond]
  simp only [Bool.false_eq_true, if_false]
  rw [if_neg hrow]

theorem is_blocked_unfold_right {b : Board} {w' : Wall} (hty : w'.type = WallType.Right)
    (hg : ¬(w'.cell.column < 0 ∨ w'.cell.row < 0 ∨ w'.cell.column ≥ b.m_columns ∨
      w'.cell.row ≥ b.m_rows))
    (hcol : w'.cell.column ≠ b.m_columns - 1) :
    b.is_blocked w' = ((b.state_at w'.cell).has_red_right_wall ||
      (b.state_at w'.cell).has_blue_right_wall) := by
  cases w' with | mk wc wt =>
  have h2 : wt = WallType.Right := hty
  subst h2
  have hcond : (decide (wc.column < 0) || decide (wc.row < 0) ||
      decide (wc.column ≥ b.m_columns) || decide (wc.row ≥ b.m_rows)) = false := by
    simp only [not_or] at hg
    simp [hg.1, hg.2.1, hg.2.2.1, hg.2.2.2]
  unfold Board.is_blocked
  rw [hcond]
  simp only [Bool.false_eq_true, if_false]
  rw [if_neg hcol]

theorem is_blocked_boundary_down {b : Board} {w' : Wall} (hty : w'.type = WallType.Down)
    (hrow : w'.cell.row = b.m_rows - 1) : b.is_blocked w' = true := by
  cases w' with | mk wc wt =>
  have h2 : wt = WallType.Down := hty
  subst h2
  by_cases hg : (wc.column < 0 ∨ wc.row < 0 ∨ wc.column ≥ b.m_columns ∨ wc.row ≥ b.m_rows)
  · exact is_blocked_guard hg
  · have hcond : (decide (wc.column < 0) || decide (wc.row < 0) ||
        decide (wc.column ≥ b.m_columns) || decide (wc.row ≥ b.m_rows)) = false := by
      simp only [not_or] at hg
      simp [hg.1, hg.2.1, hg.2.2.1, hg.2.2.2]
    unfold Board.is_blocked
    rw [hcond]
    simp only [Bool.false_eq_true, if_false]
    show (if wc.row = b.m_rows - 1 then true
      else ((b.state_at wc).has_red_down_wall || (b.state_at wc).has_blue_down_wall)) = true
    exact if_pos hrow

theorem is_blocked_boundary_right {b : Board} {w' : Wall} (hty : w'.type = WallType.Right)
    (hcol : w'.cell.column = b.m_columns - 1) : b.is_blocked w' = true := by
  cases w' with | mk wc wt =>
  have h2 : wt = WallType.Right := hty
  subst h2
  by_cases hg : (wc.column < 0 ∨ wc.row < 0 ∨ wc.column ≥ b.m_columns ∨ wc.row ≥ b.m_rows)
  · exact is_blocked_guard hg
  · have hcond : (decide (wc.column < 0) || decide (wc.row < 0) ||
        decide (wc.column ≥ b.m_columns) || decide (wc.row ≥ b.m_rows)) = false := by
      simp only [not_or] at hg
      simp [hg.1, hg.2.1, hg.2.2.1, hg.2.2.2]
    unfold Board.is_blocked
    rw [hcond]
    simp only [Bool.false_eq_true, if_false]
    show (if wc.column = b.m_columns - 1 then true
      else ((b.state_at wc).has_red_right_wall || (b.state_at wc).has_blue_right_wall)) = true
    exact if_pos hcol

theorem hypPlace_eq_right {b : Board} {w : Wall} (hw : b.is_blocked w = false)
    (hty : w.type = WallType.Right) :
    b.hypPlace w = b.modify_state w.cell
      (fun s => { s with has_red_right_wall := true }) := by
  cases w with | mk wc wt =>
  have h2 : wt = WallType.Right := hty
  subst h2
  unfold Board.hypPlace Board.place_wall
  rw [hw]
  rfl

theorem hypPlace_eq_down {b : Board} {w : Wall} (hw : b.is_blocked w = false)
    (hty : w.type = WallType.Down) :
    b.hypPlace w = b.modify_state w.cell
      (fun s => { s with has_red_down_wall := true }) := by
  cases w with | mk wc wt =>
  have h2 : wt = WallType.Down := hty
  subst h2
  unfold Board.hypPlace Board.place_wall
  rw [hw]
  rfl

/-- Placing an unblocked wall blocks exactly that wall on top of the walls
already blocked. -/
theorem hypPlace_is_blocked {b : Board} {w : Wall}
    (hlen : b.m_board.length = (b.m_columns * b.m_rows).toNat)
    (hw : b.is_blocked w = false) (w' : Wall) :
    (b.hypPlace w).is_blocked w' = (b.is_blocked w' || decide (w' = w)) := by
  obtain ⟨hwin, hwD, hwR⟩ := is_blocked_false_elim hw
  cases hwty : w.type with
  | Right =>
    rw [hypPlace_eq_right hw hwty]
    by_cases hg : (w'.cell.column < 0 ∨ w'.cell.row < 0 ∨
        w'.cell.column ≥ b.m_columns ∨ w'.cell.row ≥ b.m_rows)
    · rw [is_blocked_guard (b := b) hg,
        is_blocked_guard (b := b.modify_state w.cell _) hg]
      rfl
    · cases w' with | mk wc wt =>
      have hgm : ¬((⟨wc, wt⟩ : Wall).cell.column < 0 ∨ (⟨wc, wt⟩ : Wall).cell.row < 0 ∨
          (⟨wc, wt⟩ : Wall).cell.column ≥ b.m_columns ∨
          (⟨wc, wt⟩ : Wall).cell.row ≥ b.m_rows) := hg
      have hwcin : InBounds b wc := by
        simp only [not_or] at hg
        obtain ⟨g1, g2, g3, g4⟩ := hg
        exact ⟨by omega, by omega, by omega, by omega⟩
      cases wt with
      | Down =>
        have hww : (⟨wc, WallType.Down⟩ : Wall) ≠ w := by
          intro he
          rw [← he] at hwty
          cases hwty
        by_cases hrow : wc.row = b.m_rows - 1
        · rw [is_blocked_boundary_down (b := b) rfl hrow,
            is_blocked_boundary_down (b := b.modify_state w.cell _) rfl hrow]
          rfl
        · rw [is_blocked_unfold_down (b := b) rfl hgm hrow,
            is_blocked_unfold_down (b := b.modify_state w.cell _) rfl hgm hrow]
          by_cases hcell : wc = w.cell
          · subst hcell
            rw [state_at_modify_self hwin hlen]
            simp [hww]
          · rw [state_at_modify_other hwin hwcin hcell]
            simp [hww]
      | Right =>
        by_cases hcol : wc.column = b.m_columns - 1
        · rw [is_blocked_boundary_right (b := b) rfl hcol,
            is_blocked_boundary_right (b := b.modify_state w.cell _) rfl hcol]
          rfl
        · rw [is_blocked_unfold_right (b := b) rfl hgm hcol,
            is_blocked_unfold_right (b := b.modify_state w.cell _) rfl hgm hcol]
          by_cases hcell : wc = w.cell
          · subst hcell
            have hww : (⟨w.cell, WallType.Right⟩ : Wall) = w := by
              cases w with | mk a c =>
              simp only at hwty ⊢
              rw [hwty]
            rw [state_at_modify_self hwin hlen]
            simp [hww]
          · rw [state_at_modify_other hwin hwcin hcell]
            have hww : (⟨wc, WallType.Right⟩ : Wall) ≠ w := by
              intro he
              rw [← he] at hcell
              exact hcell rfl
            simp [hww]
  | Down =>
    rw [hypPlace_eq_down hw hwty]
    by_cases hg : (w'.cell.column < 0 ∨ w'.cell.row < 0 ∨
        w'.cell.column ≥ b.m_columns ∨ w'.cell.row ≥ b.m_rows)
    · rw [is_blocked_guard (b := b) hg,
        is_blocked_guard (b := b.modify_state w.cell _) hg]
      rfl
    · cases w' with | mk wc wt =>
      have hgm : ¬((⟨wc, wt⟩ : Wall).cell.column < 0 ∨ (⟨wc, wt⟩ : Wall).cell.row < 0 ∨
          (⟨wc, wt⟩ : Wall).cell.column ≥ b.m_columns ∨
          (⟨wc, wt⟩ : Wall).cell.row ≥ b.m_rows) := hg
      have hwcin : InBounds b wc := by
        simp only [not_or] at hg
        obtain ⟨g1, g2, g3, g4⟩ := hg
        exact ⟨by omega, by omega, by omega, by omega⟩
      cases wt with
      | Right =>
        have hww : (⟨wc, WallType.Right⟩ : Wall) ≠ w := by
          intro he
          rw [← he] at hwty
          cases hwty
        by_cases hcol : wc.column = b.m_columns - 1
        · rw [is_blocked_boundary_right (b := b) rfl hcol,
            is_blocked_boundary_right (b := b.modify_state w.cell _) rfl hcol]
          rfl
        · rw [is_blocked_unfold_right (b := b) rfl hgm hcol,
            is_blocked_unfold_right (b := b.modify_state w.cell _) rfl hgm hcol]
          by_cases hcell : wc = w.cell
          · subst hcell
            rw [state_at_modify_self hwin hlen]
            simp [hww]
          · rw [state_at_modify_other hwin hwcin hcell]
            simp [hww]
      | Down =>
        by_cases hrow : wc.row = b.m_rows - 1
        · rw [is_blocked_boundary_down (b := b) rfl hrow,
            is_blocked_boundary_down (b := b.modify_state w.cell _) rfl hrow]
          rfl
        · rw [is_blocked_unfold_down (b := b) rfl hgm hrow,
            is_blocked_unfold_down (b := b.modify_state w.cell _) rfl hgm hrow]
          by_cases hcell : wc = w.cell
          · subst hcell
            have hww : (⟨w.cell, WallType.Down⟩ : Wall) = w := by
              cases w with | mk a c =>
              simp only at hwty ⊢
              rw [hwty]
            rw [state_at_modify_self hwin hlen]
            simp [hww]
          · rw [state_at_modify_other hwin hwcin hcell]
            have hww : (⟨wc, WallType.Down⟩ : Wall) ≠ w := by
              intro he
              rw [← he] at hcell
              exact hcell rfl
            simp [hww]

theorem hypPlace_unblocked_iff {b : Board} {w : Wall}
    (hlen : b.m_board.length = (b.m_columns * b.m_rows).toNat)
    (hw : b.is_blocked w = false) (w' : Wall) :
    (b.hypPlace w).is_blocked w' = false ↔ (b.is_blocked w' = false ∧ w' ≠ w) := by
  rw [hypPlace_is_blocked hlen hw w']
  simp

theorem cellAdj_symm {b : Board} {x y : Cell} (h : cellAdj b x y) : cellAdj b y x := by
  obtain ⟨d, hd, hbl, hstep⟩ := h
  refine ⟨oppositeDir d, mem_kDirections _, ?_, ?_⟩
  · rw [hstep, Wall.fromDir_step_opp]
    exact hbl
  · rw [hstep, Cell.step_opp]

theorem cellAdj_hypPlace_iff {b : Board} {w : Wall}
    (hlen : b.m_board.length = (b.m_columns * b.m_rows).toNat)
    (hw : b.is_blocked w = false) (x y : Cell) :
    cellAdj (b.hypPlace w) x y ↔
      ∃ d ∈ kDirections, b.is_blocked (Wall.fromDir x d) = false ∧
        Wall.fromDir x d ≠ w ∧ y = x.step d := by
  constructor
  · rintro ⟨d, hd, hbl, hstep⟩
    rw [hypPlace_unblocked_iff hlen hw] at hbl
    exact ⟨d, hd, hbl.1, hbl.2, hstep⟩
  · rintro ⟨d, hd, hbl, hne, hstep⟩
    refine ⟨d, hd, ?_, hstep⟩
    rw [hypPlace_unblocked_iff hlen hw]
    exact ⟨hbl, hne⟩

theorem reaches_symm {g : Board} {x y : Cell} (h : reaches g x y) : reaches g y x :=
  Relation.ReflTransGen.symmetric (fun _ _ hadj => cellAdj_symm hadj) h

theorem reaches_crossing {g : Board} {S : Set Cell} {a c : Cell} (ha : a ∉ S)
    (hc : c ∈ S) (h : reaches g a c) : ∃ x y, cellAdj g x y ∧ x ∉ S ∧ y ∈ S := by
  induction h with
  | refl => exact absurd hc ha
  | @tail m c2 hpre hstep ih =>
    by_cases hm : m ∈ S
    · exact ih hm
    · exact ⟨m, c2, hstep, hm, hc⟩

theorem reaches_stay {b : Board} {P : Cell → Prop} {a c : Cell} (ha : P a)
    (hstep : ∀ x y, P x → cellAdj b x y → P y) (h : reaches b a c) : P c := by
  induction h with
  | refl => exact ha
  | @tail m c2 hpre hs ih => exact hstep m c2 ih hs

theorem bridgeScan_succ (b : Board) (levels : List Int) (cell : Cell) (level : Int)
    (fuel dirIdx : Nat) (minAcc : Int) :
    b.bridgeScan levels cell level (fuel + 1) dirIdx minAcc =
    (if dirIdx < 4 then
      (if b.is_blocked (Wall.fromDir cell (kDirections.getD dirIdx Direction.Right)) then
        b.bridgeScan levels cell level fuel (dirIdx + 1) minAcc
      else if lvl b levels (cell.step (kDirections.getD dirIdx Direction.Right)) =
          level - 1 then
        b.bridgeScan levels cell level fuel (dirIdx + 1) minAcc
      else if lvl b levels (cell.step (kDirections.getD dirIdx Direction.Right)) = -1 then
        (minAcc, some (dirIdx + 1, cell.step (kDirections.getD dirIdx Direction.Right)))
      else
        b.bridgeScan levels cell level fuel (dirIdx + 1)
          (min minAcc (lvl b levels (cell.step (kDirections.getD dirIdx Direction.Right)))))
    else (minAcc, none)) := rfl

theorem bridgeScan_none_spec (b : Board) (levels : List Int) (cell : Cell)
    (level : Int) :
    ∀ (fuel dirIdx : Nat) (minAcc m : Int), 5 ≤ dirIdx + fuel → dirIdx ≤ 4 →
    b.bridgeScan levels cell level fuel dirIdx minAcc = (m, none) →
    m ≤ minAcc ∧
    (m = minAcc ∨ ∃ j, dirIdx ≤ j ∧ j < 4 ∧
      b.is_blocked (Wall.fromDir cell (kDirections.getD j Direction.Right)) = false ∧
      lvl b levels (cell.step (kDirections.getD j Direction.Right)) = m ∧
      lvl b levels (cell.step (kDirections.getD j Direction.Right)) ≠ level - 1 ∧
      lvl b levels (cell.step (kDirections.getD j Direction.Right)) ≠ -1) ∧
    (∀ j, dirIdx ≤ j → j < 4 → scanStep b levels cell level m j) := by
  intro fuel
  induction fuel with
  | zero =>
    intro dirIdx minAcc m h5 h4 heq
    omega
  | succ n ih =>
    intro dirIdx minAcc m h5 h4 heq
    rw [bridgeScan_succ] at heq
    by_cases hlt : dirIdx < 4
    · rw [if_pos hlt] at heq
      by_cases hbl : b.is_blocked
          (Wall.fromDir cell (kDirections.getD dirIdx Direction.Right)) = true
      · rw [if_pos hbl] at heq
        obtain ⟨c1, c2, c3⟩ := ih (dirIdx + 1) minAcc m (by omega) (by omega) heq
        refine ⟨c1, ?_, ?_⟩
        · rcases c2 with c2 | ⟨j, hj1, hj2, hrest⟩
          · exact Or.inl c2
          · exact Or.inr ⟨j, by omega, hj2, hrest⟩
        · intro j hj1 hj2
          rcases Nat.eq_or_lt_of_le hj1 with hje | hjl
          · subst hje
            exact Or.inl hbl
          · exact c3 j hjl hj2
      · rw [if_neg hbl] at heq
        by_cases hskip : lvl b levels
            (cell.step (kDirections.getD dirIdx Direction.Right)) = level - 1
        · rw [if_pos hskip] at heq
          obtain ⟨c1, c2, c3⟩ := ih (dirIdx + 1) minAcc m (by omega) (by omega) heq
          refine ⟨c1, ?_, ?_⟩
          · rcases c2 with c2 | ⟨j, hj1, hj2, hrest⟩
            · exact Or.inl c2
            · exact Or.inr ⟨j, by omega, hj2, hrest⟩
          · intro j hj1 hj2
            rcases Nat.eq_or_lt_of_le hj1 with hje | hjl
            · subst hje
              exact Or.inr ⟨by simpa using hbl, Or.inl hskip⟩
            · exact c3 j hjl hj2
        · rw [if_neg hskip] at heq
          by_cases hnew : lvl b levels
              (cell.step (kDirections.getD dirIdx Direction.Right)) = -1
          · rw [if_pos hnew] at heq
            cases heq
          · rw [if_neg hnew] at heq
            obtain ⟨c1, c2, c3⟩ := ih (dirIdx + 1) _ m (by omega) (by omega) heq
            have hml : m ≤ min minAcc (lvl b levels
                (cell.step (kDirections.getD dirIdx Direction.Right))) := c1
            refine ⟨le_trans hml (min_le_left _ _), ?_, ?_⟩
            · rcases c2 with c2 | ⟨j, hj1, hj2, hrest⟩
              · rcases le_total minAcc (lvl b levels
                    (cell.step (kDirections.getD dirIdx Direction.Right))) with hc | hc
                · left
                  rw [c2]
                  exact min_eq_left hc
                · right
                  refine ⟨dirIdx, le_refl _, hlt, by simpa using hbl, ?_, hskip, hnew⟩
                  rw [c2]
                  exact (min_eq_right hc).symm
              · exact Or.inr ⟨j, by omega, hj2, hrest⟩
            · intro j hj1 hj2
              rcases Nat.eq_or_lt_of_le hj1 with hje | hjl
              · subst hje
                refine Or.inr ⟨by simpa using hbl, Or.inr ⟨hnew, ?_⟩⟩
                exact le_trans hml (min_le_right _ _)
              · exact c3 j hjl hj2
    · rw [if_neg hlt] at heq
      injection heq with heq1 heq2
      subst heq1
      refine ⟨le_refl _, Or.inl rfl, ?_⟩
      intro j hj1 hj2
      omega

theorem bridgeScan_some_spec (b : Board) (levels : List Int) (cell : Cell)
    (level : Int) :
    ∀ (fuel dirIdx : Nat) (minAcc m : Int) (nd : Nat) (nb : Cell),
    5 ≤ dirIdx + fuel → dirIdx ≤ 4 →
    b.bridgeScan levels cell level fuel dirIdx minAcc = (m, some (nd, nb)) →
    m ≤ minAcc ∧
    (m = minAcc ∨ ∃ j, dirIdx ≤ j ∧ j < 4 ∧
      b.is_blocked (Wall.fromDir cell (kDirections.getD j Direction.Right)) = false ∧
      lvl b levels (cell.step (kDirections.getD j Direction.Right)) = m ∧
      lvl b levels (cell.step (kDirections.getD j Direction.Right)) ≠ level - 1 ∧
      lvl b levels (cell.step (kDirections.getD j Direction.Right)) ≠ -1) ∧
    dirIdx < nd ∧ nd ≤ 4 ∧
    (∀ j, dirIdx ≤ j → j < nd - 1 → scanStep b levels cell level m j) ∧
    b.is_blocked (Wall.fromDir cell (kDirections.getD (nd - 1) Direction.Right)) = false ∧
    nb = cell.step (kDirections.getD (nd - 1) Direction.Right) ∧
    lvl b levels nb = -1 := by
  intro fuel
  induction fuel with
  | zero =>
    intro dirIdx minAcc m nd nb h5 h4 heq
    omega
  | succ n ih =>
    intro dirIdx minAcc m nd nb h5 h4 heq
    rw [bridgeScan_succ] at heq
    by_cases hlt : dirIdx < 4
    · rw [if_pos hlt] at heq
      by_cases hbl : b.is_blocked
          (Wall.fromDir cell (kDirections.getD dirIdx Direction.Right)) = true
      · rw [if_pos hbl] at heq
        obtain ⟨c1, c2, c3, c4, c5, c6, c7, c8⟩ :=
          ih (dirIdx + 1) minAcc m nd nb (by omega) (by omega) heq
        refine ⟨c1, ?_, by omega, c4, ?_, c6, c7, c8⟩
        · rcases c2 with c2 | ⟨j, hj1, hj2, hrest⟩
          · exact Or.inl c2
          · exact Or.inr ⟨j, by omega, hj2, hrest⟩
        · intro j hj1 hj2
          rcases Nat.eq_or_lt_of_le hj1 with hje | hjl
          · subst hje
            exact Or.inl hbl
          · exact c5 j hjl hj2
      · rw [if_neg hbl] at heq
        by_cases hskip : lvl b levels
            (cell.step (kDirections.getD dirIdx Direction.Right)) = level - 1
        · rw [if_pos hskip] at heq
          obtain ⟨c1, c2, c3, c4, c5, c6, c7, c8⟩ :=
            ih (dirIdx + 1) minAcc m nd nb (by omega) (by omega) heq
          refine ⟨c1, ?_, by omega, c4, ?_, c6, c7, c8⟩
          · rcases c2 with c2 | ⟨j, hj1, hj2, hrest⟩
            · exact Or.inl c2
            · exact Or.inr ⟨j, by omega, hj2, hrest⟩
          · intro j hj1 hj2
            rcases Nat.eq_or_lt_of_le hj1 with hje | hjl
            · subst hje
              exact Or.inr ⟨by simpa using hbl, Or.inl hskip⟩
            · exact c5 j hjl hj2
        · rw [if_neg hskip] at heq
          by_cases hnew : lvl b levels
              (cell.step (kDirections.getD dirIdx Direction.Right)) = -1
          · rw [if_pos hnew] at heq
            injection heq with heq1 heq2
            injection heq2 with heq2
            injection heq2 with heq3 heq4
            subst heq1
            subst heq3
            subst heq4
            have hnd : dirIdx + 1 - 1 = dirIdx := by omega
            refine ⟨le_refl _, Or.inl rfl, by omega, by omega, ?_, ?_, ?_, ?_⟩
            · intro j hj1 hj2
              omega
            · rw [hnd]
              simpa using hbl
            · rw [hnd]
            · exact hnew
          · rw [if_neg hnew] at heq
            obtain ⟨c1, c2, c3, c4, c5, c6, c7, c8⟩ :=
              ih (dirIdx + 1) _ m nd nb (by omega) (by omega) heq
            have hml : m ≤ min minAcc (lvl b levels
                (cell.step (kDirections.getD dirIdx Direction.Right))) := c1
            refine ⟨le_trans hml (min_le_left _ _), ?_, by omega, c4, ?_, c6, c7, c8⟩
            · rcases c2 with c2 | ⟨j, hj1, hj2, hrest⟩
              · rcases le_total minAcc (lvl b levels
                    (cell.step (kDirections.getD dirIdx Direction.Right))) with hc | hc
                · left
                  rw [c2]
                  exact min_eq_left hc
                · right
                  refine ⟨dirIdx, le_refl _, hlt, by simpa using hbl, ?_, hskip, hnew⟩
                  rw [c2]
                  exact (min_eq_right hc).symm
              · exact Or.inr ⟨j, by omega, hj2, hrest⟩
            · intro j hj1 hj2
              rcases Nat.eq_or_lt_of_le hj1 with hje | hjl
              · subst hje
                refine Or.inr ⟨by simpa using hbl, Or.inr ⟨hnew, ?_⟩⟩
                exact le_trans hml (min_le_right _ _)
              · exact c5 j hjl hj2
    · rw [if_neg hlt] at heq
      cases heq

theorem count_set_of_ne {l : List Int} {i : Nat} (h : i < l.length)
    (hv : l.getD i 0 = -1) {v : Int} (hv2 : v ≠ -1) :
    (l.set i v).count (-1) + 1 = l.count (-1) := by
  induction l generalizing i with
  | nil => cases h
  | cons a tl ih =>
    cases i with
    | zero =>
      simp only [List.getD, List.getElem?_cons_zero, Option.getD_some] at hv
      subst hv
      simp [List.count_cons, hv2]
    | succ n =>
      have hlt : n < tl.length := by simpa using h
      have hv' : tl.getD n 0 = -1 := by simpa [List.getD] using hv
      have := ih hlt hv'
      simp only [List.set_cons_succ, List.count_cons]
      omega

theorem StacksOK_cons {b : Board} {s t : Cell} {levels : List Int}
    {par : Cell → Option (Cell × Direction)} {a : Option Cell} {f : StackFrame}
    {rest : List StackFrame} {D : Set Cell} {Ds : List (Set Cell)} :
    StacksOK b s t levels par a (f :: rest) (D :: Ds) ↔
    (frameFacts b t levels par a f D (stackCells rest) ∧
    (match rest with
     | [] => f.cell = s
     | p :: _ =>
       1 ≤ p.dir_index ∧
       b.is_blocked (Wall.fromDir p.cell
         (kDirections.getD (p.dir_index - 1) Direction.Right)) = false ∧
       p.cell.step (kDirections.getD (p.dir_index - 1) Direction.Right) = f.cell ∧
       par f.cell =
         some (p.cell, kDirections.getD (p.dir_index - 1) Direction.Right)) ∧
    StacksOK b s t levels par (some f.cell) rest Ds) := Iff.rfl

theorem StacksOK_false {b : Board} {s t : Cell} {levels : List Int}
    {par : Cell → Option (Cell × Direction)} {a : Option Cell} {f : StackFrame}
    {rest : List StackFrame}
    (h : StacksOK b s t levels par a (f :: rest) []) : False := h

theorem stacks_frames {b : Board} {s t : Cell} {levels : List Int}
    {par : Cell → Option (Cell × Direction)} :
    ∀ (stack : List StackFrame) (Ds : List (Set Cell)) (a : Option Cell),
    StacksOK b s t levels par a stack Ds →
    ∀ fr ∈ stack, InBounds b fr.cell ∧ lvl b levels fr.cell = fr.level ∧
      1 ≤ fr.level ∧ fr.level ≤ (stack.length : Int) := by
  intro stack
  induction stack with
  | nil =>
    intro Ds a hso fr hfr
    cases hfr
  | cons f rest ih =>
    intro Ds a hso fr hfr
    cases Ds with
    | nil => exact (StacksOK_false hso).elim
    | cons D Ds2 =>
      obtain ⟨hff, hlink, hrest⟩ := StacksOK_cons.mp hso
      obtain ⟨f1, f2, f3, _⟩ := hff
      cases hfr with
      | head =>
        refine ⟨f1, f2, ?_, ?_⟩ <;>
          (simp only [stackCells, List.length_map] at f3
           simp [f3])
      | tail _ hmem =>
        obtain ⟨g1, g2, g3, g4⟩ := ih Ds2 (some f.cell) hrest fr hmem
        refine ⟨g1, g2, g3, ?_⟩
        simp only [List.length_cons]
        push_cast
        omega

theorem stacks_bottom {b : Board} {s t : Cell} {levels : List Int}
    {par : Cell → Option (Cell × Direction)} :
    ∀ (stack : List StackFrame) (Ds : List (Set Cell)) (a : Option Cell),
    StacksOK b s t levels par a stack Ds → stack ≠ [] →
    ∃ fr ∈ stack, fr.cell = s ∧ fr.level = 1 := by
  intro stack
  induction stack with
  | nil =>
    intro Ds a hso hne
    exact absurd rfl hne
  | cons f rest ih =>
    intro Ds a hso hne
    cases Ds with
    | nil => exact (StacksOK_false hso).elim
    | cons D Ds2 =>
      obtain ⟨hff, hlink, hrest⟩ := StacksOK_cons.mp hso
      cases rest with
      | nil =>
        refine ⟨f, List.mem_cons_self _ _, hlink, ?_⟩
        have := hff.2.2.1
        simpa [stackCells] using this
      | cons p rest2 =>
        obtain ⟨fr, hmem, hcell, hlevel⟩ := ih Ds2 (some f.cell) hrest (by simp)
        exact ⟨fr, List.mem_cons_of_mem _ hmem, hcell, hlevel⟩

theorem inTree_of_step {par : Cell → Option (Cell × Direction)} {x y u : Cell}
    {d : Direction} (hp : par x = some (y, d)) (h : inTree par u y) :
    inTree par u x :=
  Relation.ReflTransGen.head ⟨d, hp⟩ h

theorem inTree_of_mem_D {b : Board} {levels : List Int}
    {par : Cell → Option (Cell × Direction)} {D : Set Cell} {fc : Cell} {fl : Int}
    (hfl : 0 ≤ fl)
    (hD1 : ∀ x ∈ D, discovered b levels x ∧ fl < lvl b levels x)
    (hstep : ∀ x ∈ D, ∃ y d, par x = some (y, d) ∧ (y ∈ D ∨ y = fc) ∧
      lvl b levels y = lvl b levels x - 1) :
    ∀ x ∈ D, inTree par fc x := by
  suffices h : ∀ n : Nat, ∀ x ∈ D, (lvl b levels x).toNat ≤ n → inTree par fc x by
    intro x hx
    exact h (lvl b levels x).toNat x hx (le_refl _)
  intro n
  induction n with
  | zero =>
    intro x hx hle
    have := (hD1 x hx).2
    omega
  | succ n ihn =>
    intro x hx hle
    obtain ⟨y, d, hpx, hcase, hlvy⟩ := hstep x hx
    rcases hcase with hyD | hyfc
    · have hlt := (hD1 x hx).2
      have hlt2 := (hD1 y hyD).2
      exact inTree_of_step hpx (ihn y hyD (by omega))
    · subst hyfc
      exact inTree_of_step hpx Relation.ReflTransGen.refl

theorem mem_D_of_inTree {b : Board} {levels : List Int}
    {par : Cell → Option (Cell × Direction)} {D : Set Cell}
    (hNone : ∀ x, ¬ discovered b levels x → par x = none)
    (hfin : ∀ x, discovered b levels x → ∀ y d, par x = some (y, d) → y ∈ D → x ∈ D)
    {u : Cell} (hu : u ∈ D) : ∀ x, inTree par u x → x ∈ D := by
  intro x hx
  induction hx using Relation.ReflTransGen.head_induction_on with
  | refl => exact hu
  | head hstep hrest ih =>
    rename_i a c
    obtain ⟨d, hpa⟩ := hstep
    have hdisc : discovered b levels a := by
      by_contra hnd
      rw [hNone a hnd] at hpa
      cases hpa
    exact hfin a hdisc _ _ hpa ih

theorem inTree_chain_not {b : Board} {s t : Cell} {levels : List Int}
    {par : Cell → Option (Cell × Direction)} (hpars : par s = none) :
    ∀ (stack : List StackFrame) (Ds : List (Set Cell)) (a : Option Cell),
    StacksOK b s t levels par a stack Ds →
    ∀ u, u ∉ stackCells stack →
    ∀ fr ∈ stack, ¬ inTree par u fr.cell := by
  intro stack
  induction stack with
  | nil =>
    intro Ds a hso u hu fr hfr
    cases hfr
  | cons f rest ih =>
    intro Ds a hso u hu fr hfr
    cases Ds with
    | nil => exact (StacksOK_false hso).elim
    | cons D Ds2 =>
      obtain ⟨hff, hlink, hrest⟩ := StacksOK_cons.mp hso
      have hu2 : u ∉ stackCells rest := by
        intro hmem
        exact hu (by simp [stackCells] at hmem ⊢; exact Or.inr hmem)
      cases hfr with
      | head =>
        intro htree
        rcases Relation.ReflTransGen.cases_head htree with heq | ⟨y, hstep, hrest2⟩
        · exact hu (by simp [stackCells, heq])
        · obtain ⟨d, hpf⟩ := hstep
          cases rest with
          | nil =>
            rw [hlink] at hpf
            rw [hpars] at hpf
            cases hpf
          | cons p rest2 =>
            obtain ⟨l1, l2, l3, l4⟩ := hlink
            rw [l4] at hpf
            injection hpf with hpf2
            have hy : y = p.cell := by
              have := congrArg Prod.fst hpf2
              exact this.symm
            subst hy
            exact ih Ds2 (some f.cell) hrest u hu2 p (by simp) hrest2
      | tail _ hmem =>
        exact ih Ds2 (some f.cell) hrest u hu2 fr hmem

theorem inTree_update_iff {par : Cell → Option (Cell × Direction)} {ch y0 : Cell}
    {d0 : Direction} {u : Cell} (hch : par ch = none) (hy0 : ¬ inTree par u y0)
    (hune : u ≠ ch) (x : Cell) :
    inTree (fun z => if z = ch then some (y0, d0) else par z) u x ↔
      (x ≠ ch ∧ inTree par u x) := by
  constructor
  · intro h
    induction h using Relation.ReflTransGen.head_induction_on with
    | refl => exact ⟨hune, Relation.ReflTransGen.refl⟩
    | head hstep hrest ih =>
      rename_i a c
      obtain ⟨d, hpa⟩ := hstep
      have hpa2 : (if a = ch then some (y0, d0) else par a) = some (c, d) := hpa
      by_cases hach : a = ch
      · rw [if_pos hach] at hpa2
        injection hpa2 with hpa3
        have hc : c = y0 := by
          have h5 := congrArg Prod.fst hpa3
          exact h5.symm
        subst hc
        exact absurd ih.2 hy0
      · rw [if_neg hach] at hpa2
        exact ⟨hach, inTree_of_step hpa2 ih.2⟩
  · rintro ⟨hxch, h⟩
    induction h using Relation.ReflTransGen.head_induction_on with
    | refl => exact Relation.ReflTransGen.refl
    | head hstep hrest ih =>
      rename_i a c
      obtain ⟨d, hpa⟩ := hstep
      have hach : a ≠ ch := by
        intro he
        rw [he, hch] at hpa
        cases hpa
      have hcch : c ≠ ch := by
        intro he
        rw [he] at hrest
        rcases Relation.ReflTransGen.cases_head hrest with heq | ⟨y, hstep2, hrest3⟩
        · exact hune heq.symm
        · obtain ⟨d2, hpc⟩ := hstep2
          rw [hch] at hpc
          cases hpc
      have hpa3 : (fun z => if z = ch then some (y0, d0) else par z) a =
          some (c, d) := by
        show (if a = ch then some (y0, d0) else par a) = some (c, d)
        rw [if_neg hach]
        exact hpa
      exact inTree_of_step hpa3 (ih hcch)

theorem bridgeLoop_nil {b : Board} {t : Cell} (fuel : Nat) (levels : List Int)
    (bridges : List Wall) :
    b.bridgeLoop t fuel levels bridges [] = (levels, bridges) := by
  cases fuel with
  | zero => rfl
  | succ n => rfl

theorem bridgeLoop_succ {b : Board} {t : Cell} (fuel : Nat) (levels : List Int)
    (bridges : List Wall) (frame : StackFrame) (rest : List StackFrame) :
    b.bridgeLoop t (fuel + 1) levels bridges (frame :: rest) =
    (match b.bridgeScan levels frame.cell frame.level 5 frame.dir_index frame.min_level with
    | (minAcc, some (next_dir, neighbor)) =>
      b.bridgeLoop t fuel
        (levels.set (b.index_from_cell neighbor).toNat (frame.level + 1)) bridges
        (⟨neighbor, frame.level + 1, 0, neighbor = t, frame.level + 1⟩ ::
          { frame with dir_index := next_dir, min_level := minAcc } :: rest)
    | (minAcc, none) =>
      match rest with
      | [] => b.bridgeLoop t fuel levels bridges []
      | parent :: rest2 =>
        b.bridgeLoop t fuel levels
          (if ({ frame with min_level := minAcc } : StackFrame).target_found &&
              decide (({ frame with min_level := minAcc } : StackFrame).min_level >
                parent.level) then
            (let w := Wall.fromDir parent.cell
              (kDirections.getD (parent.dir_index - 1) Direction.Right)
             if bridges.contains w then bridges else w :: bridges)
          else bridges)
          ({ parent with
              target_found := parent.target_found ||
                ({ frame with min_level := minAcc } : StackFrame).target_found
              min_level := min parent.min_level
                ({ frame with min_level := minAcc } : StackFrame).min_level } :: rest2)) := by
  rfl

theorem stacks_nbr_excl {b : Board} {s t : Cell} {levels : List Int}
    {par : Cell → Option (Cell × Direction)} :
    ∀ (stack : List StackFrame) (Ds : List (Set Cell)) (a : Option Cell),
    StacksOK b s t levels par a stack Ds →
    ∀ c0 : Cell,
    (∀ D2 ∈ Ds, c0 ∉ D2) →
    (∀ fr ∈ stack, lvl b levels fr.cell < lvl b levels c0) →
    ∀ D2 ∈ Ds, ∀ z ∈ D2, ∀ d ∈ kDirections,
      b.is_blocked (Wall.fromDir z d) = false → z.step d ≠ c0 := by
  intro stack
  induction stack with
  | nil =>
    intro Ds a hso c0 hc0 hlv D2 hD2 z hz d hd hbl
    cases Ds with
    | nil => cases hD2
    | cons D3 Ds3 => exact hso.elim
  | cons f rest ih =>
    intro Ds a hso c0 hc0 hlv D2 hD2 z hz d hd hbl
    cases Ds with
    | nil => exact (StacksOK_false hso).elim
    | cons D3 Ds3 =>
      obtain ⟨hff, hlink, hrest⟩ := StacksOK_cons.mp hso
      cases hD2 with
      | head =>
        intro hstep
        have hne := hff.2.2.2.2.2.2.2.2.1 z hz d hd hbl
        rcases hne with hin | hin | hin
        · rw [hstep] at hin
          exact hc0 D2 (List.mem_cons_self _ _) hin
        · rw [hstep] at hin
          have hl := hlv f (List.mem_cons_self _ _)
          rw [hin] at hl
          exact lt_irrefl _ hl
        · rw [hstep] at hin
          simp only [stackCells, List.mem_map] at hin
          obtain ⟨fr2, hfr2, hfr2c⟩ := hin
          have hl := hlv fr2 (List.mem_cons_of_mem _ hfr2)
          rw [hfr2c] at hl
          exact lt_irrefl _ hl
      | tail _ hmem =>
        exact ih Ds3 (some f.cell) hrest c0
          (fun D4 hD4 => hc0 D4 (List.mem_cons_of_mem _ hD4))
          (fun fr hfr => hlv fr (List.mem_cons_of_mem _ hfr))
          D2 hmem z hz d hd hbl

/-- Discovering a fresh cell (extending `levels` at `ch` and binding its ghost
parent) does not disturb the invariant of untouched stack frames. -/
theorem StacksOK_stable_push {b : Board} {s t : Cell} {levels : List Int}
    {par : Cell → Option (Cell × Direction)} {ch y0 : Cell} {v : Int} {d0 : Direction}
    (hchin : InBounds b ch) (hfresh : ¬ discovered b levels ch) :
    ∀ (stack : List StackFrame) (Ds : List (Set Cell)) (a : Option Cell),
    StacksOK b s t levels par a stack Ds →
    (∀ fr ∈ stack, fr.cell ≠ ch ∧ fr.cell ≠ y0) →
    (∀ ac, a = some ac → ac ≠ ch) →
    StacksOK b s t (levels.set (b.index_from_cell ch).toNat v)
      (fun z => if z = ch then some (y0, d0) else par z) a stack Ds := by
  intro stack
  induction stack with
  | nil =>
    intro Ds a hso hcells haOK
    cases Ds with
    | nil => exact trivial
    | cons D Ds2 => exact hso.elim
  | cons f rest ih =>
    intro Ds a hso hcells haOK
    cases Ds with
    | nil => exact (StacksOK_false hso).elim
    | cons D Ds2 =>
      obtain ⟨hff, hlink, hrest⟩ := StacksOK_cons.mp hso
      obtain ⟨q1, q2, q3, q4, q5, q6, q7, q8, q9, q10, q11, q12, q13⟩ := hff
      have hlv2 : ∀ x : Cell, InBounds b x → x ≠ ch →
          lvl b (levels.set (b.index_from_cell ch).toNat v) x = lvl b levels x :=
        fun x hx hne => lvl_set_other hchin hx hne v
      have hdstable : ∀ x : Cell, discovered b levels x →
          (x ≠ ch ∧ discovered b (levels.set (b.index_from_cell ch).toNat v) x) := by
        intro x hx
        have hne : x ≠ ch := by
          intro he
          rw [he] at hx
          exact hfresh hx
        exact ⟨hne, hx.1, by rw [hlv2 x hx.1 hne]; exact hx.2⟩
      have hpar2 : ∀ x : Cell, x ≠ ch →
          (fun z => if z = ch then some (y0, d0) else par z) x = par x := by
        intro x hne
        simp only [if_neg hne]
      have hfne : f.cell ≠ ch := (hcells f (List.mem_cons_self _ _)).1
      have hfdisc : discovered b levels f.cell := by
        refine ⟨q1, ?_⟩
        rw [q2]
        have h3 := q3
        intro he
        rw [he] at h3
        omega
      have hbelow : ∀ c2 ∈ stackCells rest, c2 ≠ ch ∧ discovered b levels c2 := by
        intro c2 hc2
        simp only [stackCells, List.mem_map] at hc2
        obtain ⟨fr2, hfr2, hfr2c⟩ := hc2
        constructor
        · rw [← hfr2c]
          exact (hcells fr2 (List.mem_cons_of_mem _ hfr2)).1
        · obtain ⟨g1, g2, g3, g4⟩ :=
            stacks_frames rest Ds2 (some f.cell) hrest fr2 hfr2
          rw [← hfr2c]
          refine ⟨g1, ?_⟩
          rw [g2]
          omega
      have hDstable : ∀ x ∈ D, x ≠ ch ∧
          discovered b (levels.set (b.index_from_cell ch).toNat v) x ∧
          lvl b (levels.set (b.index_from_cell ch).toNat v) x = lvl b levels x := by
        intro x hx
        obtain ⟨hne, hd2⟩ := hdstable x (q7 x hx).1
        exact ⟨hne, hd2, hlv2 x (q7 x hx).1.1 hne⟩
      rw [StacksOK_cons]
      refine ⟨⟨q1, ?_, q3, q4, q5, q6, ?_, ?_, q9, ?_, ?_, ?_, ?_⟩, ?_, ?_⟩
      · rw [hlv2 f.cell q1 hfne]
        exact q2
      · intro x hx
        obtain ⟨hne, hd2, hl2⟩ := hDstable x hx
        refine ⟨hd2, ?_⟩
        rw [hl2]
        exact (q7 x hx).2
      · intro x hx
        obtain ⟨y, d, hpx, hcase⟩ := q8 x hx
        have hxne := (hDstable x hx).1
        exact ⟨y, d, by rw [hpar2 x hxne]; exact hpx, hcase⟩
      · intro x hx d hd hbl
        obtain ⟨hxne, hxd2, hxl2⟩ := hDstable x hx
        rcases q9 x hx d hd hbl with hin | hin | hin
        all_goals rcases q10 x hx d hd hbl with hm | hm | hm
        all_goals try (exact Or.inl hm)
        all_goals
          (have hstepne : x.step d ≠ ch := by
            first
            | (intro he; rw [he] at hin; exact absurd hin
                (fun hmem => (hDstable _ hmem).1 rfl))
            | (intro he; rw [he] at hin; exact hfne hin.symm)
            | (intro he; rw [he] at hin; exact absurd hin
                (fun hmem => (hbelow _ hmem).1 rfl)))
        all_goals
          (have hstepin : InBounds b (x.step d) := (unblocked_inBounds hbl).2)
        all_goals rw [hlv2 (x.step d) hstepin hstepne]
        · exact Or.inr (Or.inl hm)
        · rw [hxl2]
          exact Or.inr (Or.inr hm)
        · exact Or.inr (Or.inl hm)
        · rw [hxl2]
          exact Or.inr (Or.inr hm)
        · exact Or.inr (Or.inl hm)
        · rw [hxl2]
          exact Or.inr (Or.inr hm)
      · intro j hj hbl
        obtain ⟨h1, h2⟩ := q11 j hj hbl
        have hstepne : f.cell.step (kDirections.getD j Direction.Right) ≠ ch := by
          rcases h1 with hin | hin | hin
          · intro he
            rw [he] at hin
            exact absurd hin (fun hmem => (hDstable _ hmem).1 rfl)
          · intro he
            rw [he] at hin
            exact absurd hin (fun hmem => (hbelow _ hmem).1 rfl)
          · intro he
            obtain ⟨ac, hac⟩ : ∃ ac, a = some ac := by
              cases a with
              | none => cases hin
              | some ac => exact ⟨ac, rfl⟩
            rw [hac] at hin
            injection hin with hin2
            exact haOK ac hac (by rw [← hin2, he])
        have hstepin : InBounds b (f.cell.step (kDirections.getD j Direction.Right)) :=
          (unblocked_inBounds hbl).2
        refine ⟨h1, ?_⟩
        rw [hlv2 _ hstepin hstepne]
        exact h2
      · rcases q12 with h | ⟨y, dd, hy, hdd, hbl, hdisc, hlvv, hlvy⟩
        · exact Or.inl h
        · right
          have hyne : y ≠ ch ∧ discovered b levels y := by
            rcases hy with hyD | hyf
            · exact ⟨(hDstable y hyD).1, (q7 y hyD).1⟩
            · rw [hyf]
              exact ⟨hfne, hfdisc⟩
          have hstepne : y.step dd ≠ ch := (hdstable _ hdisc).1
          refine ⟨y, dd, hy, hdd, hbl, (hdstable _ hdisc).2, ?_, ?_⟩
          · rw [hlv2 _ hdisc.1 hstepne]
            exact hlvv
          · rw [hlv2 _ hdisc.1 hstepne, hlv2 _ hyne.2.1 hyne.1]
            exact hlvy
      · intro x hx2 d hpx
        have hpx2 : (if x = ch then some (y0, d0) else par x) = some (f.cell, d) := hpx
        by_cases hxch : x = ch
        · rw [if_pos hxch] at hpx2
          injection hpx2 with hpx3
          have hy0f : y0 = f.cell := congrArg Prod.fst hpx3
          exact absurd hy0f.symm (hcells f (List.mem_cons_self _ _)).2
        · rw [if_neg hxch] at hpx2
          have hxdisc : discovered b levels x := by
            refine ⟨hx2.1, ?_⟩
            rw [← hlv2 x hx2.1 hxch]
            exact hx2.2
          exact q13 x hxdisc d hpx2
      · cases rest with
        | nil => exact hlink
        | cons p rest2 =>
          obtain ⟨l1, l2, l3, l4⟩ := hlink
          refine ⟨l1, l2, l3, ?_⟩
          show (if f.cell = ch then some (y0, d0) else par f.cell) =
            some (p.cell, kDirections.getD (p.dir_index - 1) Direction.Right)
          rw [if_neg hfne]
          exact l4
      · exact ih Ds2 (some f.cell) hrest
          (fun fr hfr => hcells fr (List.mem_cons_of_mem _ hfr))
          (fun ac hac => by
            injection hac with hac2
            rw [← hac2]
            exact hfne)

theorem inv_s_disc {b : Board} {s t : Cell} {levels : List Int} {bridges : List Wall}
    {stack : List StackFrame} {Ds : List (Set Cell)}
    {par : Cell → Option (Cell × Direction)}
    (hinv : LoopInv b s t levels bridges stack Ds par) :
    discovered b levels s ∧ lvl b levels s = 1 := by
  obtain ⟨fr, hfr, hcell, hlevel⟩ :=
    stacks_bottom stack Ds none hinv.hstacks hinv.hne
  obtain ⟨g1, g2, g3, g4⟩ := stacks_frames stack Ds none hinv.hstacks fr hfr
  rw [hcell] at g1 g2
  rw [hlevel] at g2
  exact ⟨⟨g1, by rw [g2]; omega⟩, g2⟩

theorem inv_fin_disc {b : Board} {s t : Cell} {levels : List Int} {bridges : List Wall}
    {stack : List StackFrame} {Ds : List (Set Cell)}
    {par : Cell → Option (Cell × Direction)}
    (hinv : LoopInv b s t levels bridges stack Ds par)
    {D2 : Set Cell} (hD2 : D2 ∈ Ds) {u : Cell} (hu : u ∈ D2) :
    discovered b levels u :=
  (hinv.hdisc u).mpr (Or.inr ⟨D2, hD2, hu⟩)

theorem inv_fin_not_chain {b : Board} {s t : Cell} {levels : List Int}
    {bridges : List Wall} {stack : List StackFrame} {Ds : List (Set Cell)}
    {par : Cell → Option (Cell × Direction)}
    (hinv : LoopInv b s t levels bridges stack Ds par)
    {D2 : Set Cell} (hD2 : D2 ∈ Ds) {u : Cell} (hu : u ∈ D2) :
    u ∉ stackCells stack := by
  intro hmem
  simp only [stackCells, List.mem_map] at hmem
  obtain ⟨fr, hfr, hfrc⟩ := hmem
  exact hinv.hdisjoint fr hfr D2 hD2 (by rw [hfrc]; exact hu)

theorem inv_fin_not_inTree_chain {b : Board} {s t : Cell} {levels : List Int}
    {bridges : List Wall} {stack : List StackFrame} {Ds : List (Set Cell)}
    {par : Cell → Option (Cell × Direction)}
    (hinv : LoopInv b s t levels bridges stack Ds par)
    {D2 : Set Cell} (hD2 : D2 ∈ Ds) {u : Cell} (hu : u ∈ D2) :
    ∀ fr ∈ stack, ¬ inTree par u fr.cell :=
  inTree_chain_not hinv.hpars stack Ds none hinv.hstacks u
    (inv_fin_not_chain hinv hD2 hu)

theorem inTree_disc {b : Board} {levels : List Int}
    {par : Cell → Option (Cell × Direction)}
    (hNone : ∀ x, ¬ discovered b levels x → par x = none)
    {u : Cell} (hu : discovered b levels u) :
    ∀ x, inTree par u x → discovered b levels x := by
  intro x hx
  rcases Relation.ReflTransGen.cases_head hx with heq | ⟨y, hstep, hrest⟩
  · rw [heq]
    exact hu
  · obtain ⟨d, hpx⟩ := hstep
    by_contra hnd
    rw [hNone x hnd] at hpx
    cases hpx

theorem excl_top {b : Board} {s t : Cell} {levels : List Int} {bridges : List Wall}
    {f : StackFrame} {rest : List StackFrame} {D : Set Cell} {Ds2 : List (Set Cell)}
    {par : Cell → Option (Cell × Direction)}
    (hinv : LoopInv b s t levels bridges (f :: rest) (D :: Ds2) par)
    {z : Cell} (hz : discovered b levels z) {d : Direction} (hd : d ∈ kDirections)
    (hbl : b.is_blocked (Wall.fromDir f.cell d) = false) (hstep : f.cell.step d = z) :
    z ∈ D ∨ z ∈ stackCells (f :: rest) := by
  rcases (hinv.hdisc z).mp hz with hc | ⟨D2, hD2, hzD2⟩
  · exact Or.inr hc
  · cases hD2 with
    | head => exact Or.inl hzD2
    | tail _ hmem =>
      exfalso
      obtain ⟨hff, hlink, hrest⟩ := StacksOK_cons.mp hinv.hstacks
      have hzedge : b.is_blocked (Wall.fromDir z (oppositeDir d)) = false := by
        rw [← hstep, Wall.fromDir_step_opp]
        exact hbl
      have hzstep : z.step (oppositeDir d) = f.cell := by
        rw [← hstep, Cell.step_opp]
      have hflvl : lvl b levels f.cell = f.level := hff.2.1
      have hfpos : f.level = (stackCells rest).length + 1 := hff.2.2.1
      refine stacks_nbr_excl rest Ds2 (some f.cell) hrest f.cell ?_ ?_ D2 hmem z hzD2
        (oppositeDir d) (mem_kDirections _) hzedge hzstep
      · intro D3 hD3
        exact hinv.hdisjoint f (List.mem_cons_self _ _) D3 (List.mem_cons_of_mem _ hD3)
      · intro fr hfr
        obtain ⟨g1, g2, g3, g4⟩ :=
          stacks_frames rest Ds2 (some f.cell) hrest fr hfr
        rw [g2, hflvl, hfpos]
        simp only [stackCells, List.length_map] at g4 ⊢
        push_cast
        omega

/-- Pushing a freshly discovered neighbour preserves the loop invariant. -/
theorem LoopInv_push {b : Board} {s t : Cell} {levels : List Int} {bridges : List Wall}
    {f : StackFrame} {rest : List StackFrame} {D : Set Cell} {Ds2 : List (Set Cell)}
    {par : Cell → Option (Cell × Direction)}
    (hinv : LoopInv b s t levels bridges (f :: rest) (D :: Ds2) par)
    {m : Int} {nd : Nat} {nb : Cell}
    (hscan : b.bridgeScan levels f.cell f.level 5 f.dir_index f.min_level =
      (m, some (nd, nb))) :
    LoopInv b s t (levels.set (b.index_from_cell nb).toNat (f.level + 1)) bridges
      ((⟨nb, f.level + 1, 0, nb = t, f.level + 1⟩ : StackFrame) ::
        { f with dir_index := nd, min_level := m } :: rest)
      (∅ :: D :: Ds2)
      (fun z => if z = nb then
        some (f.cell, kDirections.getD (nd - 1) Direction.Right) else par z) := by
  obtain ⟨hff, hlink, hrest⟩ := StacksOK_cons.mp hinv.hstacks
  obtain ⟨q1, q2, q3, q4, q5, q6, q7, q8, q9, q10, q11, q12, q13⟩ := hff
  obtain ⟨c1, c2, c3, c4, c5, c6, c7, c8⟩ :=
    bridgeScan_some_spec b levels f.cell f.level 5 f.dir_index f.min_level m nd nb
      (by omega) q4 hscan
  have hnbin : InBounds b nb := by
    rw [c7]
    exact (unblocked_inBounds c6).2
  have hnbfresh : ¬ discovered b levels nb := fun hd2 => hd2.2 c8
  have hflevel1 : 1 ≤ f.level := by
    rw [q3]
    omega
  have hfdisc : discovered b levels f.cell := by
    refine ⟨q1, ?_⟩
    rw [q2]
    omega
  have hfne : f.cell ≠ nb := by
    intro he
    rw [he] at hfdisc
    exact hnbfresh hfdisc
  have hsdisc := inv_s_disc hinv
  have hnbs : nb ≠ s := by
    intro he
    rw [he] at hnbfresh
    exact hnbfresh hsdisc.1
  have hlvst : ∀ x : Cell, InBounds b x → x ≠ nb →
      lvl b (levels.set (b.index_from_cell nb).toNat (f.level + 1)) x =
        lvl b levels x :=
    fun x hx hne => lvl_set_other hnbin hx hne _
  have hlvnb : lvl b (levels.set (b.index_from_cell nb).toNat (f.level + 1)) nb =
      f.level + 1 := lvl_set_self hnbin hinv.hlevlen _
  have hdst : ∀ x : Cell, discovered b levels x → x ≠ nb ∧
      discovered b (levels.set (b.index_from_cell nb).toNat (f.level + 1)) x ∧
      lvl b (levels.set (b.index_from_cell nb).toNat (f.level + 1)) x =
        lvl b levels x := by
    intro x hx
    have hne : x ≠ nb := by
      intro he
      rw [he] at hx
      exact hnbfresh hx
    exact ⟨hne, ⟨hx.1, by rw [hlvst x hx.1 hne]; exact hx.2⟩, hlvst x hx.1 hne⟩
  have hdst2 : ∀ x : Cell,
      discovered b (levels.set (b.index_from_cell nb).toNat (f.level + 1)) x →
      x ≠ nb → discovered b levels x := by
    intro x hx hne
    refine ⟨hx.1, ?_⟩
    rw [← hlvst x hx.1 hne]
    exact hx.2
  have hpar2eq : ∀ x : Cell, x ≠ nb →
      (if x = nb then
        some (f.cell, kDirections.getD (nd - 1) Direction.Right) else par x) =
        par x := by
    intro x hne
    rw [if_neg hne]
  have hbelowfacts : ∀ fr ∈ rest, fr.cell ≠ nb ∧ fr.cell ≠ f.cell ∧
      discovered b levels fr.cell := by
    intro fr hfr
    obtain ⟨g1, g2, g3, g4⟩ := stacks_frames rest Ds2 (some f.cell) hrest fr hfr
    have hfrdisc : discovered b levels fr.cell := ⟨g1, by rw [g2]; omega⟩
    refine ⟨(hdst fr.cell hfrdisc).1, ?_, hfrdisc⟩
    intro he
    have h2 : lvl b levels fr.cell = lvl b levels f.cell := by rw [he]
    rw [g2, q2, q3] at h2
    simp only [stackCells, List.length_map] at h2
    omega
  have hDfacts : ∀ x ∈ D, x ≠ nb ∧ discovered b levels x := by
    intro x hx
    exact ⟨(hdst x (q7 x hx).1).1, (q7 x hx).1⟩
  have hEXCL : ∀ (j : Nat), j < 4 →
      b.is_blocked (Wall.fromDir f.cell (kDirections.getD j Direction.Right)) = false →
      lvl b levels (f.cell.step (kDirections.getD j Direction.Right)) ≠ -1 →
      f.cell.step (kDirections.getD j Direction.Right) ∈ D ∨
      f.cell.step (kDirections.getD j Direction.Right) ∈ stackCells rest := by
    intro j hj hbl hlv
    have hdisc : discovered b levels (f.cell.step (kDirections.getD j Direction.Right)) :=
      ⟨(unblocked_inBounds hbl).2, hlv⟩
    rcases excl_top hinv hdisc (kDirections_getD_mem hj) hbl rfl with h | h
    · exact Or.inl h
    · simp only [stackCells, List.map_cons, List.mem_cons] at h
      rcases h with h | h
      · exact absurd h (Cell.step_ne f.cell (kDirections.getD j Direction.Right))
      · exact Or.inr h
  refine ⟨hinv.hrows, hinv.hcols, by
      rw [List.length_set]
      exact hinv.hlevlen, by
      simpa using hinv.hlenDs, by simp, ?_, ?_, ?_, ?_, ?_, ?_, ?_, ?_, ?_⟩
  · -- hstacks
    rw [StacksOK_cons]
    refine ⟨?_, ?_, ?_⟩
    · -- frameFacts of the new child frame
      refine ⟨hnbin, hlvnb, ?_, Nat.zero_le 4, le_refl _, ?_, ?_, ?_, ?_, ?_, ?_,
        Or.inl rfl, ?_⟩
      · show f.level + 1 = ((stackCells ({ f with dir_index := nd, min_level := m } ::
          rest)).length : Int) + 1
        simp only [stackCells, List.map_cons, List.length_cons, List.length_map]
        rw [q3]
        simp only [stackCells, List.length_map]
        push_cast
        ring
      · show (decide (nb = t) = true) ↔ (nb = t ∨ t ∈ (∅ : Set Cell))
        simp
      · intro x hx
        exact hx.elim
      · intro x hx
        exact hx.elim
      · intro x hx
        exact hx.elim
      · intro x hx
        exact hx.elim
      · intro j hj
        exact absurd hj (Nat.not_lt_zero j)
      · intro x hx2 d hpx
        have hpx2 : (if x = nb then
            some (f.cell, kDirections.getD (nd - 1) Direction.Right) else par x) =
            some (nb, d) := hpx
        by_cases hxnb : x = nb
        · rw [if_pos hxnb] at hpx2
          injection hpx2 with hpx3
          have : f.cell = nb := congrArg Prod.fst hpx3
          exact absurd this hfne
        · rw [if_neg hxnb] at hpx2
          have hxdisc : discovered b levels x := hdst2 x hx2 hxnb
          by_cases hxs : x = s
          · rw [hxs, hinv.hpars] at hpx2
            cases hpx2
          · obtain ⟨y, d2, hpxy, hydisc, _⟩ := hinv.hpar x hxdisc hxs
            rw [hpxy] at hpx2
            injection hpx2 with hpx3
            have hynb : y = nb := congrArg Prod.fst hpx3
            rw [hynb] at hydisc
            exact absurd hydisc hnbfresh
    · -- chain link from the new top to the former top
      refine ⟨(by show 1 ≤ nd; omega : 1 ≤ _), c6, c7.symm, ?_⟩
      show (if nb = nb then
          some (f.cell, kDirections.getD (nd - 1) Direction.Right) else par nb) =
        some (({ f with dir_index := nd, min_level := m } : StackFrame).cell,
          kDirections.getD
            (({ f with dir_index := nd, min_level := m } : StackFrame).dir_index - 1)
            Direction.Right)
      rw [if_pos rfl]
    · -- StacksOK of the updated former top and the untouched rest
      rw [StacksOK_cons]
      refine ⟨?_, ?_, ?_⟩
      · -- frameFacts of the updated former top
        refine ⟨q1, ?_, q3, c4, le_trans c1 q5, q6, ?_, ?_, q9, ?_, ?_, ?_, ?_⟩
        · rw [hlvst f.cell q1 hfne]
          exact q2
        · intro x hx
          obtain ⟨hxne, hxdisc⟩ := hDfacts x hx
          obtain ⟨_, hd2, hl2⟩ := hdst x hxdisc
          refine ⟨hd2, ?_⟩
          rw [hl2]
          exact (q7 x hx).2
        · intro x hx
          obtain ⟨y, d, hpx, hcase⟩ := q8 x hx
          obtain ⟨hxne, _⟩ := hDfacts x hx
          refine ⟨y, d, ?_, hcase⟩
          show (if x = nb then
            some (f.cell, kDirections.getD (nd - 1) Direction.Right) else par x) =
            some (y, d)
          rw [if_neg hxne]
          exact hpx
        · intro x hx d hd hbl
          obtain ⟨hxne, hxdisc⟩ := hDfacts x hx
          rcases q9 x hx d hd hbl with hin | hin | hin
          all_goals rcases q10 x hx d hd hbl with hmm | hmm | hmm
          all_goals try (exact Or.inl hmm)
          all_goals
            (have hstepdisc : discovered b levels (x.step d) := by
              first
              | exact (hDfacts _ hin).2
              | (rw [hin]; exact hfdisc)
              | (simp only [stackCells, List.mem_map] at hin
                 obtain ⟨fr2, hfr2, hfr2c⟩ := hin
                 rw [← hfr2c]
                 exact (hbelowfacts fr2 hfr2).2.2))
          all_goals obtain ⟨hsne, hsd2, hsl2⟩ := hdst (x.step d) hstepdisc
          all_goals rw [hsl2]
          all_goals obtain ⟨_, _, hxl2⟩ := hdst x hxdisc
          · exact Or.inr (Or.inl (le_trans c1 hmm))
          · rw [hxl2]
            exact Or.inr (Or.inr hmm)
          · exact Or.inr (Or.inl (le_trans c1 hmm))
          · rw [hxl2]
            exact Or.inr (Or.inr hmm)
          · exact Or.inr (Or.inl (le_trans c1 hmm))
          · rw [hxl2]
            exact Or.inr (Or.inr hmm)
        · -- scanned directions of the updated former top
          intro j hj hbl
          have hjnd : j < nd := hj
          have hj4 : j < 4 := by omega
          by_cases hjold : j < f.dir_index
          · obtain ⟨h1, h2⟩ := q11 j hjold hbl
            have hstepdisc : discovered b levels
                (f.cell.step (kDirections.getD j Direction.Right)) := by
              rcases h1 with h | h | h
              · exact (hDfacts _ h).2
              · simp only [stackCells, List.mem_map] at h
                obtain ⟨fr2, hfr2, hfr2c⟩ := h
                rw [← hfr2c]
                exact (hbelowfacts fr2 hfr2).2.2
              · cases h
            obtain ⟨hsne, hsd2, hsl2⟩ := hdst _ hstepdisc
            constructor
            · rcases h1 with h | h | h
              · exact Or.inl h
              · exact Or.inr (Or.inl h)
              · cases h
            · rw [hsl2]
              rcases h2 with h | h
              · exact Or.inl (le_trans c1 h)
              · exact Or.inr h
          · by_cases hjnew : j < nd - 1
            · have hss := c5 j (by omega) hjnew
              unfold scanStep at hss
              rcases hss with hbl2 | ⟨hbl2, hcase⟩
              · rw [hbl] at hbl2
                cases hbl2
              · have hlvne : lvl b levels
                    (f.cell.step (kDirections.getD j Direction.Right)) ≠ -1 := by
                  rcases hcase with h | h
                  · rw [h]
                    omega
                  · exact h.1
                have hstepdisc : discovered b levels
                    (f.cell.step (kDirections.getD j Direction.Right)) :=
                  ⟨(unblocked_inBounds hbl).2, hlvne⟩
                obtain ⟨hsne, hsd2, hsl2⟩ := hdst _ hstepdisc
                constructor
                · rcases hEXCL j hj4 hbl hlvne with h | h
                  · exact Or.inl h
                  · exact Or.inr (Or.inl h)
                · rw [hsl2]
                  rcases hcase with h | h
                  · exact Or.inr h
                  · exact Or.inl h.2
            · have hjeq : j = nd - 1 := by omega
              subst hjeq
              constructor
              · right
                right
                show some (f.cell.step (kDirections.getD (nd - 1) Direction.Right)) =
                  some nb
                rw [← c7]
              · left
                show m ≤ lvl b (levels.set (b.index_from_cell nb).toNat (f.level + 1))
                  (f.cell.step (kDirections.getD (nd - 1) Direction.Right))
                rw [← c7, hlvnb]
                have := le_trans c1 q5
                omega
        · -- minimum witness for the updated former top
          rcases c2 with hc2 | ⟨j, hj1, hj2, hjb, hjl, hjskip, hjnn⟩
          · rcases q12 with h | ⟨y, dd, hy, hdd, hybl, hydisc, hylvl, hyskip⟩
            · left
              rw [hc2, h]
            · right
              have hydisc2 : discovered b levels y := by
                rcases hy with hyD | hyf
                · exact (hDfacts y hyD).2
                · rw [hyf]
                  exact hfdisc
              obtain ⟨hsne, hsd2, hsl2⟩ := hdst _ hydisc
              obtain ⟨hyne, hyd2, hyl2⟩ := hdst y hydisc2
              refine ⟨y, dd, hy, hdd, hybl, hsd2, ?_, ?_⟩
              · rw [hsl2, hylvl, hc2]
              · rw [hsl2, hyl2]
                exact hyskip
          · right
            have hstepdisc : discovered b levels
                (f.cell.step (kDirections.getD j Direction.Right)) :=
              ⟨(unblocked_inBounds hjb).2, hjnn⟩
            obtain ⟨hsne, hsd2, hsl2⟩ := hdst _ hstepdisc
            refine ⟨f.cell, kDirections.getD j Direction.Right, Or.inr rfl,
              kDirections_getD_mem hj2, hjb, hsd2, ?_, ?_⟩
            · rw [hsl2]
              exact hjl
            · rw [hsl2, hlvst f.cell q1 hfne, q2]
              exact hjskip
        · -- childinv of the updated former top
          intro x hx2 d hpx
          have hpx2 : (if x = nb then
              some (f.cell, kDirections.getD (nd - 1) Direction.Right) else par x) =
              some (f.cell, d) := hpx
          by_cases hxnb : x = nb
          · right
            rw [hxnb]
          · rw [if_neg hxnb] at hpx2
            have hxdisc : discovered b levels x := hdst2 x hx2 hxnb
            rcases q13 x hxdisc d hpx2 with h | h
            · exact Or.inl h
            · cases h
      · -- chain link below the updated former top
        cases rest with
        | nil =>
          exact hlink
        | cons p rest2 =>
          obtain ⟨l1, l2, l3, l4⟩ := hlink
          refine ⟨l1, l2, l3, ?_⟩
          show (if f.cell = nb then
              some (f.cell, kDirections.getD (nd - 1) Direction.Right) else
                par f.cell) =
            some (p.cell, kDirections.getD (p.dir_index - 1) Direction.Right)
          rw [if_neg hfne]
          exact l4
      · -- untouched rest of the stack
        exact StacksOK_stable_push hnbin hnbfresh rest Ds2 (some f.cell) hrest
          (fun fr hfr => ⟨(hbelowfacts fr hfr).1, (hbelowfacts fr hfr).2.1⟩)
          (fun ac hac => by
            injection hac with hac2
            rw [← hac2]
            exact hfne)
  · -- hdisc
    intro x
    constructor
    · intro hx2
      by_cases hxnb : x = nb
      · left
        simp [stackCells, hxnb]
      · have hxdisc : discovered b levels x := hdst2 x hx2 hxnb
        rcases (hinv.hdisc x).mp hxdisc with h | ⟨D3, hD3, hxD3⟩
        · left
          simp only [stackCells, List.map_cons, List.mem_cons] at h ⊢
          rcases h with h | h
          · exact Or.inr (Or.inl h)
          · exact Or.inr (Or.inr h)
        · right
          refine ⟨D3, ?_, hxD3⟩
          exact List.mem_cons_of_mem _ hD3
    · intro h
      rcases h with h | ⟨D3, hD3, hxD3⟩
      · simp only [stackCells, List.map_cons, List.mem_cons] at h
        rcases h with h | h | h
        · rw [h]
          exact ⟨hnbin, by rw [hlvnb]; omega⟩
        · rw [h]
          exact (hdst f.cell hfdisc).2.1
        · simp only [stackCells, List.mem_map] at h
          obtain ⟨fr2, hfr2, hfr2c⟩ := h
          rw [← hfr2c]
          exact (hdst fr2.cell (hbelowfacts fr2 hfr2).2.2).2.1
      · cases hD3 with
        | head => exact hxD3.elim
        | tail _ hmem =>
          exact (hdst x (inv_fin_disc hinv hmem hxD3)).2.1
  · -- hdisjoint
    intro fr hfr D3 hD3
    cases hD3 with
    | head =>
      intro hx
      exact hx.elim
    | tail _ hmem =>
      simp only [List.mem_cons] at hfr
      rcases hfr with h | h | h
      · intro hx
        rw [h] at hx
        have hx2 : nb ∈ D3 := hx
        exact hnbfresh (inv_fin_disc hinv hmem hx2)
      · intro hx
        rw [h] at hx
        have hx2 : f.cell ∈ D3 := hx
        exact hinv.hdisjoint f (List.mem_cons_self _ _) D3 hmem hx2
      · exact hinv.hdisjoint fr (List.mem_cons_of_mem _ h) D3 hmem
  · -- hlvlpos
    intro x hx2
    by_cases hxnb : x = nb
    · subst hxnb
      rw [hlvnb]
      refine ⟨by omega, ?_⟩
      constructor
      · intro h
        omega
      · intro h
        exact absurd h hnbs
    · have hxdisc : discovered b levels x := hdst2 x hx2 hxnb
      rw [hlvst x hxdisc.1 hxnb]
      exact hinv.hlvlpos x hxdisc
  · -- hpar
    intro x hx2 hxs
    by_cases hxnb : x = nb
    · refine ⟨f.cell, kDirections.getD (nd - 1) Direction.Right, ?_,
        (hdst f.cell hfdisc).2.1, kDirections_getD_mem (by omega), c6, ?_, ?_⟩
      · show (if x = nb then
            some (f.cell, kDirections.getD (nd - 1) Direction.Right) else par x) = _
        rw [if_pos hxnb]
      · rw [hxnb]
        exact c7.symm
      · rw [hxnb, hlvst f.cell q1 hfne, q2, hlvnb]
        ring
    · have hxdisc : discovered b levels x := hdst2 x hx2 hxnb
      obtain ⟨y, d, hpx, hydisc, hdmem, hybl, hystep, hylvl⟩ := hinv.hpar x hxdisc hxs
      obtain ⟨hyne, hyd2, hyl2⟩ := hdst y hydisc
      refine ⟨y, d, ?_, hyd2, hdmem, hybl, hystep, ?_⟩
      · show (if x = nb then
          some (f.cell, kDirections.getD (nd - 1) Direction.Right) else par x) =
          some (y, d)
        rw [if_neg hxnb]
        exact hpx
      · rw [hyl2, hlvst x hxdisc.1 hxnb]
        exact hylvl
  · -- hparnone
    intro x hx2
    have hxnb : x ≠ nb := by
      intro he
      rw [he] at hx2
      exact hx2 ⟨hnbin, by rw [hlvnb]; omega⟩
    show (if x = nb then
      some (f.cell, kDirections.getD (nd - 1) Direction.Right) else par x) = none
    rw [if_neg hxnb]
    exact hinv.hparnone x (fun hd => hx2 (hdst x hd).2.1)
  · -- hpars
    show (if s = nb then
      some (f.cell, kDirections.getD (nd - 1) Direction.Right) else par s) = none
    rw [if_neg (fun he => hnbs he.symm)]
    exact hinv.hpars
  · -- hparfin
    intro x hx2 y d hpx D3 hD3 hyD3
    cases hD3 with
    | head => exact hyD3.elim
    | tail _ hmem =>
      by_cases hxnb : x = nb
      · rw [hxnb] at hpx
        have hpx2 : (if nb = nb then
            some (f.cell, kDirections.getD (nd - 1) Direction.Right) else par nb) =
            some (y, d) := hpx
        rw [if_pos rfl] at hpx2
        injection hpx2 with hpx3
        have hyf : f.cell = y := congrArg Prod.fst hpx3
        rw [← hyf] at hyD3
        exact absurd hyD3 (hinv.hdisjoint f (List.mem_cons_self _ _) D3 hmem)
      · have hpx2 : (if x = nb then
            some (f.cell, kDirections.getD (nd - 1) Direction.Right) else par x) =
            some (y, d) := hpx
        rw [if_neg hxnb] at hpx2
        exact hinv.hparfin x (hdst2 x hx2 hxnb) y d hpx2 D3 hmem hyD3
  · -- hcomp
    intro D3 hD3 u hu
    cases hD3 with
    | head => exact hu.elim
    | tail _ hmem =>
      obtain ⟨y, d, hpu, hdisj3⟩ := hinv.hcomp D3 hmem u hu
      have hudisc := inv_fin_disc hinv hmem hu
      have hune : u ≠ nb := (hdst u hudisc).1
      have htree : ∀ x, inTree (fun z => if z = nb then
          some (f.cell, kDirections.getD (nd - 1) Direction.Right) else par z) u x ↔
          (x ≠ nb ∧ inTree par u x) :=
        inTree_update_iff (hinv.hparnone nb hnbfresh)
          (inv_fin_not_inTree_chain hinv hmem hu f (List.mem_cons_self _ _)) hune
      refine ⟨y, d, ?_, ?_⟩
      · show (if u = nb then
          some (f.cell, kDirections.getD (nd - 1) Direction.Right) else par u) =
          some (y, d)
        rw [if_neg hune]
        exact hpu
      rcases hdisj3 with hbr | hnt | ⟨htt, z, dd, hz, hdd, hzb, hzdisc, hznt, hzskip⟩
      · exact Or.inl hbr
      · right
        left
        intro h2
        exact hnt ((htree t).mp h2).2
      · right
        right
        have htdisc : discovered b levels t :=
          inTree_disc hinv.hparnone hudisc t htt
        have hzdisc2 : discovered b levels z :=
          inTree_disc hinv.hparnone hudisc z hz
        obtain ⟨hzne, hzd2, hzl2⟩ := hdst z hzdisc2
        obtain ⟨hsne, hsd2, hsl2⟩ := hdst _ hzdisc
        refine ⟨(htree t).mpr ⟨(hdst t htdisc).1, htt⟩, z, dd,
          (htree z).mpr ⟨hzne, hz⟩, hdd, hzb, hsd2, ?_, ?_⟩
        · intro h2
          exact hznt ((htree _).mp h2).2
        · rw [hsl2, hzl2]
          exact hzskip

/-- When a frame is popped (its scan returned `none`), every unblocked
direction from its cell leads to a cell that contributed to the minimum or
was the parent skip, and that lies in the frame's finished set or on the
chain. -/
theorem pop_alldirs {b : Board} {s t : Cell} {levels : List Int} {bridges : List Wall}
    {f : StackFrame} {rest : List StackFrame} {D : Set Cell} {Ds2 : List (Set Cell)}
    {par : Cell → Option (Cell × Direction)}
    (hinv : LoopInv b s t levels bridges (f :: rest) (D :: Ds2) par)
    {m : Int}
    (hscan : b.bridgeScan levels f.cell f.level 5 f.dir_index f.min_level = (m, none)) :
    ∀ d ∈ kDirections, b.is_blocked (Wall.fromDir f.cell d) = false →
      (m ≤ lvl b levels (f.cell.step d) ∨ lvl b levels (f.cell.step d) = f.level - 1) ∧
      (f.cell.step d ∈ D ∨ f.cell.step d ∈ stackCells rest) := by
  obtain ⟨hff, hlink, hrest⟩ := StacksOK_cons.mp hinv.hstacks
  obtain ⟨q1, q2, q3, q4, q5, q6, q7, q8, q9, q10, q11, q12, q13⟩ := hff
  obtain ⟨c1, c2, c3⟩ :=
    bridgeScan_none_spec b levels f.cell f.level 5 f.dir_index f.min_level m
      (by omega) q4 hscan
  have hflevel1 : 1 ≤ f.level := by
    rw [q3]
    omega
  intro d hd hbl
  obtain ⟨j, hj4, hjd⟩ := kDirections_index_of d
  rw [← hjd]
  rw [← hjd] at hbl
  have hmem : lvl b levels (f.cell.step (kDirections.getD j Direction.Right)) ≠ -1 →
      f.cell.step (kDirections.getD j Direction.Right) ∈ D ∨
      f.cell.step (kDirections.getD j Direction.Right) ∈ stackCells rest := by
    intro hlv
    have hdisc : discovered b levels
        (f.cell.step (kDirections.getD j Direction.Right)) :=
      ⟨(unblocked_inBounds hbl).2, hlv⟩
    rcases excl_top hinv hdisc (kDirections_getD_mem hj4) hbl rfl with h | h
    · exact Or.inl h
    · simp only [stackCells, List.map_cons, List.mem_cons] at h
      rcases h with h | h
      · exact absurd h (Cell.step_ne f.cell (kDirections.getD j Direction.Right))
      · exact Or.inr h
  by_cases hjold : j < f.dir_index
  · obtain ⟨h1, h2⟩ := q11 j hjold hbl
    constructor
    · rcases h2 with h | h
      · exact Or.inl (le_trans c1 h)
      · exact Or.inr h
    · rcases h1 with h | h | h
      · exact Or.inl h
      · right
        simpa [stackCells] using h
      · cases h
  · have hss := c3 j (by omega) hj4
    unfold scanStep at hss
    rcases hss with hbl2 | ⟨hbl2, hcase⟩
    · rw [hbl] at hbl2
      cases hbl2
    · have hlvne : lvl b levels
          (f.cell.step (kDirections.getD j Direction.Right)) ≠ -1 := by
        rcases hcase with h | h
        · rw [h]
          omega
        · exact h.1
      constructor
      · rcases hcase with h | h
        · exact Or.inr h
        · exact Or.inl h.2
      · exact hmem hlvne

/-- The ghost subtree of the top frame's cell is exactly that cell plus its
finished set. -/
theorem pop_descident {b : Board} {s t : Cell} {levels : List Int} {bridges : List Wall}
    {f : StackFrame} {rest : List StackFrame} {D : Set Cell} {Ds2 : List (Set Cell)}
    {par : Cell → Option (Cell × Direction)}
    (hinv : LoopInv b s t levels bridges (f :: rest) (D :: Ds2) par) :
    ∀ x, inTree par f.cell x ↔ (x = f.cell ∨ x ∈ D) := by
  obtain ⟨hff, hlink, hrest⟩ := StacksOK_cons.mp hinv.hstacks
  obtain ⟨q1, q2, q3, q4, q5, q6, q7, q8, q9, q10, q11, q12, q13⟩ := hff
  have hflevel1 : 1 ≤ f.level := by
    rw [q3]
    omega
  intro x
  constructor
  · intro hx
    induction hx using Relation.ReflTransGen.head_induction_on with
    | refl => exact Or.inl rfl
    | head hstep hrest2 ih =>
      rename_i a c
      obtain ⟨d, hpa⟩ := hstep
      have hadisc : discovered b levels a := by
        by_contra hnd
        rw [hinv.hparnone a hnd] at hpa
        cases hpa
      rcases ih with hc | hc
      · rw [hc] at hpa
        rcases q13 a hadisc d hpa with h | h
        · exact Or.inr h
        · cases h
      · exact Or.inr (hinv.hparfin a hadisc _ _ hpa D (List.mem_cons_self _ _) hc)
  · intro hx
    rcases hx with hx | hx
    · rw [hx]
      exact Relation.ReflTransGen.refl
    · have hfl0 : (0 : Int) ≤ f.level := by omega
      refine inTree_of_mem_D hfl0 q7 ?_ x hx
      intro z hz
      obtain ⟨y, d, hpz, hcase⟩ := q8 z hz
      have hzdisc : discovered b levels z := (q7 z hz).1
      have hzlvl : f.level < lvl b levels z := (q7 z hz).2
      have hzs : z ≠ s := by
        intro he
        have := (inv_s_disc hinv).2
        rw [he] at hzlvl
        omega
      obtain ⟨y2, d2, hpz2, hy2disc, _, _, _, hy2lvl⟩ := hinv.hpar z hzdisc hzs
      have he : some (y2, d2) = some (y, d) := hpz2.symm.trans hpz
      injection he with he2
      have hyy : y2 = y := congrArg Prod.fst he2
      rw [hyy] at hy2lvl
      exact ⟨y, d, hpz, hcase, hy2lvl⟩

/-- Soundness of the bridge insertion: when the popped frame has seen the
target and its lowlink stays above the parent level, the tree wall to the
parent disconnects the start from the target. -/
theorem insert_separates {b : Board} {s t : Cell} {levels : List Int}
    {bridges : List Wall} {f p : StackFrame} {rest2 : List StackFrame}
    {D Dp : Set Cell} {Ds3 : List (Set Cell)}
    {par : Cell → Option (Cell × Direction)}
    (hinv : LoopInv b s t levels bridges (f :: p :: rest2) (D :: Dp :: Ds3) par)
    (hblen : b.m_board.length = (b.m_columns * b.m_rows).toNat)
    {m : Int}
    (hscan : b.bridgeScan levels f.cell f.level 5 f.dir_index f.min_level = (m, none))
    (htf : f.target_found = true) (hgt : p.level < m) :
    b.is_blocked (Wall.fromDir p.cell
        (kDirections.getD (p.dir_index - 1) Direction.Right)) = false ∧
    ¬ reaches (b.hypPlace (Wall.fromDir p.cell
        (kDirections.getD (p.dir_index - 1) Direction.Right))) s t := by
  obtain ⟨hff, hlink, hrest⟩ := StacksOK_cons.mp hinv.hstacks
  obtain ⟨q1, q2, q3, q4, q5, q6, q7, q8, q9, q10, q11, q12, q13⟩ := hff
  obtain ⟨l1, l2, l3, l4⟩ := hlink
  obtain ⟨rff, rlink, hrest2⟩ := StacksOK_cons.mp hrest
  obtain ⟨c1, _, _⟩ :=
    bridgeScan_none_spec b levels f.cell f.level 5 f.dir_index f.min_level m
      (by omega) q4 hscan
  have halld := pop_alldirs hinv hscan
  have hplevel1 : 1 ≤ p.level := by
    rw [rff.2.2.1]
    omega
  have hfp : f.level = p.level + 1 := by
    rw [q3, rff.2.2.1]
    simp only [stackCells, List.map_cons, List.length_cons, List.length_map,
      List.length_map]
    push_cast
    ring
  refine ⟨l2, ?_⟩
  intro hreach
  have hsdisc := inv_s_disc hinv
  -- the separated set: the popped frame's cell together with its finished set
  have hsS : s ∉ {x : Cell | x = f.cell ∨ x ∈ D} := by
    intro hs
    rcases hs with hs | hs
    · have h2 := hsdisc.2
      rw [hs, q2] at h2
      omega
    · have h2 := (q7 s hs).2
      rw [hsdisc.2] at h2
      omega
  have htS : t ∈ {x : Cell | x = f.cell ∨ x ∈ D} := by
    rcases q6.mp htf with h | h
    · exact Or.inl h.symm
    · exact Or.inr h
  obtain ⟨x, z, hadj, hxS, hzS⟩ := reaches_crossing hsS htS hreach
  rw [cellAdj_hypPlace_iff hblen l2] at hadj
  obtain ⟨d, hd, hbl, hnw, hstep⟩ := hadj
  have hzedge : b.is_blocked (Wall.fromDir z (oppositeDir d)) = false := by
    rw [hstep, Wall.fromDir_step_opp]
    exact hbl
  have hzstep : z.step (oppositeDir d) = x := by
    rw [hstep, Cell.step_opp]
  have hwallz : Wall.fromDir z (oppositeDir d) = Wall.fromDir x d := by
    rw [hstep, Wall.fromDir_step_opp]
  have hrestlvl : ∀ c2 ∈ stackCells rest2, lvl b levels c2 ≤ p.level - 1 := by
    intro c2 hc2
    simp only [stackCells, List.mem_map] at hc2
    obtain ⟨fr2, hfr2, hfr2c⟩ := hc2
    obtain ⟨g1, g2, g3, g4⟩ := stacks_frames rest2 Ds3 (some p.cell) hrest2 fr2 hfr2
    rw [← hfr2c, g2, rff.2.2.1]
    simp only [stackCells, List.length_map]
    omega
  rcases hzS with hzf | hzD
  · -- crossing from the frame cell itself
    rcases (halld (oppositeDir d) (mem_kDirections _) (by rw [← hzf]; exact hzedge)).2
      with hx2 | hx2
    all_goals rw [← hzf] at hx2
    all_goals rw [hzstep] at hx2
    · exact hxS (Or.inr hx2)
    · simp only [stackCells, List.map_cons, List.mem_cons] at hx2
      rcases hx2 with hx2 | hx2
      · -- the crossing edge is the removed wall itself
        apply hnw
        rw [← hwallz]
        have hd2 : oppositeDir d =
            oppositeDir (kDirections.getD (p.dir_index - 1) Direction.Right) := by
          apply Cell.step_inj (c := f.cell)
          rw [hzf] at hzstep
          rw [hzstep, hx2]
          rw [← l3, Cell.step_opp]
        rw [hzf, hd2, ← l3, Wall.fromDir_step_opp]
      · rcases (halld (oppositeDir d) (mem_kDirections _)
            (by rw [← hzf]; exact hzedge)).1 with hm | hm
        all_goals rw [← hzf] at hm
        all_goals rw [hzstep] at hm
        · have := hrestlvl x hx2
          omega
        · have := hrestlvl x hx2
          omega
  · -- crossing from inside the finished set
    have hzdisc := (q7 z hzD).1
    have hzlvl := (q7 z hzD).2
    rcases q9 z hzD (oppositeDir d) (mem_kDirections _) hzedge with hx2 | hx2 | hx2
    all_goals rw [hzstep] at hx2
    · exact hxS (Or.inr hx2)
    · exact hxS (Or.inl hx2)
    · simp only [stackCells, List.map_cons, List.mem_cons] at hx2
      rcases q10 z hzD (oppositeDir d) (mem_kDirections _) hzedge with hm | hm | hm
      all_goals rw [hzstep] at hm
      · exact hxS (Or.inr hm)
      · -- contributed: the minimum bounds the crossing level
        rcases hx2 with hx2 | hx2
        · rw [hx2, rff.2.1] at hm
          have := le_trans c1 q5
          omega
        · have := hrestlvl x hx2
          have hm2 := le_trans c1 hm
          omega
      · -- skipped as parent: impossible this deep
        rcases hx2 with hx2 | hx2
        · rw [hx2, rff.2.1] at hm
          omega
        · have := hrestlvl x hx2
          rw [hm] at this
          omega

/-- Popping a fully scanned frame into its parent preserves the loop
invariant (with the frame's subtree merged into the parent's finished set
and the bridge possibly recorded). -/
theorem LoopInv_pop {b : Board} {s t : Cell} {levels : List Int}
    {bridges : List Wall} {f p : StackFrame} {rest2 : List StackFrame}
    {D Dp : Set Cell} {Ds3 : List (Set Cell)}
    {par : Cell → Option (Cell × Direction)}
    (hinv : LoopInv b s t levels bridges (f :: p :: rest2) (D :: Dp :: Ds3) par)
    {m : Int}
    (hscan : b.bridgeScan levels f.cell f.level 5 f.dir_index f.min_level = (m, none)) :
    LoopInv b s t levels
      (if f.target_found && decide (m > p.level) then
        (if bridges.contains (Wall.fromDir p.cell
            (kDirections.getD (p.dir_index - 1) Direction.Right)) then bridges
         else Wall.fromDir p.cell
            (kDirections.getD (p.dir_index - 1) Direction.Right) :: bridges)
      else bridges)
      ({ p with
          target_found := p.target_found || f.target_found
          min_level := min p.min_level m } :: rest2)
      ((Dp ∪ D ∪ {f.cell}) :: Ds3) par := by
  obtain ⟨hff, hlink, hrest⟩ := StacksOK_cons.mp hinv.hstacks
  obtain ⟨q1, q2, q3, q4, q5, q6, q7, q8, q9, q10, q11, q12, q13⟩ := hff
  obtain ⟨l1, l2, l3, l4⟩ := hlink
  obtain ⟨rest3, hrest3⟩ : ∃ r3, r3 = p :: rest2 := ⟨p :: rest2, rfl⟩
  obtain ⟨rff, rlink, hrest2⟩ := StacksOK_cons.mp hrest
  obtain ⟨r1, r2, r3, r4, r5, r6, r7, r8, r9, r10, r11, r12, r13⟩ := rff
  obtain ⟨c1, c2, c3⟩ :=
    bridgeScan_none_spec b levels f.cell f.level 5 f.dir_index f.min_level m
      (by omega) q4 hscan
  have halld := pop_alldirs hinv hscan
  have hdescid := pop_descident hinv
  have hplevel1 : 1 ≤ p.level := by
    rw [r3]
    omega
  have hfp : f.level = p.level + 1 := by
    rw [q3, r3]
    simp only [stackCells, List.map_cons, List.length_cons, List.length_map]
    push_cast
    ring
  have hfdisc : discovered b levels f.cell := ⟨q1, by rw [q2]; omega⟩
  have hfDp : f.cell ∉ Dp :=
    hinv.hdisjoint f (List.mem_cons_self _ _) Dp (by simp)
  have hfD : f.cell ∉ D :=
    hinv.hdisjoint f (List.mem_cons_self _ _) D (by simp)
  have hfnp : f.cell ≠ p.cell := by
    intro he
    have h2 : lvl b levels f.cell = lvl b levels p.cell := by rw [he]
    rw [q2, r2, hfp] at h2
    omega
  have hrestlvl : ∀ c2 ∈ stackCells rest2, lvl b levels c2 ≤ p.level - 1 := by
    intro c2 hc2
    simp only [stackCells, List.mem_map] at hc2
    obtain ⟨fr2, hfr2, hfr2c⟩ := hc2
    obtain ⟨g1, g2, g3, g4⟩ := stacks_frames rest2 Ds3 (some p.cell) hrest2 fr2 hfr2
    rw [← hfr2c, g2, r3]
    simp only [stackCells, List.length_map]
    omega
  have hfrest : f.cell ∉ stackCells rest2 := by
    intro hmem
    have := hrestlvl f.cell hmem
    rw [q2, hfp] at this
    omega
  have hbsub : ∀ w ∈ bridges,
      w ∈ (if f.target_found && decide (m > p.level) then
        (if bridges.contains (Wall.fromDir p.cell
            (kDirections.getD (p.dir_index - 1) Direction.Right)) then bridges
         else Wall.fromDir p.cell
            (kDirections.getD (p.dir_index - 1) Direction.Right) :: bridges)
      else bridges) := by
    intro w hw
    split
    · split
      · exact hw
      · exact List.mem_cons_of_mem _ hw
    · exact hw
  have hDlvl : ∀ x ∈ (Dp ∪ D ∪ {f.cell} : Set Cell),
      discovered b levels x ∧ p.level < lvl b levels x := by
    intro x hx
    rcases hx with hx | hx
    rcases hx with hx | hx
    · exact ⟨(r7 x hx).1, (r7 x hx).2⟩
    · refine ⟨(q7 x hx).1, ?_⟩
      have := (q7 x hx).2
      omega
    · rw [Set.mem_singleton_iff] at hx
      rw [hx]
      refine ⟨hfdisc, ?_⟩
      rw [q2, hfp]
      omega
  refine ⟨hinv.hrows, hinv.hcols, hinv.hlevlen, by simpa using hinv.hlenDs, by simp,
    ?_, ?_, ?_, hinv.hlvlpos, hinv.hpar, hinv.hparnone, hinv.hpars, ?_, ?_⟩
  · -- hstacks
    rw [StacksOK_cons]
    refine ⟨?_, ?_, ?_⟩
    · -- frameFacts of the merged parent
      refine ⟨r1, r2, r3, r4, le_trans (min_le_left _ _) r5, ?_, hDlvl, ?_, ?_, ?_,
        ?_, ?_, ?_⟩
      · -- target interpretation
        show (p.target_found || f.target_found) = true ↔
          (p.cell = t ∨ t ∈ (Dp ∪ D ∪ {f.cell} : Set Cell))
        rw [Bool.or_eq_true, r6, q6]
        simp only [Set.mem_union, Set.mem_singleton_iff]
        constructor
        · intro h
          rcases h with (h | h) | h | h
          · exact Or.inl h
          · exact Or.inr (Or.inl (Or.inl h))
          · exact Or.inr (Or.inr h.symm)
          · exact Or.inr (Or.inl (Or.inr h))
        · intro h
          rcases h with h | (h | h) | h
          · exact Or.inl (Or.inl h)
          · exact Or.inl (Or.inr h)
          · exact Or.inr (Or.inr h)
          · exact Or.inr (Or.inl h.symm)
      · -- ghost parents stay inside the merged set
        intro x hx
        rcases hx with hx | hx
        rcases hx with hx | hx
        · obtain ⟨y, d, hp2, hc⟩ := r8 x hx
          refine ⟨y, d, hp2, ?_⟩
          rcases hc with h | h
          · exact Or.inl (Or.inl (Or.inl h))
          · exact Or.inr h
        · obtain ⟨y, d, hp2, hc⟩ := q8 x hx
          refine ⟨y, d, hp2, ?_⟩
          rcases hc with h | h
          · exact Or.inl (Or.inl (Or.inr h))
          · exact Or.inl (Or.inr (Set.mem_singleton_iff.mpr h))
        · rw [Set.mem_singleton_iff] at hx
          refine ⟨p.cell, kDirections.getD (p.dir_index - 1) Direction.Right, ?_, ?_⟩
          · rw [hx]
            exact l4
          · exact Or.inr rfl
      · -- restricted closure of the merged set
        intro x hx d hd hbl
        rcases hx with hx | hx
        rcases hx with hx | hx
        · rcases r9 x hx d hd hbl with h | h | h
          · exact Or.inl (Or.inl (Or.inl h))
          · exact Or.inr (Or.inl h)
          · exact Or.inr (Or.inr h)
        · rcases q9 x hx d hd hbl with h | h | h
          · exact Or.inl (Or.inl (Or.inr h))
          · exact Or.inl (Or.inr (Set.mem_singleton_iff.mpr h))
          · simp only [stackCells, List.map_cons, List.mem_cons] at h
            rcases h with h | h
            · exact Or.inr (Or.inl h)
            · exact Or.inr (Or.inr h)
        · rw [Set.mem_singleton_iff] at hx
          subst hx
          rcases (halld d hd hbl).2 with h | h
          · exact Or.inl (Or.inl (Or.inr h))
          · simp only [stackCells, List.map_cons, List.mem_cons] at h
            rcases h with h | h
            · exact Or.inr (Or.inl h)
            · exact Or.inr (Or.inr h)
      · -- lowlink bound for the merged set
        intro x hx d hd hbl
        rcases hx with hx | hx
        rcases hx with hx | hx
        · rcases r10 x hx d hd hbl with h | h | h
          · exact Or.inl (Or.inl (Or.inl h))
          · exact Or.inr (Or.inl (le_trans (min_le_left _ _) h))
          · exact Or.inr (Or.inr h)
        · rcases q10 x hx d hd hbl with h | h | h
          · exact Or.inl (Or.inl (Or.inr h))
          · exact Or.inr (Or.inl (le_trans (le_trans (min_le_right _ _) c1) h))
          · exact Or.inr (Or.inr h)
        · rw [Set.mem_singleton_iff] at hx
          subst hx
          rcases (halld d hd hbl).1 with h | h
          · exact Or.inr (Or.inl (le_trans (min_le_right _ _) h))
          · right
            right
            rw [q2]
            exact h
      · -- scanned directions of the merged parent
        intro j hj hbl
        obtain ⟨h1, h2⟩ := r11 j hj hbl
        constructor
        · rcases h1 with h | h | h
          · exact Or.inl (Or.inl (Or.inl h))
          · exact Or.inr (Or.inl h)
          · injection h with h2b
            exact Or.inl (Or.inr (Set.mem_singleton_iff.mpr h2b))
        · rcases h2 with h | h
          · exact Or.inl (le_trans (min_le_left _ _) h)
          · exact Or.inr h
      · -- minimum witness for the merged parent
        rcases le_total p.min_level m with hpm | hpm
        · rw [min_eq_left hpm]
          rcases r12 with h | ⟨y, dd, hy, hdd, hybl, hydisc, hylvl, hyskip⟩
          · exact Or.inl h
          · right
            refine ⟨y, dd, ?_, hdd, hybl, hydisc, hylvl, hyskip⟩
            rcases hy with h | h
            · exact Or.inl (Or.inl (Or.inl h))
            · exact Or.inr h
        · rw [min_eq_right hpm]
          rcases c2 with hc2 | ⟨j, hj1, hj2, hjb, hjl, hjskip, hjnn⟩
          · rcases q12 with h | ⟨y, dd, hy, hdd, hybl, hydisc, hylvl, hyskip⟩
            · exfalso
              rw [hc2, h, hfp] at hpm
              omega
            · right
              refine ⟨y, dd, ?_, hdd, hybl, hydisc, ?_, hyskip⟩
              · rcases hy with h | h
                · exact Or.inl (Or.inl (Or.inr h))
                · exact Or.inl (Or.inr (Set.mem_singleton_iff.mpr h))
              · rw [hylvl, hc2]
          · right
            refine ⟨f.cell, kDirections.getD j Direction.Right,
              Or.inl (Or.inr rfl), kDirections_getD_mem hj2, hjb,
              ⟨(unblocked_inBounds hjb).2, hjnn⟩, hjl, ?_⟩
            rw [q2]
            exact hjskip
      · -- children of the merged parent
        intro x hx d hp2
        rcases r13 x hx d hp2 with h | h
        · exact Or.inl (Or.inl (Or.inl h))
        · injection h with h2b
          exact Or.inl (Or.inr (Set.mem_singleton_iff.mpr h2b))
    · -- chain link below the merged parent
      cases rest2 with
      | nil => exact rlink
      | cons q2f rest3b => exact rlink
    · -- the untouched deeper stack
      exact hrest2
  · -- hdisc
    intro x
    rw [hinv.hdisc x]
    simp only [stackCells, List.map_cons, List.mem_cons, List.mem_map,
      Set.mem_union, Set.mem_singleton_iff]
    constructor
    · intro h
      rcases h with (h | h | h) | ⟨D3, hD3, hxD3⟩
      · exact Or.inr ⟨Dp ∪ D ∪ {f.cell}, Or.inl rfl, Or.inr h⟩
      · exact Or.inl (Or.inl h)
      · exact Or.inl (Or.inr h)
      · rcases hD3 with hh | hh
        · exact Or.inr ⟨Dp ∪ D ∪ {f.cell}, Or.inl rfl,
            Or.inl (Or.inr (by rw [← hh]; exact hxD3))⟩
        · rcases hh with hh | hh
          · exact Or.inr ⟨Dp ∪ D ∪ {f.cell}, Or.inl rfl,
              Or.inl (Or.inl (by rw [← hh]; exact hxD3))⟩
          · exact Or.inr ⟨D3, Or.inr hh, hxD3⟩
    · intro h
      rcases h with (h | h) | ⟨D3, hD3, hxD3⟩
      · exact Or.inl (Or.inr (Or.inl h))
      · exact Or.inl (Or.inr (Or.inr h))
      · rcases hD3 with hh | hh
        · rw [hh] at hxD3
          rcases hxD3 with hx2 | hx2
          rcases hx2 with hx2 | hx2
          · exact Or.inr ⟨Dp, Or.inr (Or.inl rfl), hx2⟩
          · exact Or.inr ⟨D, Or.inl rfl, hx2⟩
          · rw [Set.mem_singleton_iff] at hx2
            exact Or.inl (Or.inl hx2)
        · exact Or.inr ⟨D3, Or.inr (Or.inr hh), hxD3⟩
  · -- hdisjoint
    intro fr hfr D3 hD3
    simp only [List.mem_cons] at hfr hD3
    rcases hD3 with hh | hh
    · rcases hfr with h | h
      · intro hx
        rw [hh] at hx
        rw [h] at hx
        rcases hx with hx2 | hx2
        rcases hx2 with hx2 | hx2
        · exact hinv.hdisjoint p (by simp) Dp (by simp) hx2
        · exact hinv.hdisjoint p (by simp) D (by simp) hx2
        · rw [Set.mem_singleton_iff] at hx2
          exact hfnp hx2.symm
      · intro hx
        rw [hh] at hx
        rcases hx with hx2 | hx2
        rcases hx2 with hx2 | hx2
        · exact hinv.hdisjoint fr (by simp [h]) Dp (by simp) hx2
        · exact hinv.hdisjoint fr (by simp [h]) D (by simp) hx2
        · rw [Set.mem_singleton_iff] at hx2
          apply hfrest
          rw [← hx2]
          simp only [stackCells, List.mem_map]
          exact ⟨fr, h, rfl⟩
    · rcases hfr with h | h
      · rw [h]
        exact hinv.hdisjoint p (by simp) D3 (by simp [hh])
      · exact hinv.hdisjoint fr (by simp [h]) D3 (by simp [hh])
  · -- hparfin
    intro x hx y d hpx D3 hD3 hyD3
    simp only [List.mem_cons] at hD3
    rcases hD3 with hh | hh
    · rw [hh] at hyD3 ⊢
      rcases hyD3 with hy2 | hy2
      rcases hy2 with hy2 | hy2
      · exact Or.inl (Or.inl (hinv.hparfin x hx y d hpx Dp (by simp) hy2))
      · exact Or.inl (Or.inr (hinv.hparfin x hx y d hpx D (by simp) hy2))
      · rw [Set.mem_singleton_iff] at hy2
        rw [hy2] at hpx
        rcases q13 x hx d hpx with h | h
        · exact Or.inl (Or.inr h)
        · cases h
    · exact hinv.hparfin x hx y d hpx D3 (by simp [hh]) hyD3
  · -- hcomp
    intro D3 hD3 u hu
    simp only [List.mem_cons] at hD3
    rcases hD3 with hh | hh
    · rw [hh] at hu
      rcases hu with hu2 | hu2
      rcases hu2 with hu2 | hu2
      · obtain ⟨y, d, hpu, hc⟩ := hinv.hcomp Dp (by simp) u hu2
        refine ⟨y, d, hpu, ?_⟩
        rcases hc with h | h
        · exact Or.inl (hbsub _ h)
        · exact Or.inr h
      · obtain ⟨y, d, hpu, hc⟩ := hinv.hcomp D (by simp) u hu2
        refine ⟨y, d, hpu, ?_⟩
        rcases hc with h | h
        · exact Or.inl (hbsub _ h)
        · exact Or.inr h
      · -- the newly finished frame cell
        rw [Set.mem_singleton_iff] at hu2
        subst hu2
        refine ⟨p.cell, kDirections.getD (p.dir_index - 1) Direction.Right, l4, ?_⟩
        by_cases hcond : (f.target_found && decide (m > p.level)) = true
        · left
          rw [if_pos hcond]
          split
          · rename_i hcont
            simpa using hcont
          · exact List.mem_cons_self _ _
        · rw [Bool.and_eq_true, decide_eq_true_eq] at hcond
          by_cases htf : f.target_found = true
          · have hm : ¬ (m > p.level) := fun hgt => hcond ⟨htf, hgt⟩
            right
            right
            have htT : inTree par f.cell t := by
              rw [hdescid t]
              rcases q6.mp htf with h | h
              · exact Or.inl h.symm
              · exact Or.inr h
            have hnotin : ∀ z : Cell, lvl b levels z ≤ p.level →
                ¬ inTree par f.cell z := by
              intro z hz htree
              rw [hdescid z] at htree
              rcases htree with h | h
              · rw [h, q2, hfp] at hz
                omega
              · have := (q7 z h).2
                rw [hfp] at this
                omega
            rcases c2 with hc2 | ⟨j, hj1, hj2, hjb, hjl, hjskip, hjnn⟩
            · rcases q12 with h | ⟨y, dd, hy, hdd, hybl, hydisc, hylvl, hyskip⟩
              · exfalso
                rw [hc2, h, hfp] at hm
                omega
              · refine ⟨htT, y, dd, ?_, hdd, hybl, hydisc, ?_, hyskip⟩
                · rw [hdescid]
                  rcases hy with h2 | h2
                  · exact Or.inr h2
                  · exact Or.inl h2
                · apply hnotin
                  rw [hylvl, ← hc2]
                  omega
            · refine ⟨htT, f.cell, kDirections.getD j Direction.Right, ?_, ?_, hjb,
                ⟨(unblocked_inBounds hjb).2, hjnn⟩, ?_, ?_⟩
              · rw [hdescid]
                exact Or.inl rfl
              · exact kDirections_getD_mem hj2
              · apply hnotin
                rw [hjl]
                omega
              · rw [q2]
                exact hjskip
          · right
            left
            intro htree
            rw [hdescid t] at htree
            apply htf
            rw [q6]
            rcases htree with h | h
            · exact Or.inl h.symm
            · exact Or.inr h
    · obtain ⟨y, d, hpu, hc⟩ := hinv.hcomp D3 (by simp [hh]) u hu
      refine ⟨y, d, hpu, ?_⟩
      rcases hc with h | h
      · exact Or.inl (hbsub _ h)
      · exact Or.inr h

/-- Every discovered cell outside the ghost subtree of `u` stays connected
to the start when the tree wall above `u` is hypothetically placed. -/
theorem escape_path {b : Board} {s : Cell} {levels : List Int}
    {par : Cell → Option (Cell × Direction)}
    (hlen : b.m_board.length = (b.m_columns * b.m_rows).toNat)
    (hpar : ∀ x, discovered b levels x → x ≠ s →
      ∃ y d, par x = some (y, d) ∧ discovered b levels y ∧ d ∈ kDirections ∧
        b.is_blocked (Wall.fromDir y d) = false ∧ y.step d = x ∧
        lvl b levels y = lvl b levels x - 1)
    (hlvlpos : ∀ x, discovered b levels x →
      1 ≤ lvl b levels x ∧ (lvl b levels x = 1 ↔ x = s))
    {u yu : Cell} {du : Direction}
    (hustep : yu.step du = u)
    (hwu : b.is_blocked (Wall.fromDir yu du) = false) :
    ∀ x, discovered b levels x → ¬ inTree par u x →
      reaches (b.hypPlace (Wall.fromDir yu du)) s x := by
  suffices H : ∀ n : Nat, ∀ x, (lvl b levels x).toNat ≤ n →
      discovered b levels x → ¬ inTree par u x →
      reaches (b.hypPlace (Wall.fromDir yu du)) s x by
    intro x hx hnx
    exact H (lvl b levels x).toNat x (le_refl _) hx hnx
  intro n
  induction n with
  | zero =>
    intro x hle hx hnx
    have h1 := (hlvlpos x hx).1
    omega
  | succ n ihn =>
    intro x hle hx hnx
    by_cases hxs : x = s
    · rw [hxs]
      exact Relation.ReflTransGen.refl
    · obtain ⟨y, d, hpx, hydisc, hdk, hybl, hystep, hylvl⟩ := hpar x hx hxs
      have hny : ¬ inTree par u y := by
        intro hty
        exact hnx (Relation.ReflTransGen.head ⟨d, hpx⟩ hty)
      have hy1 := (hlvlpos y hydisc).1
      have hx1 := (hlvlpos x hx).1
      have hreach := ihn y (by omega) hydisc hny
      refine Relation.ReflTransGen.tail hreach ?_
      rw [cellAdj_hypPlace_iff hlen hwu]
      refine ⟨d, hdk, hybl, ?_, hystep.symm⟩
      intro he
      rcases Wall.fromDir_eq_cases he with ⟨hy2, hd2⟩ | ⟨hy2, hd2⟩
      · rw [hy2, hd2, hustep] at hystep
        rw [← hystep] at hnx
        exact hnx Relation.ReflTransGen.refl
      · rw [hystep] at hy2
        have huy : u = y := by
          rw [← hustep, hy2, hd2, ← hystep, Cell.step_opp]
        rw [huy] at hny
        exact hny Relation.ReflTransGen.refl

/-- Inside the ghost subtree of `u`, every cell stays connected to `u` when
the tree wall above `u` is hypothetically placed. -/
theorem subtree_path {b : Board} {s : Cell} {levels : List Int}
    {par : Cell → Option (Cell × Direction)}
    (hlen : b.m_board.length = (b.m_columns * b.m_rows).toNat)
    (hpar : ∀ x, discovered b levels x → x ≠ s →
      ∃ y d, par x = some (y, d) ∧ discovered b levels y ∧ d ∈ kDirections ∧
        b.is_blocked (Wall.fromDir y d) = false ∧ y.step d = x ∧
        lvl b levels y = lvl b levels x - 1)
    (hparnone : ∀ x, ¬ discovered b levels x → par x = none)
    (hpars : par s = none)
    {u yu : Cell} {du : Direction}
    (hu : par u = some (yu, du)) (hudisc : discovered b levels u)
    (hustep : yu.step du = u)
    (hulvl : lvl b levels yu = lvl b levels u - 1)
    (hwu : b.is_blocked (Wall.fromDir yu du) = false) :
    ∀ x, inTree par u x →
      reaches (b.hypPlace (Wall.fromDir yu du)) u x := by
  intro x htree
  induction htree using Relation.ReflTransGen.head_induction_on with
  | refl => exact Relation.ReflTransGen.refl
  | head hstep hrest ih =>
    rename_i a c
    obtain ⟨d2, hpa⟩ := hstep
    have hadisc : discovered b levels a := by
      by_contra hnd
      rw [hparnone a hnd] at hpa
      cases hpa
    have hans : a ≠ s := by
      intro he
      rw [he, hpars] at hpa
      cases hpa
    obtain ⟨y3, d3, hpa2, hy3disc, hd3k, hy3bl, hy3step, hy3lvl⟩ :=
      hpar a hadisc hans
    have he3 : some (y3, d3) = some (c, d2) := hpa2.symm.trans hpa
    injection he3 with he4
    have hy3c : y3 = c := congrArg Prod.fst he4
    have hd32 : d3 = d2 := congrArg Prod.snd he4
    rw [hy3c] at hy3disc hy3bl hy3step hy3lvl
    rw [hd32] at hd3k hy3bl hy3step
    by_cases hau : a = u
    · rw [hau]
      exact Relation.ReflTransGen.refl
    · refine Relation.ReflTransGen.tail ih ?_
      rw [cellAdj_hypPlace_iff hlen hwu]
      refine ⟨d2, hd3k, hy3bl, ?_, hy3step.symm⟩
      intro he
      rcases Wall.fromDir_eq_cases he with ⟨hc2, hd4⟩ | ⟨hc2, hd4⟩
      · rw [hc2, hd4, hustep] at hy3step
        exact hau hy3step.symm
      · rw [hy3step] at hc2
        have huc : u = c := by
          rw [← hustep, hc2, hd4, ← hy3step, Cell.step_opp]
        rw [← huc] at hy3lvl
        rw [hc2] at hulvl
        omega

/-- Popping the root frame: the loop postcondition holds at once. -/
theorem pop_terminal {b : Board} {s t : Cell} {levels : List Int}
    {bridges : List Wall} {f : StackFrame} {D : Set Cell}
    {par : Cell → Option (Cell × Direction)}
    (hinv : LoopInv b s t levels bridges [f] [D] par)
    (hblen : b.m_board.length = (b.m_columns * b.m_rows).toNat)
    (hst : reaches b s t)
    {m : Int}
    (hscan : b.bridgeScan levels f.cell f.level 5 f.dir_index f.min_level = (m, none)) :
    LoopPost b s t levels levels bridges bridges [f] par par := by
  obtain ⟨hff, hlink, hrest⟩ := StacksOK_cons.mp hinv.hstacks
  obtain ⟨q1, q2, q3, q4, q5, q6, q7, q8, q9, q10, q11, q12, q13⟩ := hff
  have hfs : f.cell = s := hlink
  have halld := pop_alldirs hinv hscan
  have hclosure : ∀ x, discovered b levels x → ∀ d ∈ kDirections,
      b.is_blocked (Wall.fromDir x d) = false → discovered b levels (x.step d) := by
    intro x hx d hd hbl
    rcases (hinv.hdisc x).mp hx with hc | ⟨D2, hD2, hxD2⟩
    · simp only [stackCells, List.map_cons, List.map_nil, List.mem_cons,
        List.not_mem_nil, or_false] at hc
      rw [hc] at hbl ⊢
      rcases (halld d hd hbl).2 with h | h
      · exact inv_fin_disc hinv (List.mem_cons_self _ _) h
      · simp [stackCells] at h
    · simp only [List.mem_cons, List.not_mem_nil, or_false] at hD2
      rw [hD2] at hxD2
      rcases q9 x hxD2 d hd hbl with h | h | h
      · exact inv_fin_disc hinv (List.mem_cons_self _ _) h
      · rw [h]
        exact ⟨q1, by rw [q2]; omega⟩
      · simp [stackCells] at h
  have htdisc : discovered b levels t := by
    refine reaches_stay (P := discovered b levels) (inv_s_disc hinv).1 ?_ hst
    intro x y hx hadj
    obtain ⟨d, hd, hbl, hstep⟩ := hadj
    rw [hstep]
    exact hclosure x hx d hd hbl
  refine ⟨?_, rfl, ?_, ?_, hinv.hparnone, ?_, hclosure, hinv.hpar,
    hinv.hlvlpos, ?_, ?_⟩
  · intro w hw
    exact hw
  · intro x _
    rfl
  · intro x _
    rfl
  · intro x hxE hx
    exact absurd hxE hx
  · intro w hw
    exact Or.inl hw
  · intro u hudisc hus
    have huf : u ≠ f.cell := by
      rw [hfs]
      exact hus
    have huD : u ∈ D := by
      rcases (hinv.hdisc u).mp hudisc with hc | ⟨D2, hD2, hxD2⟩
      · simp only [stackCells, List.map_cons, List.map_nil, List.mem_cons,
          List.not_mem_nil, or_false] at hc
        exact absurd hc huf
      · simp only [List.mem_cons, List.not_mem_nil, or_false] at hD2
        rw [hD2] at hxD2
        exact hxD2
    obtain ⟨y, d, hpu, cert⟩ :=
      hinv.hcomp D (List.mem_cons_self _ _) u huD
    obtain ⟨y2, d2, hpu2, hy2disc, hd2k, hy2bl, hy2step, hy2lvl⟩ :=
      hinv.hpar u hudisc hus
    have he3 : some (y2, d2) = some (y, d) := hpu2.symm.trans hpu
    injection he3 with he4
    have hyy : y2 = y := congrArg Prod.fst he4
    have hdd : d2 = d := congrArg Prod.snd he4
    rw [hyy] at hy2disc hy2bl hy2step hy2lvl
    rw [hdd] at hd2k hy2bl hy2step
    refine ⟨y, d, hpu, ?_⟩
    rcases cert with hc | hc | ⟨htin, z, dd, hzin, hddk, hzbl, hzdisc2, hznin, hzlvl⟩
    · exact Or.inl hc
    · exact Or.inr (escape_path hblen hinv.hpar hinv.hlvlpos hy2step hy2bl
        t htdisc hc)
    · right
      have hzdisc : discovered b levels z :=
        inTree_disc hinv.hparnone hudisc z hzin
      have hr1 : reaches (b.hypPlace (Wall.fromDir y d)) s (z.step dd) :=
        escape_path hblen hinv.hpar hinv.hlvlpos hy2step hy2bl
          (z.step dd) hzdisc2 hznin
      have hwne : Wall.fromDir z dd ≠ Wall.fromDir y d := by
        intro he
        rcases Wall.fromDir_eq_cases he with ⟨hc2, hd4⟩ | ⟨hc2, hd4⟩
        · rw [hc2, hd4, hy2step] at hznin
          exact hznin Relation.ReflTransGen.refl
        · have huz : u = z := by
            rw [← hy2step, hc2, hd4, Cell.step_opp]
          rw [← hc2, ← huz] at hzlvl
          exact hzlvl hy2lvl
      have hedge : cellAdj (b.hypPlace (Wall.fromDir y d)) (z.step dd) z := by
        rw [cellAdj_hypPlace_iff hblen hy2bl]
        refine ⟨oppositeDir dd, mem_kDirections _, ?_, ?_, ?_⟩
        · rw [Wall.fromDir_step_opp]
          exact hzbl
        · rw [Wall.fromDir_step_opp]
          exact hwne
        · rw [Cell.step_opp]
      have hr2 : reaches (b.hypPlace (Wall.fromDir y d)) u z :=
        subtree_path hblen hinv.hpar hinv.hparnone hinv.hpars hpu hudisc
          hy2step hy2lvl hy2bl z hzin
      have hr3 : reaches (b.hypPlace (Wall.fromDir y d)) u t :=
        subtree_path hblen hinv.hpar hinv.hparnone hinv.hpars hpu hudisc
          hy2step hy2lvl hy2bl t htin
      exact Relation.ReflTransGen.trans
        (Relation.ReflTransGen.trans (Relation.ReflTransGen.tail hr1 hedge)
          (reaches_symm hr2)) hr3

/-- Composing the loop postcondition backwards through a push step. -/
theorem Post_comp_push {b : Board} {s t : Cell} {levels levelsE : List Int}
    {bridges bridgesE : List Wall} {f : StackFrame} {rest : List StackFrame}
    {D : Set Cell} {Ds2 : List (Set Cell)}
    {par parE : Cell → Option (Cell × Direction)}
    (hinv : LoopInv b s t levels bridges (f :: rest) (D :: Ds2) par)
    {m : Int} {nd : Nat} {nb : Cell}
    (hscan : b.bridgeScan levels f.cell f.level 5 f.dir_index f.min_level =
      (m, some (nd, nb)))
    (hpost : LoopPost b s t
      (levels.set (b.index_from_cell nb).toNat (f.level + 1)) levelsE
      bridges bridgesE
      ((⟨nb, f.level + 1, 0, nb = t, f.level + 1⟩ : StackFrame) ::
        { f with dir_index := nd, min_level := m } :: rest)
      (fun z => if z = nb then
        some (f.cell, kDirections.getD (nd - 1) Direction.Right) else par z) parE) :
    LoopPost b s t levels levelsE bridges bridgesE (f :: rest) par parE := by
  obtain ⟨hff, hlink, hrest⟩ := StacksOK_cons.mp hinv.hstacks
  obtain ⟨q1, q2, q3, q4, q5, q6, q7, q8, q9, q10, q11, q12, q13⟩ := hff
  obtain ⟨c1, c2, c3, c4, c5, c6, c7, c8⟩ :=
    bridgeScan_some_spec b levels f.cell f.level 5 f.dir_index f.min_level m nd nb
      (by omega) q4 hscan
  have hnbin : InBounds b nb := by
    rw [c7]
    exact (unblocked_inBounds c6).2
  have hnbfresh : ¬ discovered b levels nb := fun hd2 => hd2.2 c8
  have hflevel1 : 1 ≤ f.level := by
    rw [q3]
    omega
  have hlvlpres : ∀ x, discovered b levels x →
      lvl b (levels.set (b.index_from_cell nb).toNat (f.level + 1)) x =
        lvl b levels x := by
    intro x hx
    have hxnb : x ≠ nb := by
      intro he
      rw [he] at hx
      exact hnbfresh hx
    exact lvl_set_other hnbin hx.1 hxnb _
  have hdiscpres : ∀ x, discovered b levels x →
      discovered b (levels.set (b.index_from_cell nb).toNat (f.level + 1)) x := by
    intro x hx
    refine ⟨hx.1, ?_⟩
    rw [hlvlpres x hx]
    exact hx.2
  have hnbdisc2 : discovered b
      (levels.set (b.index_from_cell nb).toNat (f.level + 1)) nb := by
    refine ⟨hnbin, ?_⟩
    rw [lvl_set_self hnbin hinv.hlevlen]
    omega
  refine ⟨hpost.hsub, ?_, ?_, ?_, hpost.hparnoneE, ?_, hpost.hclosure,
    hpost.hparE, hpost.hlvlposE, hpost.hsound, hpost.hcompE⟩
  · rw [hpost.hlenE]
    exact List.length_set levels _ _
  · intro x hx
    rw [hpost.hstable x (hdiscpres x hx)]
    exact hlvlpres x hx
  · intro x hx
    have hxnb : x ≠ nb := by
      intro he
      rw [he] at hx
      exact hnbfresh hx
    rw [hpost.hparstable x (hdiscpres x hx)]
    show (if x = nb then
      some (f.cell, kDirections.getD (nd - 1) Direction.Right) else par x) = par x
    rw [if_neg hxnb]
  · intro x hxE hxnot
    by_cases hx2 : discovered b
        (levels.set (b.index_from_cell nb).toNat (f.level + 1)) x
    · have hxnb : x = nb := by
        by_contra hne
        apply hxnot
        refine ⟨hx2.1, ?_⟩
        rw [← lvl_set_other hnbin hx2.1 hne (f.level + 1)]
        exact hx2.2
      refine ⟨f.cell, kDirections.getD (nd - 1) Direction.Right, ?_, Or.inl ?_⟩
      · rw [hxnb]
        rw [hpost.hparstable nb hnbdisc2]
        show (if nb = nb then
          some (f.cell, kDirections.getD (nd - 1) Direction.Right)
          else par nb) = _
        rw [if_pos rfl]
      · simp [stackCells]
    · obtain ⟨y, d, hpEx, hy⟩ := hpost.hfresh x hxE hx2
      refine ⟨y, d, hpEx, ?_⟩
      rcases hy with hy | ⟨hyE, hy2⟩
      · simp only [stackCells, List.map_cons, List.mem_cons] at hy
        rcases hy with hy | hy | hy
        · right
          have hynb : y = nb := hy
          rw [hynb]
          refine ⟨⟨hnbin, ?_⟩, hnbfresh⟩
          rw [hpost.hstable nb hnbdisc2, lvl_set_self hnbin hinv.hlevlen]
          omega
        · left
          have hyf : y = f.cell := hy
          simp only [stackCells, List.map_cons, List.mem_cons]
          exact Or.inl hyf
        · left
          simp only [stackCells, List.mem_map] at hy ⊢
          obtain ⟨fr, hfr, hfrc⟩ := hy
          exact ⟨fr, List.mem_cons_of_mem _ hfr, hfrc⟩
      · right
        refine ⟨hyE, ?_⟩
        intro hc
        exact hy2 (hdiscpres y hc)

/-- Composing the loop postcondition backwards through a pop-merge step. -/
theorem Post_comp_pop {b : Board} {s t : Cell} {levels levelsE : List Int}
    {bridges bridgesE : List Wall} {f p : StackFrame} {rest2 : List StackFrame}
    {D Dp : Set Cell} {Ds3 : List (Set Cell)}
    {par parE : Cell → Option (Cell × Direction)}
    (hinv : LoopInv b s t levels bridges (f :: p :: rest2) (D :: Dp :: Ds3) par)
    (hblen : b.m_board.length = (b.m_columns * b.m_rows).toNat)
    {m : Int}
    (hscan : b.bridgeScan levels f.cell f.level 5 f.dir_index f.min_level = (m, none))
    (hpost : LoopPost b s t levels levelsE
      (if f.target_found && decide (m > p.level) then
        (if bridges.contains (Wall.fromDir p.cell
            (kDirections.getD (p.dir_index - 1) Direction.Right)) then bridges
         else Wall.fromDir p.cell
            (kDirections.getD (p.dir_index - 1) Direction.Right) :: bridges)
      else bridges) bridgesE
      ({ p with
          target_found := p.target_found || f.target_found
          min_level := min p.min_level m } :: rest2) par parE) :
    LoopPost b s t levels levelsE bridges bridgesE (f :: p :: rest2) par parE := by
  have hsubB : ∀ w ∈ bridges, w ∈
      (if f.target_found && decide (m > p.level) then
        (if bridges.contains (Wall.fromDir p.cell
            (kDirections.getD (p.dir_index - 1) Direction.Right)) then bridges
         else Wall.fromDir p.cell
            (kDirections.getD (p.dir_index - 1) Direction.Right) :: bridges)
      else bridges) := by
    intro w hw
    by_cases h1 : (f.target_found && decide (m > p.level)) = true
    · rw [if_pos h1]
      by_cases h2 : bridges.contains (Wall.fromDir p.cell
          (kDirections.getD (p.dir_index - 1) Direction.Right)) = true
      · rw [if_pos h2]
        exact hw
      · rw [if_neg h2]
        exact List.mem_cons_of_mem _ hw
    · rw [if_neg h1]
      exact hw
  refine ⟨?_, hpost.hlenE, hpost.hstable, hpost.hparstable, hpost.hparnoneE,
    ?_, hpost.hclosure, hpost.hparE, hpost.hlvlposE, ?_, hpost.hcompE⟩
  · intro w hw
    exact hpost.hsub w (hsubB w hw)
  · intro x hxE hxnot
    obtain ⟨y, d, hpEx, hy⟩ := hpost.hfresh x hxE hxnot
    refine ⟨y, d, hpEx, ?_⟩
    rcases hy with hy | hy
    · left
      simp only [stackCells, List.map_cons, List.mem_cons] at hy ⊢
      rcases hy with hy | hy
      · exact Or.inr (Or.inl hy)
      · exact Or.inr (Or.inr hy)
    · right
      exact hy
  · intro w hw
    rcases hpost.hsound w hw with hwb | hsep
    · by_cases h1 : (f.target_found && decide (m > p.level)) = true
      · rw [if_pos h1] at hwb
        by_cases h2 : bridges.contains (Wall.fromDir p.cell
            (kDirections.getD (p.dir_index - 1) Direction.Right)) = true
        · rw [if_pos h2] at hwb
          exact Or.inl hwb
        · rw [if_neg h2] at hwb
          rcases List.mem_cons.mp hwb with hwe | hwm
          · simp only [Bool.and_eq_true, decide_eq_true_eq] at h1
            have hsep2 := insert_separates hinv hblen hscan h1.1 h1.2
            rw [hwe]
            exact Or.inr hsep2
          · exact Or.inl hwm
      · rw [if_neg h1] at hwb
        exact Or.inl hwb
    · exact Or.inr hsep

/-- The DFS loop, run with enough fuel from any state satisfying the
invariant, establishes the loop postcondition. -/
theorem bridgeLoop_post {b : Board} {s t : Cell}
    (hblen : b.m_board.length = (b.m_columns * b.m_rows).toNat)
    (hst : reaches b s t) :
    ∀ (fuel : Nat) (levels : List Int) (bridges : List Wall)
      (stack : List StackFrame) (Ds : List (Set Cell))
      (par : Cell → Option (Cell × Direction)),
    LoopInv b s t levels bridges stack Ds par →
    2 * levels.count (-1) + stack.length ≤ fuel →
    ∃ parE, LoopPost b s t levels (b.bridgeLoop t fuel levels bridges stack).1
      bridges (b.bridgeLoop t fuel levels bridges stack).2 stack par parE := by
  intro fuel
  induction fuel with
  | zero =>
    intro levels bridges stack Ds par hinv hfuel
    exfalso
    cases stack with
    | nil => exact hinv.hne rfl
    | cons f rest =>
      simp only [List.length_cons] at hfuel
      omega
  | succ n ih =>
    intro levels bridges stack Ds par hinv hfuel
    cases stack with
    | nil => exact absurd rfl hinv.hne
    | cons f rest =>
    cases Ds with
    | nil =>
      exfalso
      have := hinv.hlenDs
      simp at this
    | cons D Ds2 =>
    obtain ⟨hff, hlink, hrest⟩ := StacksOK_cons.mp hinv.hstacks
    obtain ⟨m, opt, hscan⟩ : ∃ m o,
        b.bridgeScan levels f.cell f.level 5 f.dir_index f.min_level = (m, o) :=
      ⟨_, _, rfl⟩
    cases opt with
    | some pr =>
      obtain ⟨nd, nb⟩ := pr
      obtain ⟨c1, c2, c3, c4, c5, c6, c7, c8⟩ :=
        bridgeScan_some_spec b levels f.cell f.level 5 f.dir_index f.min_level m nd nb
          (by omega) hff.2.2.2.1 hscan
      have hnbin : InBounds b nb := by
        rw [c7]
        exact (unblocked_inBounds c6).2
      have hflevel1 : 1 ≤ f.level := by
        rw [hff.2.2.1]
        omega
      have heq : b.bridgeLoop t (n + 1) levels bridges (f :: rest) =
          b.bridgeLoop t n
            (levels.set (b.index_from_cell nb).toNat (f.level + 1)) bridges
            ((⟨nb, f.level + 1, 0, nb = t, f.level + 1⟩ : StackFrame) ::
              { f with dir_index := nd, min_level := m } :: rest) := by
        rw [bridgeLoop_succ n levels bridges f rest, hscan]
      rw [heq]
      have hidxlt : (b.index_from_cell nb).toNat < levels.length := by
        rw [hinv.hlevlen]
        exact index_lt hnbin
      have hgetd : levels.getD (b.index_from_cell nb).toNat 0 = -1 := by
        have h9 : levels.getD (b.index_from_cell nb).toNat (-1) = -1 := c8
        rw [List.getD_eq_getElem levels _ hidxlt] at h9 ⊢
        exact h9
      have hcount := count_set_of_ne hidxlt hgetd
        (v := f.level + 1) (by omega)
      obtain ⟨parE, hpost⟩ := ih _ _ _ _ _ (LoopInv_push hinv hscan) (by
        simp only [List.length_cons] at hfuel ⊢
        omega)
      exact ⟨parE, Post_comp_push hinv hscan hpost⟩
    | none =>
      cases rest with
      | nil =>
        cases Ds2 with
        | nil =>
          have heq : b.bridgeLoop t (n + 1) levels bridges [f] =
              (levels, bridges) := by
            rw [bridgeLoop_succ n levels bridges f [], hscan]
            exact bridgeLoop_nil n levels bridges
          rw [heq]
          exact ⟨par, pop_terminal hinv hblen hst hscan⟩
        | cons D2 Ds3 =>
          exfalso
          have := hinv.hlenDs
          simp at this
      | cons p rest2 =>
        cases Ds2 with
        | nil =>
          exfalso
          have := hinv.hlenDs
          simp at this
        | cons Dp Ds3 =>
        have heq : b.bridgeLoop t (n + 1) levels bridges (f :: p :: rest2) =
            b.bridgeLoop t n levels
              (if f.target_found && decide (m > p.level) then
                (if bridges.contains (Wall.fromDir p.cell
                    (kDirections.getD (p.dir_index - 1) Direction.Right)) then
                  bridges
                 else Wall.fromDir p.cell
                    (kDirections.getD (p.dir_index - 1) Direction.Right) :: bridges)
              else bridges)
              ({ p with
                  target_found := p.target_found || f.target_found
                  min_level := min p.min_level m } :: rest2) := by
          rw [bridgeLoop_succ n levels bridges f (p :: rest2), hscan]
        rw [heq]
        obtain ⟨parE, hpost⟩ := ih _ _ _ _ _ (LoopInv_pop hinv hscan) (by
          simp only [List.length_cons] at hfuel ⊢
          omega)
        exact ⟨parE, Post_comp_pop hinv hblen hscan hpost⟩

/-- The loop invariant holds at the initial state of `find_bridges`. -/
theorem init_inv {b : Board} {s t : Cell} (hrows : 0 < b.m_rows)
    (hcols : 0 < b.m_columns) (hsin : InBounds b s) (binit : List Wall) :
    LoopInv b s t
      ((List.replicate (b.m_columns * b.m_rows).toNat (-1)).set
        (b.index_from_cell s).toNat 1)
      binit [⟨s, 1, 0, decide (s = t), 1⟩] [∅] (fun _ => none) := by
  have hreplen : (List.replicate (b.m_columns * b.m_rows).toNat (-1 : Int)).length =
      (b.m_columns * b.m_rows).toNat := List.length_replicate _ _
  have hrepget : ∀ x : Cell,
      lvl b (List.replicate (b.m_columns * b.m_rows).toNat (-1)) x = -1 := by
    intro x
    simp [lvl, List.getD]
  have hlvls : lvl b ((List.replicate (b.m_columns * b.m_rows).toNat (-1)).set
      (b.index_from_cell s).toNat 1) s = 1 := lvl_set_self hsin hreplen 1
  have hlvlo : ∀ x, x ≠ s → InBounds b x →
      lvl b ((List.replicate (b.m_columns * b.m_rows).toNat (-1)).set
        (b.index_from_cell s).toNat 1) x = -1 := by
    intro x hxs hxin
    rw [lvl_set_other hsin hxin hxs 1]
    exact hrepget x
  have hdisc0 : ∀ x, discovered b
      ((List.replicate (b.m_columns * b.m_rows).toNat (-1)).set
        (b.index_from_cell s).toNat 1) x ↔ x = s := by
    intro x
    constructor
    · intro hx
      by_contra hxs
      exact hx.2 (hlvlo x hxs hx.1)
    · intro hx
      rw [hx]
      exact ⟨hsin, by rw [hlvls]; omega⟩
  refine ⟨hrows, hcols, ?_, rfl, by simp, ?_, ?_, ?_, ?_, ?_, ?_, rfl, ?_, ?_⟩
  · rw [List.length_set]
    exact hreplen
  · refine ⟨⟨hsin, hlvls, by simp [stackCells], Nat.zero_le 4, le_refl _, ?_, ?_, ?_,
      ?_, ?_, ?_, Or.inl rfl, ?_⟩, rfl, trivial⟩
    · simp
    · intro x hx
      cases hx
    · intro x hx
      cases hx
    · intro x hx
      cases hx
    · intro x hx
      cases hx
    · intro j hj
      have hj2 : j < 0 := hj
      omega
    · intro x hx d hp
      cases hp
  · intro x
    rw [hdisc0 x]
    constructor
    · intro hx
      exact Or.inl (by simp [stackCells, hx])
    · intro hx
      rcases hx with hx | ⟨D2, hD2, hxD2⟩
      · simp only [stackCells, List.map_cons, List.map_nil, List.mem_cons,
          List.not_mem_nil, or_false] at hx
        exact hx
      · simp only [List.mem_cons, List.not_mem_nil, or_false] at hD2
        rw [hD2] at hxD2
        cases hxD2
  · intro fr hfr D2 hD2
    simp only [List.mem_cons, List.not_mem_nil, or_false] at hD2
    rw [hD2]
    intro hx
    cases hx
  · intro x hx
    rw [hdisc0 x] at hx
    rw [hx, hlvls]
    exact ⟨by omega, by simp⟩
  · intro x hx hxs
    rw [hdisc0 x] at hx
    exact absurd hx hxs
  · intro x _
    rfl
  · intro x hx y d hp
    cases hp
  · intro D2 hD2 u hu
    simp only [List.mem_cons, List.not_mem_nil, or_false] at hD2
    rw [hD2] at hu
    cases hu

/-- Characterisation of the bridge list produced by `find_bridges` on a
fresh levels vector: the prior bridges plus exactly the unblocked walls
whose hypothetical placement disconnects `start` from `target`. -/
theorem find_bridges_sep {b : Board} {s t : Cell}
    (hblen : b.m_board.length = (b.m_columns * b.m_rows).toNat)
    (hrows : 0 < b.m_rows) (hcols : 0 < b.m_columns)
    (hsin : InBounds b s) (hst : reaches b s t)
    (binit : List Wall) (w : Wall) :
    w ∈ (b.find_bridges s t
        (List.replicate (b.m_columns * b.m_rows).toNat (-1)) binit).2 ↔
      (w ∈ binit ∨
        (b.is_blocked w = false ∧ ¬ reaches (b.hypPlace w) s t)) := by
  have hinv := init_inv (t := t) hrows hcols hsin binit
  have hreplen : (List.replicate (b.m_columns * b.m_rows).toNat (-1 : Int)).length =
      (b.m_columns * b.m_rows).toNat := List.length_replicate _ _
  have hcnt : ((List.replicate (b.m_columns * b.m_rows).toNat (-1)).set
      (b.index_from_cell s).toNat 1).count (-1 : Int) ≤
        (b.m_columns * b.m_rows).toNat := by
    calc ((List.replicate (b.m_columns * b.m_rows).toNat (-1)).set
        (b.index_from_cell s).toNat 1).count (-1 : Int) ≤
        ((List.replicate (b.m_columns * b.m_rows).toNat (-1)).set
          (b.index_from_cell s).toNat 1).length := List.count_le_length _ _
      _ = (b.m_columns * b.m_rows).toNat := by rw [List.length_set]; exact hreplen
  obtain ⟨parE, hpost⟩ := bridgeLoop_post hblen hst
    (2 * (b.m_columns * b.m_rows).toNat + 2) _ binit _ [∅] (fun _ => none) hinv
    (by simp only [List.length_cons, List.length_nil]; omega)
  have hsdisc0 : discovered b
      ((List.replicate (b.m_columns * b.m_rows).toNat (-1)).set
        (b.index_from_cell s).toNat 1) s :=
    ⟨hsin, by rw [lvl_set_self hsin hreplen 1]; omega⟩
  have hres : b.find_bridges s t
      (List.replicate (b.m_columns * b.m_rows).toNat (-1)) binit =
      b.bridgeLoop t (2 * (b.m_columns * b.m_rows).toNat + 2)
        ((List.replicate (b.m_columns * b.m_rows).toNat (-1)).set
          (b.index_from_cell s).toNat 1) binit
        [⟨s, 1, 0, decide (s = t), 1⟩] := rfl
  rw [hres]
  set res := b.bridgeLoop t (2 * (b.m_columns * b.m_rows).toNat + 2)
    ((List.replicate (b.m_columns * b.m_rows).toNat (-1)).set
      (b.index_from_cell s).toNat 1) binit
    [⟨s, 1, 0, decide (s = t), 1⟩] with hresdef
  have hsdiscE : discovered b res.1 s := by
    refine ⟨hsin, ?_⟩
    rw [hpost.hstable s hsdisc0, lvl_set_self hsin hreplen 1]
    omega
  have htdiscE : discovered b res.1 t := by
    refine reaches_stay (P := discovered b res.1) hsdiscE ?_ hst
    intro x y hx hadj
    obtain ⟨d, hd, hbl, hstep⟩ := hadj
    rw [hstep]
    exact hpost.hclosure x hx d hd hbl
  constructor
  · intro hw
    exact hpost.hsound w hw
  · intro hw
    rcases hw with hw | ⟨hwunb, hsep⟩
    · exact hpost.hsub w hw
    · suffices H : ∀ n : Nat, ∀ x, (lvl b res.1 x).toNat ≤ n →
          discovered b res.1 x → ¬ reaches (b.hypPlace w) s x →
          ∃ u y d, discovered b res.1 u ∧ u ≠ s ∧ parE u = some (y, d) ∧
            Wall.fromDir y d = w by
        obtain ⟨u, y, d, hudisc, hus, hpu, hwall⟩ :=
          H (lvl b res.1 t).toNat t (le_refl _) htdiscE hsep
        obtain ⟨y2, d2, hpu2, hcase⟩ := hpost.hcompE u hudisc hus
        have he : some (y2, d2) = some (y, d) := hpu2.symm.trans hpu
        injection he with he2
        have hyy : y2 = y := congrArg Prod.fst he2
        have hdd : d2 = d := congrArg Prod.snd he2
        rw [hyy, hdd, hwall] at hcase
        rcases hcase with hcase | hcase
        · exact hcase
        · exact absurd hcase hsep
      intro n
      induction n with
      | zero =>
        intro x hle hx hnr
        have h1 := (hpost.hlvlposE x hx).1
        omega
      | succ n ihn =>
        intro x hle hx hnr
        by_cases hxs : x = s
        · rw [hxs] at hnr
          exact absurd Relation.ReflTransGen.refl hnr
        · obtain ⟨y, d, hpx, hydisc, hdk, hbl, hystep, hylvl⟩ :=
            hpost.hparE x hx hxs
          by_cases hwall : Wall.fromDir y d = w
          · exact ⟨x, y, d, hx, hxs, hpx, hwall⟩
          · by_cases hry : reaches (b.hypPlace w) s y
            · refine absurd (Relation.ReflTransGen.tail hry ?_) hnr
              rw [cellAdj_hypPlace_iff hblen hwunb]
              exact ⟨d, hdk, hbl, hwall, hystep.symm⟩
            · have hy1 := (hpost.hlvlposE y hydisc).1
              exact ihn y (by omega) hydisc hry

/-- Membership in `legal_walls`: exactly the unblocked walls missing from
the accumulated bridge list of the two `find_bridges` passes. -/
theorem mem_legal_walls_iff (b : Board) (w : Wall) :
    w ∈ b.legal_walls ↔
      (b.is_blocked w = false ∧
        w ∉ (b.find_bridges (b.position Player.Red) (b.goal Player.Red)
          (List.replicate (b.m_columns * b.m_rows).toNat (-1))
          (b.find_bridges (b.position Player.Blue) (b.goal Player.Blue)
            (List.replicate (b.m_columns * b.m_rows).toNat (-1)) []).2).2) := by
  constructor
  · intro hw
    simp only [Board.legal_walls, List.mem_flatMap, List.mem_range,
      List.mem_filterMap, List.mem_cons, List.not_mem_nil, or_false] at hw
    obtain ⟨col, hcol, row, hrow, ty, hty, hsome⟩ := hw
    by_cases hcond : (!b.is_blocked ⟨⟨(col : Int), (row : Int)⟩, ty⟩ &&
        !((b.find_bridges (b.position Player.Red) (b.goal Player.Red)
          (List.replicate (b.m_columns * b.m_rows).toNat (-1))
          (b.find_bridges (b.position Player.Blue) (b.goal Player.Blue)
            (List.replicate (b.m_columns * b.m_rows).toNat (-1)) []).2).2).contains
          ⟨⟨(col : Int), (row : Int)⟩, ty⟩) = true
    · rw [if_pos hcond] at hsome
      injection hsome with hsome2
      simp only [Bool.and_eq_true, Bool.not_eq_true'] at hcond
      rw [← hsome2]
      refine ⟨hcond.1, ?_⟩
      intro hmem
      have hc2 : ((b.find_bridges (b.position Player.Red) (b.goal Player.Red)
          (List.replicate (b.m_columns * b.m_rows).toNat (-1))
          (b.find_bridges (b.position Player.Blue) (b.goal Player.Blue)
            (List.replicate (b.m_columns * b.m_rows).toNat (-1)) []).2).2).contains
          ⟨⟨(col : Int), (row : Int)⟩, ty⟩ = true := by
        simpa using hmem
      rw [hcond.2] at hc2
      cases hc2
    · rw [if_neg hcond] at hsome
      cases hsome
  · rintro ⟨hunb, hnmem⟩
    obtain ⟨hin, _, _⟩ := is_blocked_false_elim hunb
    cases w with | mk wcell wty =>
    cases wcell with | mk wcol wrow =>
    obtain ⟨hc0, hcc, hr0, hrr⟩ := hin
    simp only at hc0 hcc hr0 hrr
    simp only [Board.legal_walls, List.mem_flatMap, List.mem_range,
      List.mem_filterMap, List.mem_cons, List.not_mem_nil, or_false]
    refine ⟨wcol.toNat, by omega, wrow.toNat, by omega, wty, ?_, ?_⟩
    · cases wty
      · exact Or.inr rfl
      · exact Or.inl rfl
    · have hcastc : ((wcol.toNat : Int)) = wcol := Int.toNat_of_nonneg hc0
      have hcastr : ((wrow.toNat : Int)) = wrow := Int.toNat_of_nonneg hr0
      rw [hcastc, hcastr]
      have hcont : ((b.find_bridges (b.position Player.Red) (b.goal Player.Red)
          (List.replicate (b.m_columns * b.m_rows).toNat (-1))
          (b.find_bridges (b.position Player.Blue) (b.goal Player.Blue)
            (List.replicate (b.m_columns * b.m_rows).toNat (-1)) []).2).2).contains
          ⟨⟨wcol, wrow⟩, wty⟩ = false := by
        by_contra hne
        have h2 : ((b.find_bridges (b.position Player.Red) (b.goal Player.Red)
            (List.replicate (b.m_columns * b.m_rows).toNat (-1))
            (b.find_bridges (b.position Player.Blue) (b.goal Player.Blue)
              (List.replicate (b.m_columns * b.m_rows).toNat (-1)) []).2).2).contains
            ⟨⟨wcol, wrow⟩, wty⟩ = true := by
          cases h3 : ((b.find_bridges (b.position Player.Red) (b.goal Player.Red)
              (List.replicate (b.m_columns * b.m_rows).toNat (-1))
              (b.find_bridges (b.position Player.Blue) (b.goal Player.Blue)
                (List.replicate (b.m_columns * b.m_rows).toNat (-1)) []).2).2).contains
              ⟨⟨wcol, wrow⟩, wty⟩
          · exact absurd h3 hne
          · rfl
        have hmem2 : (⟨⟨wcol, wrow⟩, wty⟩ : Wall) ∈
            (b.find_bridges (b.position Player.Red) (b.goal Player.Red)
              (List.replicate (b.m_columns * b.m_rows).toNat (-1))
              (b.find_bridges (b.position Player.Blue) (b.goal Player.Blue)
                (List.replicate (b.m_columns * b.m_rows).toNat (-1)) []).2).2 := by
          simpa using h2
        exact hnmem hmem2
      rw [if_pos]
      rw [hunb, hcont]
      rfl

/-- C1: on a board whose stored grid has the right size and whose cats sit
on the board with a path to their goals, `legal_walls` returns exactly the
walls `w` with `is_blocked w = false` such that hypothetically placing `w`
leaves both the red cat and the blue cat a path to their respective goals;
in particular no returned wall disconnects either cat from its goal, and
every non-blocked, non-disconnecting wall is returned. -/
theorem legal_walls_spec (b : Board)
    (hblen : b.m_board.length = (b.m_columns * b.m_rows).toNat)
    (hrows : 0 < b.m_rows) (hcols : 0 < b.m_columns)
    (hredin : InBounds b (b.position Player.Red))
    (hbluein : InBounds b (b.position Player.Blue))
    (hred : reaches b (b.position Player.Red) (b.goal Player.Red))
    (hblue : reaches b (b.position Player.Blue) (b.goal Player.Blue))
    (w : Wall) :
    w ∈ b.legal_walls ↔
      (b.is_blocked w = false ∧
        reaches (b.hypPlace w) (b.position Player.Red) (b.goal Player.Red) ∧
        reaches (b.hypPlace w) (b.position Player.Blue) (b.goal Player.Blue)) := by
  rw [mem_legal_walls_iff]
  have hr2 := find_bridges_sep hblen hrows hcols hredin hred
    (b.find_bridges (b.position Player.Blue) (b.goal Player.Blue)
      (List.replicate (b.m_columns * b.m_rows).toNat (-1)) []).2 w
  have hr1 := find_bridges_sep hblen hrows hcols hbluein hblue [] w
  rw [hr2, hr1]
  simp only [List.not_mem_nil, false_or]
  constructor
  · rintro ⟨hunb, hnmem⟩
    refine ⟨hunb, ?_, ?_⟩
    · by_contra hnr
      exact hnmem (Or.inr ⟨hunb, hnr⟩)
    · by_contra hnr
      exact hnmem (Or.inl ⟨hunb, hnr⟩)
  · rintro ⟨hunb, hrr, hrb⟩
    refine ⟨hunb, ?_⟩
    rintro (⟨_, hnr⟩ | ⟨_, hnr⟩)
    · exact hnr hrb
    · exact hnr hrr

theorem legal_walls_spec_witness :
    (⟨⟨0, 0⟩, WallType.Down⟩ : Wall) ∈ board22.legal_walls ↔
      (board22.is_blocked ⟨⟨0, 0⟩, WallType.Down⟩ = false ∧
        reaches (board22.hypPlace ⟨⟨0, 0⟩, WallType.Down⟩)
          (board22.position Player.Red) (board22.goal Player.Red) ∧
        reaches (board22.hypPlace ⟨⟨0, 0⟩, WallType.Down⟩)
          (board22.position Player.Blue) (board22.goal Player.Blue)) := by
  have h1 : cellAdj board22 ⟨0, 0⟩ ⟨1, 0⟩ :=
    ⟨Direction.Right, by decide, by decide, by decide⟩
  have h2 : cellAdj board22 ⟨1, 0⟩ ⟨1, 1⟩ :=
    ⟨Direction.Down, by decide, by decide, by decide⟩
  have h3 : cellAdj board22 ⟨1, 1⟩ ⟨0, 1⟩ :=
    ⟨Direction.Left, by decide, by decide, by decide⟩
  have hposr : board22.position Player.Red = ⟨0, 0⟩ := by decide
  have hposb : board22.position Player.Blue = ⟨1, 0⟩ := by decide
  have hgoalr : board22.goal Player.Red = ⟨1, 1⟩ := by decide
  have hgoalb : board22.goal Player.Blue = ⟨0, 1⟩ := by decide
  have hred : reaches board22 (board22.position Player.Red)
      (board22.goal Player.Red) := by
    rw [hposr, hgoalr]
    exact Relation.ReflTransGen.tail (Relation.ReflTransGen.tail
      Relation.ReflTransGen.refl h1) h2
  have hblue : reaches board22 (board22.position Player.Blue)
      (board22.goal Player.Blue) := by
    rw [hposb, hgoalb]
    exact Relation.ReflTransGen.tail (Relation.ReflTransGen.tail
      Relation.ReflTransGen.refl h2) h3
  exact legal_walls_spec board22 (by decide) (by decide) (by decide)
    (by decide) (by decide) hred hblue ⟨⟨0, 0⟩, WallType.Down⟩

end DW
